import Mathlib

/-!
Verification of the two MIG inverter-rewriting passes of this repository:
`mig_inv_minimization.hpp` (IM) and `mig_inv_propogation.hpp` (IP).

The passes live in `src/include/mockturtle/algorithms/`; the MIG store they
operate on (`mig.hpp`, `fanout_view.hpp`) is an external collaborator whose
interface semantics are given in spec.md section 6.  Accordingly, every
definition below that embeds in-repository code is translated directly from
the two headers, while the store operations (`replace_in_node`,
`substitute_node`, `take_out_node`, `replace_in_outputs`, `foreach_gate`,
`foreach_fanout`, `fanout_size`) are modelled from the spec, each marked with
a doc comment starting with `Modelled from the spec:`.
-/

namespace Mockturtle

/-- A signal: a pair of a node index and a complement (inversion) bit.
Mirrors `signal<Ntk>` with fields `index` and `complement`/`weight`. -/
structure Signal where
  index : Nat
  complement : Bool
deriving DecidableEq, Repr

/-- Fan-in triple of a majority node, mirroring `node_type.children[0..2]`. -/
structure MigNode where
  c0 : Signal
  c1 : Signal
  c2 : Signal
deriving DecidableEq, Repr

/-- One slot of the node pool: the fan-in triple plus the dead flag
(`take_out_node` marks a node dead; its stored fan-ins remain readable). -/
structure Entry where
  node : MigNode
  dead : Bool
deriving DecidableEq, Repr

/-- The MIG store, modelled from the spec's data model (section 3):
index 0 is the constant, indices 1..numPis are the primary inputs, larger
indices are majority gates appended in creation order; `outputs` is the
ordered primary-output table (duplicates permitted). -/
structure MIG where
  numPis : Nat
  entries : List Entry
  outputs : List Signal
deriving DecidableEq, Repr

def defaultSignal : Signal := ⟨0, false⟩

def defaultMigNode : MigNode := ⟨defaultSignal, defaultSignal, defaultSignal⟩

def defaultEntry : Entry := ⟨defaultMigNode, false⟩

def childList (nd : MigNode) : List Signal := [nd.c0, nd.c1, nd.c2]

def entryAt (mig : MIG) (n : Nat) : Entry := mig.entries.getD n defaultEntry

/-- Fan-in triple of node `n` (reads `_storage->nodes[n].children`). -/
def childrenOf (mig : MIG) (n : Nat) : MigNode := (entryAt mig n).node

/-- `is_constant(n)`: the constant is the reserved index 0. -/
def isConstant (n : Nat) : Bool := n == 0

/-- `is_pi(n)`: primary inputs occupy indices 1..numPis. -/
def isPi (mig : MIG) (n : Nat) : Bool := 1 ≤ n && n ≤ mig.numPis

/-- `is_dead(n)`: the dead flag of the node's pool slot. -/
def isDead (mig : MIG) (n : Nat) : Bool := (entryAt mig n).dead

/-- A live gate: a non-terminal pool index that is in range and not dead. -/
def isLiveGate (mig : MIG) (n : Nat) : Bool :=
  mig.numPis < n && n < mig.entries.length && !(isDead mig n)

/-- Modelled from the spec: `foreach_gate` visits every live non-terminal
node in index order (spec section 6).  This is the snapshot of gate indices
in the pool; liveness is additionally re-checked at visit time where the
source's iteration does so. -/
def gateIndices (mig : MIG) : List Nat :=
  (List.range mig.entries.length).filter (fun n => decide (mig.numPis < n))

/-- Live gates of the network, in index order. -/
def liveGates (mig : MIG) : List Nat :=
  (gateIndices mig).filter (fun n => !(isDead mig n))

/-- Modelled from the spec: `fanout_size(n)` equals the number of live
fan-in and primary-output occurrences of `n` (invariant I2, spec
sections 3 and 6). -/
def fanoutSize (mig : MIG) (n : Nat) : Nat :=
  ((liveGates mig).map
      (fun g => (childList (childrenOf mig g)).countP (fun fi => fi.index == n))).sum
  + mig.outputs.countP (fun po => po.index == n)

/-- Modelled from the spec: `foreach_fanout(n)` visits every live gate with
a fan-in referencing `n` (invariant I4, spec sections 4.6 and 6). -/
def fanoutList (mig : MIG) (n : Nat) : List Nat :=
  (liveGates mig).filter
    (fun g => (childList (childrenOf mig g)).any (fun fi => fi.index == n))

/-- The signal complement operator `!s` on signals. -/
def notSignal (s : Signal) : Signal := ⟨s.index, !s.complement⟩

/-- The three-element sorting network of `create_maj_without_changing_comp`
(identical in both headers): conditional swaps ordering the signals by
`index` ascending while carrying each complement bit along. -/
def sort3 (a b c : Signal) : Signal × Signal × Signal :=
  if a.index > b.index then
    -- std::swap(a, b)
    let a1 := b
    let b1 := a
    let b2 := if b1.index > c.index then c else b1
    let c2 := if b1.index > c.index then b1 else c
    let a3 := if a1.index > b2.index then b2 else a1
    let b3 := if a1.index > b2.index then a1 else b2
    (a3, b3, c2)
  else
    let b2 := if b.index > c.index then c else b
    let c2 := if b.index > c.index then b else c
    let a3 := if a.index > b2.index then b2 else a
    let b3 := if a.index > b2.index then a else b2
    (a3, b3, c2)

/-- Modelled from the spec: the structural hash maps a canonicalized fan-in
triple to the node index implementing it; dead nodes are removed from the
hash by `take_out_node` (spec sections 3 and 6).  We realize the lookup as a
search for a live gate holding exactly this triple. -/
def hashLookup (mig : MIG) (nd : MigNode) : Option Nat :=
  (liveGates mig).find? (fun g => childrenOf mig g == nd)

/-- `create_maj_without_changing_comp(a, b, c)` — translated from the source
(the function appears verbatim in both `mig_inv_minimization.hpp` lines
241-305 and `mig_inv_propogation.hpp` lines 226-290): order the inputs,
handle the trivial equal-index reductions, consult the structural hash, and
otherwise append a fresh node (the reference-count increments and `on_add`
fanout-index notifications are reflected automatically because reference
counts and fanout sets are computed from the structure). -/
def createMajWithoutChangingComp (mig : MIG) (a b c : Signal) : MIG × Signal :=
  let s := sort3 a b c
  let a := s.1
  let b := s.2.1
  let c := s.2.2
  if a.index == b.index then
    (mig, if a.complement == b.complement then a else c)
  else if b.index == c.index then
    (mig, if b.complement == c.complement then b else a)
  else
    let newNode : MigNode := ⟨a, b, c⟩
    match hashLookup mig newNode with
    | some i => (mig, ⟨i, false⟩)
    | none =>
        let index := mig.entries.length
        ({ mig with entries := mig.entries ++ [⟨newNode, false⟩] }, ⟨index, false⟩)

/-- `is_fanout_comp(in, out)` — translated from the source (both headers):
fold over `out`'s fan-ins, recording the complement bit of the (last)
fan-in whose index equals `in`. -/
def isFanoutComp (mig : MIG) (inn out : Nat) : Bool :=
  (childList (childrenOf mig out)).foldl
    (fun ret fi => if fi.index == inn then fi.complement else ret) false

/-- Modelled from the spec: `replace_in_node(m, old, new)` rewires `m`'s
fan-ins (every occurrence of `old` becomes `(new.index, comp XOR
new.complement)`), re-canonicalizes `m`, and returns a substitution signal
if `m` collapses via trivial reduction or structural-hash aliasing,
otherwise none (spec sections 6 and 4.2); in the collapse cases `m` itself
is left unchanged and the caller is responsible for the substitution. -/
def substSignal (old : Nat) (new fi : Signal) : Signal :=
  if fi.index == old then ⟨new.index, xor fi.complement new.complement⟩ else fi

/-- Store a new fan-in triple in pool slot `m`, keeping its dead flag. -/
def setNodeAt (mig : MIG) (m : Nat) (nd : MigNode) : MIG :=
  { mig with entries := mig.entries.set m { entryAt mig m with node := nd } }

def replaceInNode (mig : MIG) (m old : Nat) (new : Signal) : MIG × Option Signal :=
  let cs := childrenOf mig m
  if (childList cs).all (fun fi => fi.index != old) then
    (mig, none)
  else
    let s := sort3 (substSignal old new cs.c0) (substSignal old new cs.c1)
      (substSignal old new cs.c2)
    let d0 := s.1
    let d1 := s.2.1
    let d2 := s.2.2
    if d0.index == d1.index then
      (mig, some (if d0.complement == d1.complement then d0 else d2))
    else if d1.index == d2.index then
      (mig, some (if d1.complement == d2.complement then d1 else d0))
    else
      let newTriple : MigNode := ⟨d0, d1, d2⟩
      match hashLookup mig newTriple with
      | some i => (mig, some ⟨i, false⟩)
      | none => (setNodeAt mig m newTriple, none)

/-- Modelled from the spec: `substitute_node(m, s)` replaces every live use
of `m` (fan-ins and primary outputs) with signal `s` and marks `m` dead when
its reference count reaches zero (spec section 6). -/
def substituteNode (mig : MIG) (m : Nat) (s : Signal) : MIG :=
  let substChild : Signal → Signal := fun fi =>
    if fi.index == m then ⟨s.index, xor fi.complement s.complement⟩ else fi
  let entries := ((List.range mig.entries.length).zip mig.entries).map (fun p =>
    if mig.numPis < p.1 && !p.2.dead then
      let nd := p.2.node
      { p.2 with node := ⟨substChild nd.c0, substChild nd.c1, substChild nd.c2⟩ }
    else p.2)
  let outputs := mig.outputs.map (fun po =>
    if po.index == m then ⟨s.index, xor po.complement s.complement⟩ else po)
  let mig' : MIG := { mig with entries := entries, outputs := outputs }
  if fanoutSize mig' m == 0 then
    { mig' with entries := mig'.entries.set m { entryAt mig' m with dead := true } }
  else mig'

/-- Modelled from the spec: `take_out_node(n)` marks `n` dead; its removal
from the structural hash and the fanout sets is automatic here because both
are computed over live gates only (spec section 6). -/
def takeOutNode (mig : MIG) (n : Nat) : MIG :=
  { mig with entries := mig.entries.set n { entryAt mig n with dead := true } }

/-- Modelled from the spec: `replace_in_outputs(n, s)` retargets every
primary-output entry with `index == n` to `s.index`, XOR-ing the complement
(spec section 6).  Used by the IM pass's `inv_node`. -/
def replaceInOutputs (mig : MIG) (n : Nat) (s : Signal) : MIG :=
  { mig with outputs := mig.outputs.map (fun po =>
      if po.index == n then ⟨s.index, xor po.complement s.complement⟩ else po) }

/-! ## Inverter minimization (IM), `mig_inv_minimization.hpp` -/

/-- Statistics record of `mig_inv_minimization` (source lines 72-82).
Wall-clock time is represented as a duration count that no model operation
advances. -/
structure MigInvMinimizationStats where
  time_total : Nat
  num_calls : Nat
  num_inverters_removed : Nat
deriving DecidableEq, Repr

def initMinimizationStats : MigInvMinimizationStats := ⟨0, 0, 0⟩

/-- `one_level(n)` — translated from `mig_inv_minimization.hpp` lines
157-205: 0 for primary inputs, the constant and dead nodes; otherwise the
number of complemented fan-ins pointing to non-constant nodes, plus
complemented fan-out consumers, plus complemented primary outputs, minus
the corresponding uncomplemented counts.  The source computes the counts in
`uint32_t` and converts the difference to `int`; we use `Int` directly,
which agrees whenever the network has fewer than 2^31 edges. -/
def oneLevel (mig : MIG) (n : Nat) : Int :=
  if isPi mig n || isConstant n || isDead mig n then 0
  else
    let fis := childList (childrenOf mig n)
    let numComplInp := fis.countP (fun fi => !(isConstant fi.index) && fi.complement)
    let numNonComplInp := fis.countP (fun fi => !(isConstant fi.index) && !fi.complement)
    let fos := fanoutList mig n
    let numComplOut := fos.countP (fun fo => isFanoutComp mig n fo)
    let numNonComplOut := fos.countP (fun fo => !(isFanoutComp mig n fo))
    let numComplPo := mig.outputs.countP (fun po => po.index == n && po.complement)
    let numNonComplPo := mig.outputs.countP (fun po => po.index == n && !po.complement)
    ((numComplInp + numComplOut + numComplPo : Nat) : Int)
      - ((numNonComplInp + numNonComplOut + numNonComplPo : Nat) : Int)

/-- `two_level(n)` — translated from `mig_inv_minimization.hpp` lines
138-155: the one-level gain of `n` plus, for every fan-out consumer whose
adjusted one-level gain (minus 2 on a complemented edge, plus 2 otherwise)
is positive, that adjusted gain. -/
def twoLevel (mig : MIG) (n : Nat) : Int :=
  if isPi mig n || isConstant n || isDead mig n then 0
  else
    (fanoutList mig n).foldl
      (fun gain fo =>
        let gainFo :=
          if isFanoutComp mig n fo then oneLevel mig fo - 2 else oneLevel mig fo + 2
        if gainFo > 0 then gain + gainFo else gain)
      (oneLevel mig n)

/-- `inv_node(n, have_comp_out = true)` — translated from
`mig_inv_minimization.hpp` lines 207-229: build a majority node over the
complemented fan-ins of `n`, complement it, retarget every primary output of
`n` to the result, call `replace_in_node` on every fan-out consumer (the
`have_comp_out` default of `true` makes the complement test irrelevant) —
discarding the returned substitution signal — and take `n` out when its
reference count has dropped to zero.  Returns the updated network and the
node index of the replacement (`ntk.get_node(new_node)`). -/
def invNodeIM (mig : MIG) (n : Nat) (haveCompOut : Bool := true) : MIG × Nat :=
  if isPi mig n || isConstant n then (mig, n)
  else
    let cs := childrenOf mig n
    let a := notSignal cs.c0
    let b := notSignal cs.c1
    let c := notSignal cs.c2
    let r := createMajWithoutChangingComp mig a b c
    let newSig := notSignal r.2
    let mig := replaceInOutputs r.1 n newSig
    let fos := fanoutList mig n
    let mig := fos.foldl
      (fun mig fo =>
        if haveCompOut || isFanoutComp mig n fo then (replaceInNode mig fo n newSig).1
        else mig)
      mig
    let mig := if fanoutSize mig n == 0 then takeOutNode mig n else mig
    (mig, newSig.index)

/-- One iteration of the IM driver's `foreach_gate` lambda
(`mig_inv_minimization.hpp` lines 101-132) at gate index `n`: skip dead
nodes; on positive one-level gain credit it and invert `n`; then, on
positive two-level gain (re-evaluated on the mutated network), credit it,
invert `n` and additionally invert every fan-out of the replacement node
whose one-level gain is positive. -/
def imGateStep (st : MIG × MigInvMinimizationStats) (n : Nat) :
    MIG × MigInvMinimizationStats :=
  let mig := st.1
  let stats := st.2
  if isDead mig n then (mig, stats)
  else
    let p :=
      let gain := oneLevel mig n
      if gain > 0 then
        ((invNodeIM mig n).1,
         { stats with num_inverters_removed := stats.num_inverters_removed + gain.toNat })
      else (mig, stats)
    let mig := p.1
    let stats := p.2
    let gain := twoLevel mig n
    if gain > 0 then
      let stats :=
        { stats with num_inverters_removed := stats.num_inverters_removed + gain.toNat }
      let r := invNodeIM mig n
      let mig := r.1
      let newNode := r.2
      let mig := (fanoutList mig newNode).foldl
        (fun mig fo => if oneLevel mig fo > 0 then (invNodeIM mig fo).1 else mig) mig
      (mig, stats)
    else (mig, stats)

/-- `run()` of the IM pass (`mig_inv_minimization.hpp` lines 94-135): the
`while (minimized)` loop breaks unconditionally after its first iteration,
so the pass is a single `foreach_gate` sweep over the gate indices present
when the sweep starts. -/
def imRun (mig : MIG) (stats : MigInvMinimizationStats) :
    MIG × MigInvMinimizationStats :=
  (gateIndices mig).foldl imGateStep (mig, stats)

/-- `mig_inv_minimization(ntk, ps, pst)` (source lines 345-366): run the
pass with freshly default-initialized statistics and report them. -/
def migInvMinimization (mig : MIG) : MIG × MigInvMinimizationStats :=
  imRun mig initMinimizationStats

/-! ## Inverter propagation (IP), `mig_inv_propogation.hpp` -/

/-- Statistics record of `mig_inv_propogation` (source lines 72-82). -/
structure MigInvPropogationStats where
  time_total : Nat
  num_calls : Nat
  num_inverters_removed : Nat
deriving DecidableEq, Repr

def initPropogationStats : MigInvPropogationStats := ⟨0, 0, 0⟩

/-- `has_comp_fanout(n)` — translated from `mig_inv_propogation.hpp` lines
130-145: true iff some live gate consumes `n` through a complemented
fan-in (the source scans every gate, not only the fan-outs of `n`), or some
primary-output entry references `n` with the complement set. -/
def hasCompFanout (mig : MIG) (n : Nat) : Bool :=
  (liveGates mig).any (fun fo => isFanoutComp mig n fo)
  || mig.outputs.any (fun po => po.index == n && po.complement)

/-- `replace_in_outputs_cond_comp(old, s, have_comp_out = false)` —
translated from `mig_inv_propogation.hpp` lines 193-214: unless `old` is
dead, retarget every primary-output entry of `old` whose complement is set
(or every one, when `have_comp_out`) to `s.index`, XOR-ing the complement. -/
def replaceInOutputsCondComp (mig : MIG) (old : Nat) (s : Signal)
    (haveCompOut : Bool := false) : MIG :=
  if isDead mig old then mig
  else
    { mig with outputs := mig.outputs.map (fun po =>
        if po.index == old && (haveCompOut || po.complement) then
          ⟨s.index, xor po.complement s.complement⟩
        else po) }

/-- `inv_node(n, have_comp_out = false)` — translated from
`mig_inv_propogation.hpp` lines 146-178: like the IM variant, but only the
complemented primary outputs and the gates consuming `n` through a
complemented edge are rewired (the pass calls it with the default
`have_comp_out = false`), the gate scan runs over `foreach_gate` rather
than the fanout view, and — unlike IM — the substitution signal returned by
`replace_in_node` is propagated through `substitute_node`. -/
def invNodeIP (mig : MIG) (n : Nat) (haveCompOut : Bool := false) : MIG × Nat :=
  if isPi mig n || isConstant n then (mig, n)
  else
    let cs := childrenOf mig n
    let a := notSignal cs.c0
    let b := notSignal cs.c1
    let c := notSignal cs.c2
    let r := createMajWithoutChangingComp mig a b c
    let newSig := notSignal r.2
    let mig := replaceInOutputsCondComp r.1 n newSig haveCompOut
    let gs := gateIndices mig
    let mig := gs.foldl
      (fun mig fo =>
        if isDead mig fo then mig
        else if haveCompOut || isFanoutComp mig n fo then
          let p := replaceInNode mig fo n newSig
          match p.2 with
          | some s => substituteNode p.1 fo s
          | none => p.1
        else mig)
      mig
    let mig := if fanoutSize mig n == 0 then takeOutNode mig n else mig
    (mig, newSig.index)

/-- One iteration of the IP work-queue loop (`mig_inv_propogation.hpp`
lines 107-126) on a state of network and queue: pop the front index; skip
it when constant, primary input, or dead (enqueuing nothing); otherwise
invert it when it has a complemented fan-out and enqueue its (current)
fan-in indices.  The identity on an empty queue. -/
def ipStep (s : MIG × List Nat) : MIG × List Nat :=
  match s.2 with
  | [] => s
  | n :: q =>
      let mig := s.1
      if isConstant n || isPi mig n || isDead mig n then (mig, q)
      else
        let mig := if hasCompFanout mig n then (invNodeIP mig n).1 else mig
        (mig, q ++ (childList (childrenOf mig n)).map (fun fi => fi.index))

/-- The IP work-queue loop, fuel-indexed: returns the final network when
the queue empties within `fuel` iterations, and `none` otherwise. -/
def ipLoop : Nat → MIG × List Nat → Option MIG
  | _, (mig, []) => some mig
  | 0, (_, _ :: _) => none
  | fuel + 1, s => ipLoop fuel (ipStep s)

/-- The seed queue of `run()` (`mig_inv_propogation.hpp` lines 96-105):
every primary-output index is pushed; the complemented/uncomplemented
branches of the source are identical. -/
def ipSeeds (mig : MIG) : List Nat := mig.outputs.map (fun f => f.index)

/-- `mig_inv_propogation(ntk, ps, pst)` (source lines 331-352): run the
work-queue loop from the seeds and report the statistics record, which
`run()` never touches. -/
def migInvPropogation (fuel : Nat) (mig : MIG) :
    Option MIG × MigInvPropogationStats :=
  (ipLoop fuel (mig, ipSeeds mig), initPropogationStats)

/-! ## Fan-in triple side conditions -/

/-- The three fan-ins of a node reference pairwise distinct indices (the
form every node built through the canonicalizing constructor has, since
equal-index pairs are removed by trivial reduction). -/
def distinctChildren (nd : MigNode) : Bool :=
  nd.c0.index != nd.c1.index && nd.c0.index != nd.c2.index && nd.c1.index != nd.c2.index

/-- Every live gate of the network has pairwise distinct fan-in indices. -/
def childrenDistinctAll (mig : MIG) : Bool :=
  (liveGates mig).all (fun g => distinctChildren (childrenOf mig g))

/-! ## Spec-side gain counts (claim C7)

The six counters of spec.md section 4.3, written from the spec's words, to
be compared against the source's `one_level`. -/

/-- Spec: `C_in` = number of `n`'s own fan-in edges that are complemented
and point to non-constant nodes. -/
def specCIn (mig : MIG) (n : Nat) : Nat :=
  (childList (childrenOf mig n)).countP
    (fun fi => fi.complement && !(isConstant fi.index))

/-- Spec: `U_in` = number of `n`'s own fan-in edges that are uncomplemented
and point to non-constant nodes. -/
def specUIn (mig : MIG) (n : Nat) : Nat :=
  (childList (childrenOf mig n)).countP
    (fun fi => !fi.complement && !(isConstant fi.index))

/-- Spec: `C_out` = number of fan-out consumer gates whose edge to `n` is
complemented. -/
def specCOut (mig : MIG) (n : Nat) : Nat :=
  (fanoutList mig n).countP
    (fun fo => (childList (childrenOf mig fo)).any
      (fun fi => fi.index == n && fi.complement))

/-- Spec: `U_out` = number of fan-out consumer gates whose edge to `n` is
uncomplemented. -/
def specUOut (mig : MIG) (n : Nat) : Nat :=
  (fanoutList mig n).countP
    (fun fo => (childList (childrenOf mig fo)).any
      (fun fi => fi.index == n && !fi.complement))

/-- Spec: `C_po` = number of primary-output entries referencing `n` with
the complement set. -/
def specCPo (mig : MIG) (n : Nat) : Nat :=
  mig.outputs.countP (fun po => po.index == n && po.complement)

/-- Spec: `U_po` = number of primary-output entries referencing `n` with
the complement clear. -/
def specUPo (mig : MIG) (n : Nat) : Nat :=
  mig.outputs.countP (fun po => po.index == n && !po.complement)

/-! ## Observables

The quantities the spec's testable properties (section 8) and the
repository's tests measure. -/

/-- The number of live gates of the network (`num_gates`). -/
def numGates (mig : MIG) : Nat := (liveGates mig).length

/-- The global complement count: the number of complemented fan-in edges
over all live nodes plus the number of complemented primary-output entries
(spec glossary; `complement_count` in `test/algorithms/mig_inv_minimization.cpp`). -/
def complementCount (mig : MIG) : Nat :=
  ((liveGates mig).map
    (fun g => (childList (childrenOf mig g)).countP (fun fi => fi.complement))).sum
  + mig.outputs.countP (fun po => po.complement)

/-- The complement count restricted to edges whose source is an internal
node — complemented fan-ins and primary outputs that reference neither a
primary input nor the constant (`complement_count_except_pi` in
`test/algorithms/mig_inv_propogation.cpp`; the quantity the IP
post-condition asserts to be zero). -/
def complementCountExceptPi (mig : MIG) : Nat :=
  ((liveGates mig).map
    (fun g => (childList (childrenOf mig g)).countP
      (fun fi => fi.complement && !(isPi mig fi.index) && !(isConstant fi.index)))).sum
  + mig.outputs.countP
      (fun po => po.complement && !(isPi mig po.index) && !(isConstant po.index))

/-! ## Structural side conditions used by the universal theorems -/

/-- Map a function over the three fan-ins of a node. -/
def mapNode (f : Signal → Signal) (nd : MigNode) : MigNode := ⟨f nd.c0, f nd.c1, f nd.c2⟩

/-- The fan-in triple reordered by the source's sorting network. -/
def sortNode3 (nd : MigNode) : MigNode :=
  ⟨(sort3 nd.c0 nd.c1 nd.c2).1, (sort3 nd.c0 nd.c1 nd.c2).2.1,
   (sort3 nd.c0 nd.c1 nd.c2).2.2⟩

/-- Some fan-in of the triple references index `i`. -/
def hasIdx (nd : MigNode) (i : Nat) : Bool :=
  (childList nd).any (fun fi => fi.index == i)

/-- The fan-in triple is strictly sorted by index (the canonical form of
the structural hash: sorted, and free of the equal-index pairs that trivial
reduction eliminates). -/
def nodeSorted (nd : MigNode) : Prop :=
  nd.c0.index < nd.c1.index ∧ nd.c1.index < nd.c2.index

/-- The invariant the IM pass maintains: the pool has slots for the
constant and the primary inputs, primary outputs reference pool slots,
and every live gate has a strictly index-sorted fan-in triple whose
fan-ins stay inside the pool and never reference the gate itself; no two
live gates share a fan-in triple (invariant I1).  On the input network
these facts follow from I1-I4 and the canonical form (`wellFormed`
below); unlike I3, they survive the pass's rewiring. -/
structure InvIM (mig : MIG) : Prop where
  pis_lt : mig.numPis < mig.entries.length
  out_lt : ∀ po ∈ mig.outputs, po.index < mig.entries.length
  gSorted : ∀ g, isLiveGate mig g = true → nodeSorted (childrenOf mig g)
  gBounded : ∀ g, isLiveGate mig g = true →
    ∀ fi ∈ childList (childrenOf mig g), fi.index < mig.entries.length ∧ fi.index ≠ g
  gUniq : ∀ g h, isLiveGate mig g = true → isLiveGate mig h = true → g ≠ h →
    childrenOf mig g ≠ childrenOf mig h

/-- Decidable well-formedness of an input network, reflecting the claim's
hypotheses I1-I4 together with the data model's canonical form (spec
section 3): the pool holds the constant and the primary inputs, primary
outputs reference pool slots, every live gate's fan-in triple is strictly
sorted by index with every fan-in referencing a strictly smaller index
(I3), and no two live gates share a fan-in triple (I1).  (I2 and I4 —
reference-count and fanout-index accuracy — hold by construction in this
model, where both are computed from the structure.) -/
def wellFormed (mig : MIG) : Bool :=
  decide (mig.numPis < mig.entries.length) &&
  mig.outputs.all (fun po => decide (po.index < mig.entries.length)) &&
  (liveGates mig).all (fun g =>
    decide ((childrenOf mig g).c0.index < (childrenOf mig g).c1.index) &&
    decide ((childrenOf mig g).c1.index < (childrenOf mig g).c2.index) &&
    (childList (childrenOf mig g)).all (fun fi => decide (fi.index < g))) &&
  (liveGates mig).all (fun g => (liveGates mig).all (fun h =>
    g == h || childrenOf mig g != childrenOf mig h))

/-! ## Concrete networks used as inputs of the counterexample evaluations -/

/-- Pool slots for the constant and `k` primary inputs. -/
def piEntries (k : Nat) : List Entry := List.replicate (k + 1) defaultEntry

/-- A live gate entry with the given fan-in triple. -/
def gateEntry (a b c : Nat × Bool) : Entry :=
  ⟨⟨⟨a.1, a.2⟩, ⟨b.1, b.2⟩, ⟨c.1, c.2⟩⟩, false⟩

/-- Network netA (input for claim C3): primary inputs 1..5, gates
6 = M(0, 1, 2) (a majority with a constant fan-in, the representation of
AND(1,2)), 7 = M(3, 4, not 6), 8 = M(3, 5, not 6), 9 = M(4, 5, not 6);
primary outputs 7, 8, 9.  Gate 6 has one-level gain 1 (three complemented
consumers against two uncomplemented non-constant fan-ins), but inverting
it also flips its constant fan-in edge, which the gain does not count. -/
def netA : MIG :=
  ⟨5, piEntries 5 ++
      [gateEntry (0, false) (1, false) (2, false),
       gateEntry (3, false) (4, false) (6, true),
       gateEntry (3, false) (5, false) (6, true),
       gateEntry (4, false) (5, false) (6, true)],
   [⟨7, false⟩, ⟨8, false⟩, ⟨9, false⟩]⟩

/-- Network netB (input for claim C5): primary inputs 1..5, gates
6 = M(1, 2, 3), 7 = M(not 1, not 2, not 3), 8 = M(4, not 6, 7); primary
outputs [not 6, not 6, not 6, 8, 7].  Inverting gate 6 structurally hashes
onto gate 7, and rewiring consumer 8 collapses it trivially (its triple
becomes (4, 7, 7) with equal complements), so `replace_in_node` returns the
substitution signal (7, uncomplemented). -/
def netB : MIG :=
  ⟨5, piEntries 5 ++
      [gateEntry (1, false) (2, false) (3, false),
       gateEntry (1, true) (2, true) (3, true),
       gateEntry (4, false) (6, true) (7, false)],
   [⟨6, true⟩, ⟨6, true⟩, ⟨6, true⟩, ⟨8, false⟩, ⟨7, false⟩]⟩

/-- Network netC (input for claims C2 and C4): primary inputs 1..5, gates
6 = M(1, 2, 3), 7 = M(not 1, not 2, not 3), 8 = M(1, 2, 4),
9 = M(not 6, not 7, not 8); primary outputs [6, 9].  When IP pops node 6,
inverting it hashes onto gate 7 and consumer 9 collapses to the signal
(8, complemented); `substitute_node` then rewrites the primary output 9
into (8, complemented), and index 8 is never enqueued afterwards. -/
def netC : MIG :=
  ⟨5, piEntries 5 ++
      [gateEntry (1, false) (2, false) (3, false),
       gateEntry (1, true) (2, true) (3, true),
       gateEntry (1, false) (2, false) (4, false),
       gateEntry (6, true) (7, true) (8, true)],
   [⟨6, false⟩, ⟨9, false⟩]⟩

/-- Network netD (input for claim C9): primary inputs 1..4, gates
5 = M(1, 2, 3), 6 = M(3, 4, not 5); primary outputs [5, 6].  Popping 5
inverts it (consumer 6 is complemented), appending node 7 and rewiring
gate 6 to consume node 7; the subsequent pop of 6 therefore enqueues the
fan-in index 7, which exceeds 6. -/
def netD : MIG :=
  ⟨4, piEntries 4 ++
      [gateEntry (1, false) (2, false) (3, false),
       gateEntry (3, false) (4, false) (5, true)],
   [⟨5, false⟩, ⟨6, false⟩]⟩

/-! ## Heights and acyclicity (claim C9)

The fuel-bounded height of a node in the child DAG.  On acyclic networks
it stabilizes once the fuel reaches the pool size, which gives a decidable
formulation of acyclicity and the canonical height used as the termination
measure of the IP work-queue loop. -/

/-- The fuel-bounded height: 0 for the constant, the primary inputs and
out-of-range indices, otherwise one more than the maximal bounded height of
the fan-ins (dead slots keep their stored fan-ins). -/
def heightF (mig : MIG) : Nat → Nat → Nat
  | 0, _ => 0
  | fuel + 1, x =>
      if isConstant x || isPi mig x || decide (mig.entries.length ≤ x) then 0
      else
        1 + max (heightF mig fuel (childrenOf mig x).c0.index)
            (max (heightF mig fuel (childrenOf mig x).c1.index)
              (heightF mig fuel (childrenOf mig x).c2.index))

/-- The canonical height: the bounded height at fuel equal to the pool
size. -/
def hgt (mig : MIG) (x : Nat) : Nat := heightF mig mig.entries.length x

/-- Acyclicity of the child relation, expressed as stabilization of the
bounded height at the pool size. -/
def Acyc (mig : MIG) : Prop :=
  ∀ x, heightF mig (mig.entries.length + 1) x = heightF mig mig.entries.length x

/-- `H` certifies acyclicity: every fan-in of every in-range gate slot
carries a strictly smaller label. -/
def HCert (mig : MIG) (H : Nat → Nat) : Prop :=
  ∀ x, mig.numPis < x → x < mig.entries.length →
    ∀ fi ∈ childList (childrenOf mig x), H fi.index < H x

/-- Every in-range gate slot references only in-range indices. -/
def ChildRange (mig : MIG) : Prop :=
  ∀ x, mig.numPis < x → x < mig.entries.length →
    ∀ fi ∈ childList (childrenOf mig x), fi.index < mig.entries.length

/-- The state invariant of the IP work-queue loop: the pool holds the
terminals, all stored fan-ins are in range, and the child relation is
acyclic. -/
structure InvIP (mig : MIG) : Prop where
  pis_lt : mig.numPis < mig.entries.length
  range : ChildRange mig
  acyc : Acyc mig

/-- The invariant of the consumer-rewiring sweep inside the IP pass's
`inv_node n` with replacement-signal index `m`: sizes are preserved,
fan-ins stay in range, acyclicity persists, canonical heights never
increase, the fan-ins of `n` stay untouched, and the replacement never
out-weighs the inverted node. -/
structure IpFoldInv (mig0 : MIG) (n m : Nat) (mg : MIG) : Prop where
  len_eq : mg.entries.length = mig0.entries.length
  pis_eq : mg.numPis = mig0.numPis
  range : ChildRange mg
  acyc : Acyc mg
  mono : ∀ x, hgt mg x ≤ hgt mig0 x
  chn : childrenOf mg n = childrenOf mig0 n
  hm : hgt mg m ≤ hgt mg n

/-- The termination measure of the IP loop: each queue entry weighs
exponentially in its canonical height. -/
def queueMeasure (mig : MIG) (q : List Nat) : Nat :=
  (q.map (fun x => 4 ^ hgt mig x)).sum

/-- The decidable form of the invariants the claim assumes, with I3 read
index-wise as stated (every fan-in of every in-range gate slot references a
strictly smaller index): pool size, primary-output ranges, and the strict
index decrease. -/
def wellFormedIdx (mig : MIG) : Bool :=
  decide (mig.numPis < mig.entries.length) &&
  mig.outputs.all (fun po => decide (po.index < mig.entries.length)) &&
  (List.range mig.entries.length).all (fun x =>
    !(decide (mig.numPis < x)) ||
    (childList (childrenOf mig x)).all (fun fi => decide (fi.index < x)))

/-! ## Evaluation semantics (claim C1)

Modelled from the spec (section 3 and invariant I5): a majority node
computes the Boolean majority of its fan-in values, a complemented edge
inverts the value it carries, the constant node computes false, and a
primary input reads the input assignment.  The fuel-bounded evaluator
stabilizes at the pool size on acyclic networks, exactly like the bounded
height. -/

/-- Boolean majority of three values. -/
def bmaj (a b c : Bool) : Bool := (a && b) || (a && c) || (b && c)

/-- Value carried by a signal under a valuation of the node indices: the
node value XOR the complement bit. -/
def sigVal (v : Nat → Bool) (s : Signal) : Bool := xor (v s.index) s.complement

/-- Value of a fan-in triple under a valuation: the majority of the three
carried values. -/
def evalNodeWith (v : Nat → Bool) (nd : MigNode) : Bool :=
  bmaj (sigVal v nd.c0) (sigVal v nd.c1) (sigVal v nd.c2)

/-- The fuel-bounded evaluator: primary inputs read the assignment, the
constant and out-of-range indices are false, and a gate slot (dead slots
keep their stored fan-ins) is the majority of its fan-in values. -/
def evalF (mig : MIG) (asg : Nat → Bool) : Nat → Nat → Bool
  | 0, x => isPi mig x && asg x
  | fuel + 1, x =>
      if isConstant x || isPi mig x || decide (mig.entries.length ≤ x) then
        isPi mig x && asg x
      else
        bmaj (xor (evalF mig asg fuel (childrenOf mig x).c0.index)
               (childrenOf mig x).c0.complement)
          (xor (evalF mig asg fuel (childrenOf mig x).c1.index)
            (childrenOf mig x).c1.complement)
          (xor (evalF mig asg fuel (childrenOf mig x).c2.index)
            (childrenOf mig x).c2.complement)

/-- The canonical node value: the bounded evaluator at fuel equal to the
pool size. -/
def evalC (mig : MIG) (asg : Nat → Bool) (x : Nat) : Bool :=
  evalF mig asg mig.entries.length x

/-- The observable behaviour of the network: the list of primary-output
values under an input assignment. -/
def poVals (mig : MIG) (asg : Nat → Bool) : List Bool :=
  mig.outputs.map (fun po => xor (evalC mig asg po.index) po.complement)

/-- The invariant of the consumer-rewiring sweep inside the IM pass's
`inv_node n` with replacement-signal index `m`, for a fixed input
assignment: the structural sweep invariant, plus: the primary-output table
is untouched and every canonical node value is preserved. -/
structure ImValFold (mig0 : MIG) (asg : Nat → Bool) (n m : Nat) (mg : MIG)
    extends IpFoldInv mig0 n m mg : Prop where
  outs_eq : mg.outputs = mig0.outputs
  evals : ∀ x, evalC mg asg x = evalC mig0 asg x

/-- The invariant of the consumer-rewiring sweep inside the IP pass's
`inv_node n`, for a fixed input assignment: the structural sweep
invariant, plus: primary outputs stay in range, every canonical node value
is preserved, and the observable primary-output values are preserved. -/
structure IpValFold (mig0 : MIG) (asg : Nat → Bool) (n m : Nat) (mg : MIG)
    extends IpFoldInv mig0 n m mg : Prop where
  out_lt : ∀ po ∈ mg.outputs, po.index < mg.entries.length
  evals : ∀ x, evalC mg asg x = evalC mig0 asg x
  vals : poVals mg asg = poVals mig0 asg

/-- The driver-level invariant of the IM sweep, for a fixed input
assignment: the structural loop invariant, a non-shrinking pool, in-range
primary outputs, and preserved observable primary-output values. -/
structure ImPassInv (mig0 : MIG) (asg : Nat → Bool) (mg : MIG) : Prop where
  inv : InvIP mg
  len_ge : mig0.entries.length ≤ mg.entries.length
  pis_eq : mg.numPis = mig0.numPis
  out_lt : ∀ po ∈ mg.outputs, po.index < mg.entries.length
  vals : poVals mg asg = poVals mig0 asg

/-! ## Generic list helpers -/

theorem nat_beq_eq_decide (a b : Nat) : (a == b) = decide (a = b) := by
  by_cases h : a = b
  · subst h; simp
  · simp [h, beq_eq_false_iff_ne.mpr h]

theorem countP_congr_mem {α : Type} {p q : α → Bool} :
    ∀ {l : List α}, (∀ a ∈ l, p a = q a) → l.countP p = l.countP q := by
  intro l
  induction l with
  | nil => intro _; rfl
  | cons x xs ih =>
      intro h
      rw [List.countP_cons, List.countP_cons, h x (List.mem_cons_self x xs),
        ih (fun a ha => h a (List.mem_cons_of_mem x ha))]

theorem getD_set_self {α : Type} {l : List α} {m : Nat} (h : m < l.length) (e d : α) :
    (l.set m e).getD m d = e := by
  induction l generalizing m with
  | nil => simp at h
  | cons x xs ih =>
      cases m with
      | zero => rfl
      | succ k => exact ih (Nat.lt_of_succ_lt_succ h)

theorem getD_set_ne {α : Type} {l : List α} {m x : Nat} (h : x ≠ m) (e d : α) :
    (l.set m e).getD x d = l.getD x d := by
  induction l generalizing m x with
  | nil => rfl
  | cons y ys ih =>
      cases m with
      | zero =>
          cases x with
          | zero => exact absurd rfl h
          | succ k => rfl
      | succ k =>
          cases x with
          | zero => rfl
          | succ j => exact ih (fun hc => h (congrArg Nat.succ hc))

theorem getD_append_lt {α : Type} {l l' : List α} {x : Nat} (h : x < l.length) (d : α) :
    (l ++ l').getD x d = l.getD x d := by
  induction l generalizing x with
  | nil => simp at h
  | cons y ys ih =>
      cases x with
      | zero => rfl
      | succ k => exact ih (Nat.lt_of_succ_lt_succ h)

theorem getD_append_length {α : Type} {l : List α} (e d : α) :
    (l ++ [e]).getD l.length d = e := by
  induction l with
  | nil => rfl
  | cons y ys ih => exact ih

theorem getD_ge_length {α : Type} {l : List α} {x : Nat} (h : l.length ≤ x) (d : α) :
    l.getD x d = d := by
  induction l generalizing x with
  | nil => cases x <;> rfl
  | cons y ys ih =>
      cases x with
      | zero => simp at h
      | succ k => exact ih (Nat.le_of_succ_le_succ h)

theorem countP_succ_of_mem {l : List Nat} (hl : l.Nodup) {p q : Nat → Bool} {x : Nat}
    (hx : x ∈ l) (hpx : p x = true) (hqx : q x = false)
    (hrest : ∀ a ∈ l, a ≠ x → p a = q a) : l.countP p = l.countP q + 1 := by
  induction l with
  | nil => simp at hx
  | cons a as ih =>
      have hnd := List.nodup_cons.mp hl
      rcases List.mem_cons.mp hx with h | h
      · subst h
        have heq : as.countP p = as.countP q := by
          apply countP_congr_mem
          intro b hb
          exact hrest b (List.mem_cons_of_mem _ hb) (fun hbx => hnd.1 (hbx ▸ hb))
        rw [List.countP_cons, List.countP_cons, hpx, hqx, heq]
        simp
      · have hax : a ≠ x := fun hax => hnd.1 (hax ▸ h)
        have := ih hnd.2 h (fun b hb hbx => hrest b (List.mem_cons_of_mem _ hb) hbx)
        rw [List.countP_cons, List.countP_cons, hrest a (List.mem_cons_self a as) hax]
        omega


/-! ## Frame lemmas for the store operations -/

theorem entryAt_set (mig : MIG) (m : Nat) (e : Entry) (x : Nat) :
    entryAt { mig with entries := mig.entries.set m e } x =
      if x = m ∧ m < mig.entries.length then e else entryAt mig x := by
  unfold entryAt
  dsimp only
  by_cases hx : x = m
  · subst hx
    by_cases hm : x < mig.entries.length
    · rw [getD_set_self hm]
      simp [hm]
    · rw [List.set_eq_of_length_le (Nat.le_of_not_lt hm)]
      simp [hm]
  · rw [getD_set_ne hx]
    simp [hx]

theorem mem_liveGates {mig : MIG} {x : Nat} :
    x ∈ liveGates mig ↔ isLiveGate mig x = true := by
  unfold liveGates gateIndices isLiveGate
  simp only [List.mem_filter, List.mem_range, decide_eq_true_eq, Bool.and_eq_true,
    Bool.not_eq_true']
  constructor
  · rintro ⟨⟨hr, hp⟩, hd⟩
    exact ⟨⟨by simpa using hp, by simpa using hr⟩, hd⟩
  · rintro ⟨⟨hp, hr⟩, hd⟩
    exact ⟨⟨by simpa using hr, by simpa using hp⟩, hd⟩

theorem liveGates_nodup (mig : MIG) : (liveGates mig).Nodup :=
  ((List.nodup_range _).filter _).filter _

theorem mem_fanoutList {mig : MIG} {n x : Nat} :
    x ∈ fanoutList mig n ↔ isLiveGate mig x = true ∧
      (childList (childrenOf mig x)).any (fun fi => fi.index == n) = true := by
  unfold fanoutList
  rw [List.mem_filter, mem_liveGates]

theorem fanoutList_nodup (mig : MIG) (n : Nat) : (fanoutList mig n).Nodup :=
  (liveGates_nodup mig).filter _

/-- Two networks with the same primary-input count, pool length and dead
flags on the non-terminal slots have the same live-gate list. -/
theorem liveGates_congr {m1 m2 : MIG} (hp : m2.numPis = m1.numPis)
    (hl : m2.entries.length = m1.entries.length)
    (hd : ∀ g ∈ gateIndices m1, isDead m2 g = isDead m1 g) :
    liveGates m2 = liveGates m1 := by
  unfold liveGates gateIndices
  rw [hl, hp]
  exact List.filter_congr (fun a ha => by rw [hd a ha])

/-- `replace_in_node` either leaves the network untouched (returning a
substitution signal or nothing) or updates exactly the fan-in triple of the
slot `m`, returning nothing. -/
theorem replaceInNode_cases (mig : MIG) (m old : Nat) (new : Signal) :
    (replaceInNode mig m old new).1 = mig ∨
    ((replaceInNode mig m old new).2 = none ∧
      ∃ nd : MigNode, (replaceInNode mig m old new).1 = setNodeAt mig m nd) := by
  unfold replaceInNode
  dsimp only
  split
  · exact Or.inl rfl
  · split
    · exact Or.inl rfl
    · split
      · exact Or.inl rfl
      · split
        · exact Or.inl rfl
        · exact Or.inr ⟨rfl, _, rfl⟩

theorem replaceInNode_numPis (mig : MIG) (m old : Nat) (new : Signal) :
    (replaceInNode mig m old new).1.numPis = mig.numPis := by
  rcases replaceInNode_cases mig m old new with h | ⟨-, nd, h⟩ <;> rw [h] <;> rfl

theorem replaceInNode_outputs (mig : MIG) (m old : Nat) (new : Signal) :
    (replaceInNode mig m old new).1.outputs = mig.outputs := by
  rcases replaceInNode_cases mig m old new with h | ⟨-, nd, h⟩ <;> rw [h] <;> rfl

theorem replaceInNode_length (mig : MIG) (m old : Nat) (new : Signal) :
    (replaceInNode mig m old new).1.entries.length = mig.entries.length := by
  rcases replaceInNode_cases mig m old new with h | ⟨-, nd, h⟩ <;> rw [h] <;>
    simp [setNodeAt]

theorem replaceInNode_isDead (mig : MIG) (m old : Nat) (new : Signal) (x : Nat) :
    isDead (replaceInNode mig m old new).1 x = isDead mig x := by
  rcases replaceInNode_cases mig m old new with h | ⟨-, nd, h⟩
  · rw [h]
  · rw [h]
    unfold isDead setNodeAt
    rw [entryAt_set]
    split
    · next hc => rw [hc.1]
    · rfl

theorem replaceInNode_entryAt_ne (mig : MIG) (m old : Nat) (new : Signal) (x : Nat)
    (hx : x ≠ m) :
    entryAt (replaceInNode mig m old new).1 x = entryAt mig x := by
  rcases replaceInNode_cases mig m old new with h | ⟨-, nd, h⟩
  · rw [h]
  · rw [h]
    unfold setNodeAt
    rw [entryAt_set]
    simp [hx]

theorem replaceInNode_liveGates (mig : MIG) (m old : Nat) (new : Signal) :
    liveGates (replaceInNode mig m old new).1 = liveGates mig :=
  liveGates_congr (replaceInNode_numPis ..) (replaceInNode_length ..)
    (fun g _ => replaceInNode_isDead mig m old new g)

theorem replaceInNode_numGates (mig : MIG) (m old : Nat) (new : Signal) :
    numGates (replaceInNode mig m old new).1 = numGates mig := by
  unfold numGates
  rw [replaceInNode_liveGates]

theorem replaceInOutputs_liveGates (mig : MIG) (n : Nat) (s : Signal) :
    liveGates (replaceInOutputs mig n s) = liveGates mig :=
  liveGates_congr rfl rfl (fun _ _ => rfl)

theorem takeOutNode_numPis (mig : MIG) (n : Nat) :
    (takeOutNode mig n).numPis = mig.numPis := rfl

theorem takeOutNode_length (mig : MIG) (n : Nat) :
    (takeOutNode mig n).entries.length = mig.entries.length := by
  unfold takeOutNode
  simp

theorem takeOutNode_outputs (mig : MIG) (n : Nat) :
    (takeOutNode mig n).outputs = mig.outputs := rfl

theorem takeOutNode_entryAt_ne (mig : MIG) (n x : Nat) (hx : x ≠ n) :
    entryAt (takeOutNode mig n) x = entryAt mig x := by
  unfold takeOutNode
  rw [entryAt_set]
  simp [hx]

theorem takeOutNode_isDead_ne (mig : MIG) (n x : Nat) (hx : x ≠ n) :
    isDead (takeOutNode mig n) x = isDead mig x := by
  unfold isDead
  rw [takeOutNode_entryAt_ne mig n x hx]

theorem takeOutNode_childrenOf (mig : MIG) (n x : Nat) :
    childrenOf (takeOutNode mig n) x = childrenOf mig x := by
  unfold childrenOf takeOutNode
  rw [entryAt_set]
  split
  · next hc => rw [hc.1]
  · rfl

/-- Marking a live gate dead removes exactly it from the live-gate list. -/
theorem takeOutNode_numGates_live (mig : MIG) (n : Nat)
    (hn : isLiveGate mig n = true) :
    numGates (takeOutNode mig n) + 1 = numGates mig := by
  unfold numGates liveGates
  have hglen : gateIndices (takeOutNode mig n) = gateIndices mig := by
    unfold gateIndices
    rw [takeOutNode_length]
    rfl
  rw [hglen, ← List.countP_eq_length_filter, ← List.countP_eq_length_filter]
  have hnd : (gateIndices mig).Nodup := (List.nodup_range _).filter _
  have hmem : n ∈ gateIndices mig := by
    unfold gateIndices
    unfold isLiveGate at hn
    simp only [Bool.and_eq_true, decide_eq_true_eq] at hn
    simp only [List.mem_filter, List.mem_range, decide_eq_true_eq]
    exact ⟨hn.1.2, hn.1.1⟩
  have hdn : isDead (takeOutNode mig n) n = true := by
    unfold isDead takeOutNode
    rw [entryAt_set]
    unfold isLiveGate at hn
    simp only [Bool.and_eq_true, decide_eq_true_eq] at hn
    simp [hn.1.2]
  have := countP_succ_of_mem hnd hmem
    (p := fun x => !(isDead mig x)) (q := fun x => !(isDead (takeOutNode mig n) x))
    (by
      unfold isLiveGate at hn
      simp only [Bool.and_eq_true, Bool.not_eq_true'] at hn
      simp [hn.2])
    (by simp [hdn])
    (fun a _ ha => by
      show (!isDead mig a) = (!isDead (takeOutNode mig n) a)
      rw [takeOutNode_isDead_ne mig n a ha])
  have hswap : (gateIndices mig).countP (fun x => !(isDead (takeOutNode mig n) x))
      = (gateIndices mig).countP (fun x => !(isDead mig x)) - 1 := by omega
  omega

theorem takeOutNode_numGates_le (mig : MIG) (n : Nat) :
    numGates (takeOutNode mig n) ≤ numGates mig := by
  by_cases hn : isLiveGate mig n = true
  · have := takeOutNode_numGates_live mig n hn
    omega
  · have : liveGates (takeOutNode mig n) = liveGates mig := by
      apply liveGates_congr (takeOutNode_numPis mig n) (takeOutNode_length mig n)
      intro g hg
      by_cases hgn : g = n
      · subst hgn
        simp only [gateIndices, List.mem_filter, List.mem_range,
          decide_eq_true_eq] at hg
        have hdead : isDead mig g = true := by
          unfold isLiveGate at hn
          simp only [Bool.and_eq_true, decide_eq_true_eq, Bool.not_eq_true',
            not_and, Bool.not_eq_false] at hn
          exact hn ⟨hg.2, hg.1⟩
        unfold isDead takeOutNode
        rw [entryAt_set]
        split
        · next hc =>
            simp only [isDead] at hdead
            simp [hdead]
        · rfl
      · exact takeOutNode_isDead_ne mig n g hgn
    unfold numGates
    rw [this]

/-! ## Append and constructor lemmas -/

theorem entryAt_append_lt (mig : MIG) (e : Entry) {x : Nat}
    (h : x < mig.entries.length) :
    entryAt { mig with entries := mig.entries ++ [e] } x = entryAt mig x :=
  getD_append_lt h _

theorem entryAt_append_self (mig : MIG) (e : Entry) :
    entryAt { mig with entries := mig.entries ++ [e] } mig.entries.length = e :=
  getD_append_length e _

theorem liveGates_append (mig : MIG) (e : Entry) (hp : mig.numPis < mig.entries.length)
    (hd : e.dead = false) :
    liveGates { mig with entries := mig.entries ++ [e] }
      = liveGates mig ++ [mig.entries.length] := by
  unfold liveGates gateIndices isDead entryAt
  dsimp only
  rw [List.length_append, List.length_singleton, List.range_succ,
    List.filter_append, List.filter_append]
  have hfilt : List.filter (fun n => decide (mig.numPis < n)) [mig.entries.length]
      = [mig.entries.length] := by
    simp [hp]
  rw [hfilt]
  congr 1
  · exact List.filter_congr (fun a ha => by
      have hin : a < mig.entries.length := List.mem_range.mp (List.mem_filter.mp ha).1
      rw [getD_append_lt hin])
  · simp [getD_append_length, hd]

theorem numGates_append (mig : MIG) (e : Entry) (hp : mig.numPis < mig.entries.length)
    (hd : e.dead = false) :
    numGates { mig with entries := mig.entries ++ [e] } = numGates mig + 1 := by
  unfold numGates
  rw [liveGates_append mig e hp hd, List.length_append, List.length_singleton]

theorem isLiveGate_append_lt (mig : MIG) (e : Entry) {x : Nat}
    (h : x < mig.entries.length) :
    isLiveGate { mig with entries := mig.entries ++ [e] } x = isLiveGate mig x := by
  unfold isLiveGate isDead entryAt
  dsimp only
  rw [List.length_append, List.length_singleton, getD_append_lt h]
  have hx : decide (x < mig.entries.length + 1) = decide (x < mig.entries.length) := by
    simp [h, Nat.lt_succ_of_lt h]
  rw [hx]

theorem isLiveGate_append_self (mig : MIG) (e : Entry)
    (hp : mig.numPis < mig.entries.length) (hd : e.dead = false) :
    isLiveGate { mig with entries := mig.entries ++ [e] } mig.entries.length = true := by
  unfold isLiveGate isDead entryAt
  dsimp only
  rw [List.length_append, List.length_singleton, getD_append_length]
  simp [hp, hd]

theorem isLiveGate_append_cases (mig : MIG) (e : Entry) {x : Nat}
    (h : isLiveGate { mig with entries := mig.entries ++ [e] } x = true) :
    x = mig.entries.length ∨ isLiveGate mig x = true := by
  by_cases hx : x = mig.entries.length
  · exact Or.inl hx
  · right
    have hlt : x < mig.entries.length := by
      unfold isLiveGate at h
      simp only [Bool.and_eq_true, decide_eq_true_eq] at h
      have := h.1.2
      simp only [List.length_append, List.length_singleton] at this
      omega
    rw [← isLiveGate_append_lt mig e hlt]
    exact h

/-- The output of `sort3` is a rearrangement of its inputs: each signal is
carried whole (index and complement together) through the swaps. -/
theorem sort3_perm (a b c : Signal) :
    [(sort3 a b c).1, (sort3 a b c).2.1, (sort3 a b c).2.2].Perm [a, b, c] := by
  dsimp only [sort3]
  split_ifs <;>
    first
      | exact List.Perm.refl _
      | exact List.Perm.swap a b [c]
      | exact List.Perm.cons a (List.Perm.swap b c [])
      | exact (List.Perm.swap a c [b]).trans (List.Perm.cons a (List.Perm.swap b c []))
      | exact (List.Perm.cons b (List.Perm.swap a c [])).trans (List.Perm.swap a b [c])
      | exact (List.Perm.cons c (List.Perm.swap a b [])).trans
          ((List.Perm.swap a c [b]).trans (List.Perm.cons a (List.Perm.swap b c [])))

/-- The output of `sort3` is ordered by index ascending. -/
theorem sort3_sorted (a b c : Signal) :
    (sort3 a b c).1.index ≤ (sort3 a b c).2.1.index ∧
    (sort3 a b c).2.1.index ≤ (sort3 a b c).2.2.index := by
  dsimp only [sort3]
  split_ifs <;> constructor <;> simp_all <;> omega

/-- With pairwise distinct input indices the sorting network orders
strictly. -/
theorem sort3_strict (a b c : Signal) (hab : a.index ≠ b.index)
    (hac : a.index ≠ c.index) (hbc : b.index ≠ c.index) :
    (sort3 a b c).1.index < (sort3 a b c).2.1.index ∧
    (sort3 a b c).2.1.index < (sort3 a b c).2.2.index := by
  dsimp only [sort3]
  split_ifs <;> constructor <;> simp_all <;> omega

/-- `create_maj_without_changing_comp` either leaves the pool untouched or
appends exactly the sorted triple as a fresh live node after an
unsuccessful hash lookup. -/
theorem createMaj_cases (mig : MIG) (a b c : Signal) :
    (createMajWithoutChangingComp mig a b c).1 = mig ∨
    (createMajWithoutChangingComp mig a b c =
        ({ mig with entries := mig.entries ++
            [⟨⟨(sort3 a b c).1, (sort3 a b c).2.1, (sort3 a b c).2.2⟩, false⟩] },
         ⟨mig.entries.length, false⟩) ∧
      hashLookup mig ⟨(sort3 a b c).1, (sort3 a b c).2.1, (sort3 a b c).2.2⟩ = none) := by
  unfold createMajWithoutChangingComp
  dsimp only
  split
  · exact Or.inl rfl
  · split
    · exact Or.inl rfl
    · split
      · exact Or.inl rfl
      · next heq => exact Or.inr ⟨rfl, heq⟩

/-- With distinct sorted indices, the constructor reduces to the hash
lookup. -/
theorem createMaj_eq_of_distinct (mig : MIG) (a b c : Signal)
    (h01 : (sort3 a b c).1.index ≠ (sort3 a b c).2.1.index)
    (h12 : (sort3 a b c).2.1.index ≠ (sort3 a b c).2.2.index) :
    createMajWithoutChangingComp mig a b c =
      (match hashLookup mig ⟨(sort3 a b c).1, (sort3 a b c).2.1, (sort3 a b c).2.2⟩ with
        | some i => (mig, ⟨i, false⟩)
        | none =>
            ({ mig with entries := mig.entries ++
                [⟨⟨(sort3 a b c).1, (sort3 a b c).2.1, (sort3 a b c).2.2⟩, false⟩] },
             ⟨mig.entries.length, false⟩)) := by
  unfold createMajWithoutChangingComp
  dsimp only
  rw [if_neg, if_neg]
  · simp [h12]
  · simp [h01]

/-- Strictly index-sorted triples that are permutations of each other are
componentwise equal. -/
theorem sorted3_perm_eq {x0 x1 x2 y0 y1 y2 : Signal}
    (hp : ([x0, x1, x2] : List Signal).Perm [y0, y1, y2])
    (hx0 : x0.index < x1.index) (hx1 : x1.index < x2.index)
    (hy0 : y0.index < y1.index) (hy1 : y1.index < y2.index) :
    x0 = y0 ∧ x1 = y1 ∧ x2 = y2 := by
  have m0 : y0 ∈ ([x0, x1, x2] : List Signal) := hp.mem_iff.mpr (by simp)
  have m1 : y1 ∈ ([x0, x1, x2] : List Signal) := hp.mem_iff.mpr (by simp)
  have m2 : y2 ∈ ([x0, x1, x2] : List Signal) := hp.mem_iff.mpr (by simp)
  simp only [List.mem_cons, List.mem_singleton, List.not_mem_nil, or_false] at m0 m1 m2
  rcases m0 with h0 | h0 | h0 <;> rcases m1 with h1 | h1 | h1 <;>
    rcases m2 with h2 | h2 | h2 <;>
    (try subst h0) <;> (try subst h1) <;> (try subst h2) <;>
    first
      | exact ⟨rfl, rfl, rfl⟩
      | omega

/-! ## Properties of the last-match fan-out complement test -/

/-- On a gate with distinct fan-in indices that does consume `n`, the
source's last-match fold `is_fanout_comp` agrees with "some fan-in is
(n, complemented)". -/
theorem isFanoutComp_eq_any_comp (mig : MIG) (n fo : Nat)
    (hd : distinctChildren (childrenOf mig fo) = true)
    (hm : (childList (childrenOf mig fo)).any (fun fi => fi.index == n) = true) :
    isFanoutComp mig n fo
      = (childList (childrenOf mig fo)).any (fun fi => fi.index == n && fi.complement) := by
  unfold isFanoutComp
  generalize hcs : childrenOf mig fo = cs at hd hm ⊢
  obtain ⟨c0, c1, c2⟩ := cs
  simp only [distinctChildren, Bool.and_eq_true, bne_iff_ne, ne_eq] at hd
  simp only [childList, List.any_cons, List.any_nil, Bool.or_eq_true,
    Bool.and_eq_true, beq_iff_eq, Bool.or_false] at hm ⊢
  simp only [List.foldl_cons, List.foldl_nil]
  obtain ⟨⟨h01, h02⟩, h12⟩ := hd
  by_cases e0 : c0.index = n <;> by_cases e1 : c1.index = n <;>
    by_cases e2 : c2.index = n <;>
    simp_all [nat_beq_eq_decide]

/-- Negated version of `isFanoutComp_eq_any_comp`. -/
theorem not_isFanoutComp_eq_any_not_comp (mig : MIG) (n fo : Nat)
    (hd : distinctChildren (childrenOf mig fo) = true)
    (hm : (childList (childrenOf mig fo)).any (fun fi => fi.index == n) = true) :
    (!(isFanoutComp mig n fo))
      = (childList (childrenOf mig fo)).any (fun fi => fi.index == n && !fi.complement) := by
  unfold isFanoutComp
  generalize hcs : childrenOf mig fo = cs at hd hm ⊢
  obtain ⟨c0, c1, c2⟩ := cs
  simp only [distinctChildren, Bool.and_eq_true, bne_iff_ne, ne_eq] at hd
  simp only [childList, List.any_cons, List.any_nil, Bool.or_eq_true,
    Bool.and_eq_true, beq_iff_eq, Bool.or_false] at hm ⊢
  simp only [List.foldl_cons, List.foldl_nil]
  obtain ⟨⟨h01, h02⟩, h12⟩ := hd
  by_cases e0 : c0.index = n <;> by_cases e1 : c1.index = n <;>
    by_cases e2 : c2.index = n <;>
    simp_all [nat_beq_eq_decide]

/-! ## Node-level helpers for the gate-count development -/

theorem map_id_of_mem {α : Type} {f : α → α} :
    ∀ {l : List α}, (∀ a ∈ l, f a = a) → l.map f = l := by
  intro l
  induction l with
  | nil => intro _; rfl
  | cons x xs ih =>
      intro h
      rw [List.map_cons, h x (List.mem_cons_self x xs),
        ih (fun a ha => h a (List.mem_cons_of_mem x ha))]

theorem childList_mapNode (f : Signal → Signal) (nd : MigNode) :
    childList (mapNode f nd) = (childList nd).map f := rfl

theorem childList_sortNode3_perm (nd : MigNode) :
    (childList (sortNode3 nd)).Perm (childList nd) :=
  sort3_perm nd.c0 nd.c1 nd.c2

theorem nodeSorted_sortNode3 {nd : MigNode}
    (h01 : nd.c0.index ≠ nd.c1.index) (h02 : nd.c0.index ≠ nd.c2.index)
    (h12 : nd.c1.index ≠ nd.c2.index) : nodeSorted (sortNode3 nd) :=
  sort3_strict nd.c0 nd.c1 nd.c2 h01 h02 h12

theorem nodeSorted_ne {nd : MigNode} (h : nodeSorted nd) :
    nd.c0.index ≠ nd.c1.index ∧ nd.c0.index ≠ nd.c2.index ∧ nd.c1.index ≠ nd.c2.index := by
  obtain ⟨h1, h2⟩ := h
  omega

/-- Two index-sorted nodes built from the same signal multiset are equal. -/
theorem sortNode3_inj_of_perm {g f : MigNode}
    (hp : (childList g).Perm (childList f))
    (hg : nodeSorted g) (hf : nodeSorted f) : g = f := by
  obtain ⟨e0, e1, e2⟩ := sorted3_perm_eq hp hg.1 hg.2 hf.1 hf.2
  cases g
  cases f
  simp_all

/-- The substitution `substSignal n ⟨L, k⟩` is undone by
`substSignal L ⟨n, k⟩` on signals whose index is below `L`. -/
theorem substSignal_leftInv {n L : Nat} {k : Bool} {fi : Signal}
    (hfi : fi.index < L) :
    substSignal L ⟨n, k⟩ (substSignal n ⟨L, k⟩ fi) = fi := by
  unfold substSignal
  by_cases h : fi.index = n
  · obtain ⟨fidx, fcomp⟩ := fi
    subst h
    simp [Bool.xor_assoc]
  · have : (fi.index == n) = false := beq_eq_false_iff_ne.mpr h
    rw [this]
    simp only [Bool.false_eq_true, if_false]
    have : (fi.index == L) = false := beq_eq_false_iff_ne.mpr (Nat.ne_of_lt hfi)
    rw [this]
    simp

/-- Rewiring two index-sorted, index-bounded triples onto the same fresh
index yields equal stored triples only when the originals were equal. -/
theorem sigma_triple_inj {n L : Nat} {k : Bool} {g f : MigNode}
    (hgB : ∀ fi ∈ childList g, fi.index < L) (hfB : ∀ fi ∈ childList f, fi.index < L)
    (hgS : nodeSorted g) (hfS : nodeSorted f)
    (heq : sortNode3 (mapNode (substSignal n ⟨L, k⟩) g)
         = sortNode3 (mapNode (substSignal n ⟨L, k⟩) f)) : g = f := by
  have hp1 : (childList (sortNode3 (mapNode (substSignal n ⟨L, k⟩) g))).Perm
      ((childList g).map (substSignal n ⟨L, k⟩)) := by
    rw [← childList_mapNode]
    exact childList_sortNode3_perm _
  have hp2 : (childList (sortNode3 (mapNode (substSignal n ⟨L, k⟩) f))).Perm
      ((childList f).map (substSignal n ⟨L, k⟩)) := by
    rw [← childList_mapNode]
    exact childList_sortNode3_perm _
  have hmap : ((childList g).map (substSignal n ⟨L, k⟩)).Perm
      ((childList f).map (substSignal n ⟨L, k⟩)) :=
    hp1.symm.trans (heq ▸ hp2)
  have hback := hmap.map (substSignal L ⟨n, k⟩)
  rw [List.map_map, List.map_map] at hback
  have hg' : (childList g).map (substSignal L ⟨n, k⟩ ∘ substSignal n ⟨L, k⟩) = childList g :=
    map_id_of_mem (fun a ha => substSignal_leftInv (hgB a ha))
  have hf' : (childList f).map (substSignal L ⟨n, k⟩ ∘ substSignal n ⟨L, k⟩) = childList f :=
    map_id_of_mem (fun a ha => substSignal_leftInv (hfB a ha))
  rw [hg', hf'] at hback
  exact sortNode3_inj_of_perm hback hgS hfS

/-! ## Characterizations of the rewiring primitive -/

theorem hashLookup_none_iff (mig : MIG) (nd : MigNode) :
    hashLookup mig nd = none ↔
      ∀ g ∈ liveGates mig, childrenOf mig g ≠ nd := by
  unfold hashLookup
  rw [List.find?_eq_none]
  constructor
  · intro h g hg
    have := h g hg
    simpa using this
  · intro h g hg
    simpa using h g hg

theorem hashLookup_some (mig : MIG) (nd : MigNode) (i : Nat)
    (h : hashLookup mig nd = some i) :
    isLiveGate mig i = true ∧ childrenOf mig i = nd := by
  unfold hashLookup at h
  refine ⟨mem_liveGates.mp (List.mem_of_find?_eq_some h), ?_⟩
  have := List.find?_some h
  simpa using this

theorem isLiveGate_setNode (mig : MIG) (m : Nat) (nd : MigNode) (x : Nat) :
    isLiveGate (setNodeAt mig m nd) x = isLiveGate mig x := by
  unfold isLiveGate isDead setNodeAt
  dsimp only
  rw [List.length_set, entryAt_set]
  split
  · next hc => rw [hc.1]
  · rfl

theorem childrenOf_setNode_self (mig : MIG) (m : Nat) (nd : MigNode)
    (hm : m < mig.entries.length) :
    childrenOf (setNodeAt mig m nd) m = nd := by
  unfold childrenOf setNodeAt
  rw [entryAt_set]
  simp [hm]

theorem childrenOf_setNode_ne (mig : MIG) (m : Nat) (nd : MigNode) (x : Nat)
    (hx : x ≠ m) :
    childrenOf (setNodeAt mig m nd) x = childrenOf mig x := by
  unfold childrenOf setNodeAt
  rw [entryAt_set]
  simp [hx]

/-- Refined case split for `replace_in_node`: either the network is left
untouched, or the call returns no substitution signal and stores in slot
`m` exactly the re-sorted substituted triple — in which case `m` did
consume `old`, the stored triple is strictly sorted, and the structural
hash had no live gate with that triple. -/
theorem replaceInNode_cases2 (mig : MIG) (m old : Nat) (new : Signal) :
    (replaceInNode mig m old new).1 = mig ∨
    (replaceInNode mig m old new =
        (setNodeAt mig m (sortNode3 (mapNode (substSignal old new) (childrenOf mig m))),
         none) ∧
      (childList (childrenOf mig m)).any (fun fi => fi.index == old) = true ∧
      nodeSorted (sortNode3 (mapNode (substSignal old new) (childrenOf mig m))) ∧
      hashLookup mig (sortNode3 (mapNode (substSignal old new) (childrenOf mig m)))
        = none) := by
  unfold replaceInNode
  dsimp only
  split
  · exact Or.inl rfl
  · next hall =>
      have hmem : (childList (childrenOf mig m)).any (fun fi => fi.index == old)
          = true := by
        by_contra hany
        apply hall
        rw [List.all_eq_true]
        intro fi hfi
        rw [List.any_eq_true] at hany
        push_neg at hany
        have hthis := hany fi hfi
        simpa using hthis
      split
      · exact Or.inl rfl
      · next h01 =>
          split
          · exact Or.inl rfl
          · next h12 =>
              split
              · exact Or.inl rfl
              · next heq =>
                  refine Or.inr ⟨rfl, hmem, ?_, heq⟩
                  have hs := sort3_sorted (substSignal old new (childrenOf mig m).c0)
                    (substSignal old new (childrenOf mig m).c1)
                    (substSignal old new (childrenOf mig m).c2)
                  simp only [beq_iff_eq] at h01 h12
                  exact ⟨Nat.lt_of_le_of_ne hs.1 h01, Nat.lt_of_le_of_ne hs.2 h12⟩

/-- When `m` consumes `old`, the substituted fan-in indices are pairwise
distinct, and no live gate already holds the substituted triple, the
rewiring branch of `replace_in_node` is forced. -/
theorem replaceInNode_forced (mig : MIG) (m old : Nat) (new : Signal)
    (hmem : (childList (childrenOf mig m)).any (fun fi => fi.index == old) = true)
    (hs : nodeSorted (childrenOf mig m))
    (hB : ∀ fi ∈ childList (childrenOf mig m), fi.index ≠ new.index)
    (hnone : hashLookup mig (sortNode3 (mapNode (substSignal old new) (childrenOf mig m)))
      = none) :
    replaceInNode mig m old new =
      (setNodeAt mig m (sortNode3 (mapNode (substSignal old new) (childrenOf mig m))),
       none) := by
  have b0 := hB (childrenOf mig m).c0 (by simp [childList])
  have b1 := hB (childrenOf mig m).c1 (by simp [childList])
  have b2 := hB (childrenOf mig m).c2 (by simp [childList])
  have hd : (substSignal old new (childrenOf mig m).c0).index
        ≠ (substSignal old new (childrenOf mig m).c1).index ∧
      (substSignal old new (childrenOf mig m).c0).index
        ≠ (substSignal old new (childrenOf mig m).c2).index ∧
      (substSignal old new (childrenOf mig m).c1).index
        ≠ (substSignal old new (childrenOf mig m).c2).index := by
    obtain ⟨h01, h12⟩ := hs
    unfold substSignal
    by_cases e0 : (childrenOf mig m).c0.index = old <;>
      by_cases e1 : (childrenOf mig m).c1.index = old <;>
      by_cases e2 : (childrenOf mig m).c2.index = old <;>
      simp [e0, e1, e2, nat_beq_eq_decide] <;> omega
  have hstrict := sort3_strict (substSignal old new (childrenOf mig m).c0)
    (substSignal old new (childrenOf mig m).c1)
    (substSignal old new (childrenOf mig m).c2) hd.1 hd.2.1 hd.2.2
  have e1 : ((sort3 (substSignal old new (childrenOf mig m).c0)
      (substSignal old new (childrenOf mig m).c1)
      (substSignal old new (childrenOf mig m).c2)).1.index
        == (sort3 (substSignal old new (childrenOf mig m).c0)
      (substSignal old new (childrenOf mig m).c1)
      (substSignal old new (childrenOf mig m).c2)).2.1.index) = false :=
    beq_eq_false_iff_ne.mpr (Nat.ne_of_lt hstrict.1)
  have e2 : ((sort3 (substSignal old new (childrenOf mig m).c0)
      (substSignal old new (childrenOf mig m).c1)
      (substSignal old new (childrenOf mig m).c2)).2.1.index
        == (sort3 (substSignal old new (childrenOf mig m).c0)
      (substSignal old new (childrenOf mig m).c1)
      (substSignal old new (childrenOf mig m).c2)).2.2.index) = false :=
    beq_eq_false_iff_ne.mpr (Nat.ne_of_lt hstrict.2)
  have hnone' : hashLookup mig
      ⟨(sort3 (substSignal old new (childrenOf mig m).c0)
          (substSignal old new (childrenOf mig m).c1)
          (substSignal old new (childrenOf mig m).c2)).1,
        (sort3 (substSignal old new (childrenOf mig m).c0)
          (substSignal old new (childrenOf mig m).c1)
          (substSignal old new (childrenOf mig m).c2)).2.1,
        (sort3 (substSignal old new (childrenOf mig m).c0)
          (substSignal old new (childrenOf mig m).c1)
          (substSignal old new (childrenOf mig m).c2)).2.2⟩ = none := hnone
  have hg1 : ¬((childList (childrenOf mig m)).all (fun fi => fi.index != old) = true) := by
    rw [List.all_eq_true]
    intro hforall
    rw [List.any_eq_true] at hmem
    obtain ⟨fi, hfi, hfieq⟩ := hmem
    have hne := hforall fi hfi
    simp only [bne_iff_ne, ne_eq] at hne
    exact hne (by simpa using hfieq)
  unfold replaceInNode
  dsimp only
  rw [if_neg hg1, if_neg (by simp [e1]), if_neg (by simp [e2]), hnone']
  rfl

/-- The substituted triple never references `old` when the replacement
index differs from `old`. -/
theorem hasIdx_substImage_old {old : Nat} {new : Signal} {cs : MigNode}
    (hne : new.index ≠ old) :
    hasIdx (sortNode3 (mapNode (substSignal old new) cs)) old = false := by
  unfold hasIdx
  rw [Bool.eq_false_iff]
  intro hany
  rw [List.any_eq_true] at hany
  obtain ⟨fi, hfi, hfieq⟩ := hany
  have hmem : fi ∈ (childList cs).map (substSignal old new) := by
    have hp := childList_sortNode3_perm (mapNode (substSignal old new) cs)
    rw [childList_mapNode] at hp
    exact hp.mem_iff.mp hfi
  rw [List.mem_map] at hmem
  obtain ⟨a, ha, rfl⟩ := hmem
  unfold substSignal at hfieq
  by_cases h : a.index = old
  · simp only [h, beq_self_eq_true, if_true] at hfieq
    exact hne (by simpa using hfieq)
  · have : (a.index == old) = false := beq_eq_false_iff_ne.mpr h
    rw [this] at hfieq
    simp only [Bool.false_eq_true, if_false] at hfieq
    exact h (by simpa using hfieq)

/-- The substituted triple references the replacement index when `m`
consumed `old`. -/
theorem hasIdx_substImage_new {old : Nat} {new : Signal} {cs : MigNode}
    (hmem : (childList cs).any (fun fi => fi.index == old) = true) :
    hasIdx (sortNode3 (mapNode (substSignal old new) cs)) new.index = true := by
  unfold hasIdx
  rw [List.any_eq_true] at hmem ⊢
  obtain ⟨a, ha, haeq⟩ := hmem
  have hp := childList_sortNode3_perm (mapNode (substSignal old new) cs)
  rw [childList_mapNode] at hp
  refine ⟨substSignal old new a, hp.mem_iff.mpr (List.mem_map_of_mem _ ha), ?_⟩
  unfold substSignal
  rw [show (a.index == old) = true from haeq]
  simp

/-! ## Invariant preservation for the store operations -/

theorem setNodeAt_length (mig : MIG) (m : Nat) (nd : MigNode) :
    (setNodeAt mig m nd).entries.length = mig.entries.length := by
  unfold setNodeAt
  simp

theorem setNodeAt_numPis (mig : MIG) (m : Nat) (nd : MigNode) :
    (setNodeAt mig m nd).numPis = mig.numPis := rfl

theorem setNodeAt_outputs (mig : MIG) (m : Nat) (nd : MigNode) :
    (setNodeAt mig m nd).outputs = mig.outputs := rfl

theorem hasIdx_false_of_forall {nd : MigNode} {i : Nat}
    (h : ∀ fi ∈ childList nd, fi.index ≠ i) : hasIdx nd i = false := by
  unfold hasIdx
  rw [Bool.eq_false_iff]
  intro hany
  rw [List.any_eq_true] at hany
  obtain ⟨fi, hfi, hfieq⟩ := hany
  exact h fi hfi (by simpa using hfieq)

theorem forall_of_hasIdx_false {nd : MigNode} {i : Nat}
    (h : hasIdx nd i = false) : ∀ fi ∈ childList nd, fi.index ≠ i := by
  intro fi hfi hfieq
  unfold hasIdx at h
  rw [Bool.eq_false_iff] at h
  exact h (by
    rw [List.any_eq_true]
    exact ⟨fi, hfi, by simpa using hfieq⟩)

/-- Retargeting primary outputs to an in-range signal preserves the
invariant. -/
theorem replaceInOutputs_InvIM (mig : MIG) (n : Nat) (s : Signal)
    (hinv : InvIM mig) (hs : s.index < mig.entries.length) :
    InvIM (replaceInOutputs mig n s) := by
  refine ⟨hinv.pis_lt, ?_, hinv.gSorted, hinv.gBounded, hinv.gUniq⟩
  intro po hpo
  unfold replaceInOutputs at hpo
  simp only [List.mem_map] at hpo
  obtain ⟨po', hpo', heq⟩ := hpo
  by_cases h : (po'.index == n) = true
  · rw [h] at heq
    simp only [if_true] at heq
    rw [← heq]
    exact hs
  · rw [Bool.not_eq_true] at h
    rw [h] at heq
    simp only [Bool.false_eq_true, if_false] at heq
    rw [← heq]
    exact hinv.out_lt po' hpo'

theorem isLiveGate_takeOut (mig : MIG) (n x : Nat) :
    isLiveGate (takeOutNode mig n) x = true → isLiveGate mig x = true := by
  intro h
  by_cases hx : x = n
  · subst hx
    exfalso
    unfold isLiveGate isDead takeOutNode at h
    dsimp only at h
    rw [List.length_set, entryAt_set] at h
    simp only [Bool.and_eq_true, decide_eq_true_eq, Bool.not_eq_true'] at h
    obtain ⟨⟨h1, h2⟩, h3⟩ := h
    rw [if_pos ⟨trivial, h2⟩] at h3
    simp at h3
  · unfold isLiveGate at h ⊢
    rw [takeOutNode_length] at h
    rw [show isDead (takeOutNode mig n) x = isDead mig x from
      takeOutNode_isDead_ne mig n x hx] at h
    exact h

/-- Taking a node out preserves the invariant. -/
theorem takeOutNode_InvIM (mig : MIG) (n : Nat) (hinv : InvIM mig) :
    InvIM (takeOutNode mig n) := by
  have hch : ∀ x, childrenOf (takeOutNode mig n) x = childrenOf mig x :=
    takeOutNode_childrenOf mig n
  refine ⟨?_, ?_, ?_, ?_, ?_⟩
  · rw [show (takeOutNode mig n).numPis = mig.numPis from rfl, takeOutNode_length]
    exact hinv.pis_lt
  · rw [takeOutNode_outputs]
    intro po hpo
    rw [takeOutNode_length]
    exact hinv.out_lt po hpo
  · intro g hg
    rw [hch]
    exact hinv.gSorted g (isLiveGate_takeOut mig n g hg)
  · intro g hg fi hfi
    rw [hch] at hfi
    rw [takeOutNode_length]
    exact hinv.gBounded g (isLiveGate_takeOut mig n g hg) fi hfi
  · intro g h hg hh hne
    rw [hch, hch]
    exact hinv.gUniq g h (isLiveGate_takeOut mig n g hg) (isLiveGate_takeOut mig n h hh) hne

/-- A single `replace_in_node` call preserves the invariant, provided the
replacement signal stays inside the pool and (when the slot actually
consumes `old`) does not reference the slot itself. -/
theorem replaceInNode_InvIM (mig : MIG) (m old : Nat) (new : Signal)
    (hinv : InvIM mig) (hidx : new.index < mig.entries.length)
    (hne : (childList (childrenOf mig m)).any (fun fi => fi.index == old) = true →
      new.index ≠ m) :
    InvIM (replaceInNode mig m old new).1 := by
  rcases replaceInNode_cases2 mig m old new with h | ⟨heq, hmem, hsort, hnone⟩
  · rw [h]
    exact hinv
  · have hres : (replaceInNode mig m old new).1
        = setNodeAt mig m (sortNode3 (mapNode (substSignal old new) (childrenOf mig m))) := by
      rw [heq]
    rw [hres]
    have hnem := hne hmem
    refine ⟨?_, ?_, ?_, ?_, ?_⟩
    · rw [setNodeAt_numPis, setNodeAt_length]
      exact hinv.pis_lt
    · rw [setNodeAt_outputs]
      intro po hpo
      rw [setNodeAt_length]
      exact hinv.out_lt po hpo
    · intro g hg
      rw [isLiveGate_setNode] at hg
      by_cases hgm : g = m
      · subst hgm
        have hglt : g < mig.entries.length := by
          unfold isLiveGate at hg
          simp only [Bool.and_eq_true, decide_eq_true_eq] at hg
          exact hg.1.2
        rw [childrenOf_setNode_self mig g _ hglt]
        exact hsort
      · rw [childrenOf_setNode_ne mig m _ g hgm]
        exact hinv.gSorted g hg
    · intro g hg fi hfi
      rw [isLiveGate_setNode] at hg
      rw [setNodeAt_length]
      by_cases hgm : g = m
      · subst hgm
        have hglt : g < mig.entries.length := by
          unfold isLiveGate at hg
          simp only [Bool.and_eq_true, decide_eq_true_eq] at hg
          exact hg.1.2
        rw [childrenOf_setNode_self mig g _ hglt] at hfi
        have hp := childList_sortNode3_perm (mapNode (substSignal old new) (childrenOf mig g))
        rw [childList_mapNode] at hp
        have hfi' := hp.mem_iff.mp hfi
        rw [List.mem_map] at hfi'
        obtain ⟨a, ha, rfl⟩ := hfi'
        have hab := hinv.gBounded g hg a ha
        unfold substSignal
        by_cases hai : a.index = old
        · rw [if_pos (by simpa using hai)]
          exact ⟨hidx, hnem⟩
        · rw [if_neg (by simpa using hai)]
          exact hab
      · rw [childrenOf_setNode_ne mig m _ g hgm] at hfi
        exact hinv.gBounded g hg fi hfi
    · intro g h hg hh hgh
      rw [isLiveGate_setNode] at hg hh
      by_cases hgm : g = m <;> by_cases hhm : h = m
      · exact absurd (hgm.trans hhm.symm) hgh
      · subst hgm
        have hglt : g < mig.entries.length := by
          unfold isLiveGate at hg
          simp only [Bool.and_eq_true, decide_eq_true_eq] at hg
          exact hg.1.2
        rw [childrenOf_setNode_self mig g _ hglt,
          childrenOf_setNode_ne mig g _ h (by omega)]
        intro hcontra
        exact (hashLookup_none_iff mig _).mp hnone h (mem_liveGates.mpr hh) hcontra.symm
      · subst hhm
        have hhlt : h < mig.entries.length := by
          unfold isLiveGate at hh
          simp only [Bool.and_eq_true, decide_eq_true_eq] at hh
          exact hh.1.2
        rw [childrenOf_setNode_self mig h _ hhlt,
          childrenOf_setNode_ne mig h _ g (by omega)]
        intro hcontra
        exact (hashLookup_none_iff mig _).mp hnone g (mem_liveGates.mpr hg) hcontra
      · rw [childrenOf_setNode_ne mig m _ g hgm, childrenOf_setNode_ne mig m _ h hhm]
        exact hinv.gUniq g h hg hh hgh

theorem replaceInNode_childrenOf_ne (mig : MIG) (m old : Nat) (new : Signal)
    (x : Nat) (hx : x ≠ m) :
    childrenOf (replaceInNode mig m old new).1 x = childrenOf mig x := by
  unfold childrenOf
  rw [replaceInNode_entryAt_ne mig m old new x hx]

theorem replaceInNode_isLiveGate (mig : MIG) (m old : Nat) (new : Signal) (x : Nat) :
    isLiveGate (replaceInNode mig m old new).1 x = isLiveGate mig x := by
  unfold isLiveGate
  rw [replaceInNode_length, replaceInNode_numPis, replaceInNode_isDead]

/-- The consumer-rewiring sweep of the IM pass's `inv_node` in the
hash-hit case: rewiring onto the existing node `i` (which does not consume
`n`) preserves the invariant and every observable frame. -/
theorem fold_hashHit (n i : Nat) :
    ∀ (l : List Nat) (mg : MIG),
      InvIM mg →
      isLiveGate mg i = true →
      hasIdx (childrenOf mg i) n = false →
      (InvIM (l.foldl (fun mg2 fo =>
          if true || isFanoutComp mg2 n fo then (replaceInNode mg2 fo n ⟨i, true⟩).1
          else mg2) mg) ∧
       numGates (l.foldl (fun mg2 fo =>
          if true || isFanoutComp mg2 n fo then (replaceInNode mg2 fo n ⟨i, true⟩).1
          else mg2) mg) = numGates mg ∧
       (l.foldl (fun mg2 fo =>
          if true || isFanoutComp mg2 n fo then (replaceInNode mg2 fo n ⟨i, true⟩).1
          else mg2) mg).outputs = mg.outputs ∧
       (l.foldl (fun mg2 fo =>
          if true || isFanoutComp mg2 n fo then (replaceInNode mg2 fo n ⟨i, true⟩).1
          else mg2) mg).entries.length = mg.entries.length ∧
       (∀ x, isDead (l.foldl (fun mg2 fo =>
          if true || isFanoutComp mg2 n fo then (replaceInNode mg2 fo n ⟨i, true⟩).1
          else mg2) mg) x = isDead mg x) ∧
       (l.foldl (fun mg2 fo =>
          if true || isFanoutComp mg2 n fo then (replaceInNode mg2 fo n ⟨i, true⟩).1
          else mg2) mg).numPis = mg.numPis) := by
  intro l
  induction l with
  | nil => exact fun mg hinv _ _ => ⟨hinv, rfl, rfl, rfl, fun _ => rfl, rfl⟩
  | cons fo rest ih =>
      intro mg hinv hiLive hiIdx
      rw [List.foldl_cons]
      have hstep : (if true || isFanoutComp mg n fo then (replaceInNode mg fo n ⟨i, true⟩).1
          else mg) = (replaceInNode mg fo n ⟨i, true⟩).1 := by
        simp
      rw [hstep]
      have hilt : i < mg.entries.length := by
        unfold isLiveGate at hiLive
        simp only [Bool.and_eq_true, decide_eq_true_eq] at hiLive
        exact hiLive.1.2
      have hne : (childList (childrenOf mg fo)).any (fun fi => fi.index == n) = true →
          (⟨i, true⟩ : Signal).index ≠ fo := by
        intro hmem hif
        dsimp only at hif
        rw [← hif] at hmem
        rw [show (childList (childrenOf mg i)).any (fun fi => fi.index == n)
          = hasIdx (childrenOf mg i) n from rfl, hiIdx] at hmem
        exact Bool.false_ne_true hmem
      have hinv' := replaceInNode_InvIM mg fo n ⟨i, true⟩ hinv hilt hne
      have hiLive' : isLiveGate (replaceInNode mg fo n ⟨i, true⟩).1 i = true := by
        rw [replaceInNode_isLiveGate]
        exact hiLive
      have hiIdx' : hasIdx (childrenOf (replaceInNode mg fo n ⟨i, true⟩).1 i) n = false := by
        rcases replaceInNode_cases2 mg fo n ⟨i, true⟩ with h | ⟨heq, hmem, -, -⟩
        · rw [h]
          exact hiIdx
        · have hif : i ≠ fo := hne hmem
          rw [replaceInNode_childrenOf_ne mg fo n ⟨i, true⟩ i hif]
          exact hiIdx
      obtain ⟨a1, a2, a3, a4, a5, a6⟩ := ih (replaceInNode mg fo n ⟨i, true⟩).1 hinv' hiLive' hiIdx'
      refine ⟨a1, ?_, ?_, ?_, ?_, ?_⟩
      · rw [a2, replaceInNode_numGates]
      · rw [a3, replaceInNode_outputs]
      · rw [a4, replaceInNode_length]
      · intro x
        rw [a5 x, replaceInNode_isDead]
      · rw [a6, replaceInNode_numPis]

/-- The consumer-rewiring sweep of the IM pass's `inv_node` in the append
case: every remaining consumer of `n` is rewired onto the fresh node `L`
(no collapse can occur), so after the sweep no live gate consumes `n`,
while the invariant, the gate count, the outputs, and the dead flags are
all preserved. -/
theorem fold_append (mig0 : MIG) (n L : Nat)
    (hL : L = mig0.entries.length) (hinv0 : InvIM mig0) (hnlt : n < L) :
    ∀ (l : List Nat) (mg : MIG),
      InvIM mg →
      mg.entries.length = L + 1 →
      (∀ x, x ≠ L → isDead mg x = isDead mig0 x) →
      (∀ fi ∈ childList (childrenOf mg L), fi.index < L) →
      (∀ g ∈ l, childrenOf mg g = childrenOf mig0 g) →
      (∀ g, isLiveGate mg g = true → hasIdx (childrenOf mg g) n = true → g ∈ l) →
      (∀ g, isLiveGate mg g = true → g ≠ L → hasIdx (childrenOf mg g) L = true →
        childrenOf mg g = sortNode3 (mapNode (substSignal n ⟨L, true⟩) (childrenOf mig0 g)) ∧
        isLiveGate mig0 g = true ∧ g ∉ l) →
      l.Nodup →
      (∀ g ∈ l, isLiveGate mig0 g = true ∧
        hasIdx (childrenOf mig0 g) n = true ∧ isLiveGate mg g = true) →
      (InvIM (l.foldl (fun mg2 fo =>
          if true || isFanoutComp mg2 n fo then (replaceInNode mg2 fo n ⟨L, true⟩).1
          else mg2) mg) ∧
       numGates (l.foldl (fun mg2 fo =>
          if true || isFanoutComp mg2 n fo then (replaceInNode mg2 fo n ⟨L, true⟩).1
          else mg2) mg) = numGates mg ∧
       (l.foldl (fun mg2 fo =>
          if true || isFanoutComp mg2 n fo then (replaceInNode mg2 fo n ⟨L, true⟩).1
          else mg2) mg).outputs = mg.outputs ∧
       (l.foldl (fun mg2 fo =>
          if true || isFanoutComp mg2 n fo then (replaceInNode mg2 fo n ⟨L, true⟩).1
          else mg2) mg).entries.length = L + 1 ∧
       (∀ x, x ≠ L → isDead (l.foldl (fun mg2 fo =>
          if true || isFanoutComp mg2 n fo then (replaceInNode mg2 fo n ⟨L, true⟩).1
          else mg2) mg) x = isDead mig0 x) ∧
       (∀ g, isLiveGate (l.foldl (fun mg2 fo =>
          if true || isFanoutComp mg2 n fo then (replaceInNode mg2 fo n ⟨L, true⟩).1
          else mg2) mg) g = true →
        hasIdx (childrenOf (l.foldl (fun mg2 fo =>
          if true || isFanoutComp mg2 n fo then (replaceInNode mg2 fo n ⟨L, true⟩).1
          else mg2) mg) g) n = false) ∧
       (l.foldl (fun mg2 fo =>
          if true || isFanoutComp mg2 n fo then (replaceInNode mg2 fo n ⟨L, true⟩).1
          else mg2) mg).numPis = mg.numPis) := by
  intro l
  induction l with
  | nil =>
      intro mg hinv hlen hdead hLB _ hcons _ _ _
      refine ⟨hinv, rfl, rfl, hlen, hdead, ?_, rfl⟩
      intro g hg
      rw [Bool.eq_false_iff]
      intro hidx
      exact List.not_mem_nil g (hcons g hg hidx)
  | cons fo rest ih =>
      intro mg hinv hlen hdead hLB horig hcons himg hnd hfacts
      rw [List.foldl_cons]
      obtain ⟨hfoLive0, hfoIdx0, hfoLive⟩ := hfacts fo (List.mem_cons_self fo rest)
      have hfoLt : fo < L := by
        unfold isLiveGate at hfoLive0
        simp only [Bool.and_eq_true, decide_eq_true_eq] at hfoLive0
        omega
      have hfoOrig : childrenOf mg fo = childrenOf mig0 fo :=
        horig fo (List.mem_cons_self fo rest)
      have hfoNodup := List.nodup_cons.mp hnd
      have hmem : (childList (childrenOf mg fo)).any (fun fi => fi.index == n) = true := by
        rw [hfoOrig]
        exact hfoIdx0
      have hsfo : nodeSorted (childrenOf mg fo) := by
        rw [hfoOrig]
        exact hinv0.gSorted fo hfoLive0
      have hBfo : ∀ fi ∈ childList (childrenOf mg fo), fi.index ≠ (⟨L, true⟩ : Signal).index := by
        intro fi hfi
        rw [hfoOrig] at hfi
        have := (hinv0.gBounded fo hfoLive0 fi hfi).1
        dsimp only
        omega
      have hnone : hashLookup mg
          (sortNode3 (mapNode (substSignal n ⟨L, true⟩) (childrenOf mg fo))) = none := by
        rw [hashLookup_none_iff]
        intro g hgmem heq
        have hgLive : isLiveGate mg g = true := mem_liveGates.mp hgmem
        have hTL : hasIdx (sortNode3 (mapNode (substSignal n ⟨L, true⟩)
            (childrenOf mg fo))) L = true :=
          hasIdx_substImage_new hmem
        have hTn : hasIdx (sortNode3 (mapNode (substSignal n ⟨L, true⟩)
            (childrenOf mg fo))) n = false :=
          hasIdx_substImage_old (by dsimp only; omega)
        by_cases hgL : g = L
        · unfold hasIdx at hTL
          rw [List.any_eq_true] at hTL
          obtain ⟨fi, hfi, hfieq⟩ := hTL
          have hfi' : fi ∈ childList (childrenOf mg L) := by
            rw [← hgL, heq]
            exact hfi
          have := hLB fi hfi'
          have heqfi : fi.index = L := by simpa using hfieq
          omega
        · by_cases hgl : g ∈ fo :: rest
          · have := horig g hgl
            have hgn := (hfacts g hgl).2.1
            rw [← this] at hgn
            rw [heq] at hgn
            rw [hgn] at hTn
            exact absurd hTn (by simp)
          · have hgidxL : hasIdx (childrenOf mg g) L = true := by
              rw [heq]
              exact hTL
            obtain ⟨hgT, hgLive0, -⟩ := himg g hgLive hgL hgidxL
            rw [hgT] at heq
            rw [hfoOrig] at heq
            have horigeq : childrenOf mig0 g = childrenOf mig0 fo := by
              apply sigma_triple_inj (n := n) (L := L) (k := true)
              · intro fi hfi
                have := (hinv0.gBounded g hgLive0 fi hfi).1
                omega
              · intro fi hfi
                have := (hinv0.gBounded fo hfoLive0 fi hfi).1
                omega
              · exact hinv0.gSorted g hgLive0
              · exact hinv0.gSorted fo hfoLive0
              · exact heq
            have hgfo : g ≠ fo := fun hc => hgl (hc ▸ List.mem_cons_self fo rest)
            exact hinv0.gUniq g fo hgLive0 hfoLive0 hgfo horigeq
      have hforced := replaceInNode_forced mg fo n ⟨L, true⟩ hmem hsfo hBfo hnone
      have hstep : (if true || isFanoutComp mg n fo then (replaceInNode mg fo n ⟨L, true⟩).1
          else mg) = (replaceInNode mg fo n ⟨L, true⟩).1 := by
        simp
      rw [hstep]
      have hres : (replaceInNode mg fo n ⟨L, true⟩).1
          = setNodeAt mg fo (sortNode3 (mapNode (substSignal n ⟨L, true⟩)
              (childrenOf mg fo))) := by
        rw [hforced]
      have hfoLt' : fo < mg.entries.length := by omega
      have hchfo : childrenOf (replaceInNode mg fo n ⟨L, true⟩).1 fo
          = sortNode3 (mapNode (substSignal n ⟨L, true⟩) (childrenOf mig0 fo)) := by
        rw [hres, childrenOf_setNode_self mg fo _ hfoLt', hfoOrig]
      have hchne : ∀ x, x ≠ fo → childrenOf (replaceInNode mg fo n ⟨L, true⟩).1 x
          = childrenOf mg x :=
        fun x hx => replaceInNode_childrenOf_ne mg fo n ⟨L, true⟩ x hx
      have hlive' : ∀ x, isLiveGate (replaceInNode mg fo n ⟨L, true⟩).1 x
          = isLiveGate mg x :=
        replaceInNode_isLiveGate mg fo n ⟨L, true⟩
      have hTfo_n : hasIdx (sortNode3 (mapNode (substSignal n ⟨L, true⟩)
          (childrenOf mig0 fo))) n = false :=
        hasIdx_substImage_old (by dsimp only; omega)
      have hinv' : InvIM (replaceInNode mg fo n ⟨L, true⟩).1 :=
        replaceInNode_InvIM mg fo n ⟨L, true⟩ hinv (by dsimp only; omega)
          (fun _ => by dsimp only; omega)
      obtain ⟨a1, a2, a3, a4, a5, a6, a7⟩ := ih (replaceInNode mg fo n ⟨L, true⟩).1 hinv'
        (by rw [replaceInNode_length]; exact hlen)
        (fun x hx => by rw [replaceInNode_isDead]; exact hdead x hx)
        (by
          rw [hchne L (by omega)]
          exact hLB)
        (fun g hg => by
          have hgfo : g ≠ fo := fun hc => hfoNodup.1 (hc ▸ hg)
          rw [hchne g hgfo]
          exact horig g (List.mem_cons_of_mem fo hg))
        (fun g hg hidx => by
          rw [hlive'] at hg
          by_cases hgfo : g = fo
          · subst hgfo
            rw [hchfo] at hidx
            rw [hidx] at hTfo_n
            exact absurd hTfo_n (by simp)
          · rw [hchne g hgfo] at hidx
            have := hcons g hg hidx
            rcases List.mem_cons.mp this with hc | hc
            · exact absurd hc hgfo
            · exact hc)
        (fun g hg hgL hidx => by
          rw [hlive'] at hg
          by_cases hgfo : g = fo
          · subst hgfo
            exact ⟨hchfo, hfoLive0, hfoNodup.1⟩
          · rw [hchne g hgfo] at hidx ⊢
            obtain ⟨e1, e2, e3⟩ := himg g hg hgL hidx
            exact ⟨e1, e2, fun hc => e3 (List.mem_cons_of_mem fo hc)⟩)
        hfoNodup.2
        (fun g hg => by
          obtain ⟨e1, e2, e3⟩ := hfacts g (List.mem_cons_of_mem fo hg)
          rw [hlive']
          exact ⟨e1, e2, e3⟩)
      refine ⟨a1, ?_, ?_, a4, a5, a6, ?_⟩
      · rw [a2, replaceInNode_numGates]
      · rw [a3, replaceInNode_outputs]
      · rw [a7, replaceInNode_numPis]

theorem sum_eq_zero_of_mem {l : List Nat} (h : ∀ x ∈ l, x = 0) : l.sum = 0 := by
  induction l with
  | nil => rfl
  | cons x xs ih =>
      rw [List.sum_cons, h x (List.mem_cons_self x xs),
        ih (fun a ha => h a (List.mem_cons_of_mem x ha))]

theorem childrenOf_append_lt (mig : MIG) (e : Entry) {x : Nat}
    (h : x < mig.entries.length) :
    childrenOf { mig with entries := mig.entries ++ [e] } x = childrenOf mig x := by
  unfold childrenOf
  rw [entryAt_append_lt mig e h]

theorem childrenOf_append_self (mig : MIG) (e : Entry) :
    childrenOf { mig with entries := mig.entries ++ [e] } mig.entries.length = e.node := by
  unfold childrenOf
  rw [entryAt_append_self]

theorem replaceInOutputs_childrenOf (mig : MIG) (n : Nat) (s : Signal) (x : Nat) :
    childrenOf (replaceInOutputs mig n s) x = childrenOf mig x := rfl

theorem replaceInOutputs_isLiveGate (mig : MIG) (n : Nat) (s : Signal) (x : Nat) :
    isLiveGate (replaceInOutputs mig n s) x = isLiveGate mig x := rfl

theorem replaceInOutputs_numGates (mig : MIG) (n : Nat) (s : Signal) :
    numGates (replaceInOutputs mig n s) = numGates mig := by
  unfold numGates
  rw [replaceInOutputs_liveGates]

theorem replaceInOutputs_no_old (mig : MIG) (n : Nat) (s : Signal) (hs : s.index ≠ n) :
    ∀ po ∈ (replaceInOutputs mig n s).outputs, po.index ≠ n := by
  intro po hpo
  unfold replaceInOutputs at hpo
  simp only [List.mem_map] at hpo
  obtain ⟨po', hpo', heq⟩ := hpo
  by_cases h : (po'.index == n) = true
  · rw [h] at heq
    simp only [if_true] at heq
    rw [← heq]
    exact hs
  · rw [Bool.not_eq_true] at h
    rw [h] at heq
    simp only [Bool.false_eq_true, if_false] at heq
    rw [← heq]
    exact fun hc => (by simpa [hc] using h : False)

/-- The IM pass's `inv_node` on a live gate preserves the invariant and
never increases the number of live gates: on a structural-hash hit nothing
is appended, and on a miss the fresh node replaces `n`, which loses its
last reference and is taken out. -/
theorem invNodeIM_le (mig : MIG) (n : Nat) (hinv : InvIM mig)
    (hl : isLiveGate mig n = true) :
    InvIM (invNodeIM mig n).1 ∧ numGates (invNodeIM mig n).1 ≤ numGates mig := by
  have hfacts : mig.numPis < n ∧ n < mig.entries.length ∧ isDead mig n = false := by
    unfold isLiveGate at hl
    simp only [Bool.and_eq_true, decide_eq_true_eq, Bool.not_eq_true'] at hl
    exact ⟨hl.1.1, hl.1.2, hl.2⟩
  have hpi : isPi mig n = false := by
    unfold isPi
    rw [Bool.eq_false_iff]
    intro h
    simp only [Bool.and_eq_true, decide_eq_true_eq] at h
    omega
  have hcst : isConstant n = false := by
    unfold isConstant
    rw [Bool.eq_false_iff]
    intro h
    simp only [beq_iff_eq] at h
    omega
  have hsn := hinv.gSorted n hl
  have hbn := hinv.gBounded n hl
  have hABd : (notSignal (childrenOf mig n).c0).index
        ≠ (notSignal (childrenOf mig n).c1).index ∧
      (notSignal (childrenOf mig n).c0).index
        ≠ (notSignal (childrenOf mig n).c2).index ∧
      (notSignal (childrenOf mig n).c1).index
        ≠ (notSignal (childrenOf mig n).c2).index := by
    obtain ⟨x, y⟩ := hsn
    unfold notSignal
    dsimp only
    omega
  have hs3 := sort3_strict (notSignal (childrenOf mig n).c0)
    (notSignal (childrenOf mig n).c1) (notSignal (childrenOf mig n).c2)
    hABd.1 hABd.2.1 hABd.2.2
  have hSmem : ∀ fi ∈ childList
      (⟨(sort3 (notSignal (childrenOf mig n).c0) (notSignal (childrenOf mig n).c1)
          (notSignal (childrenOf mig n).c2)).1,
        (sort3 (notSignal (childrenOf mig n).c0) (notSignal (childrenOf mig n).c1)
          (notSignal (childrenOf mig n).c2)).2.1,
        (sort3 (notSignal (childrenOf mig n).c0) (notSignal (childrenOf mig n).c1)
          (notSignal (childrenOf mig n).c2)).2.2⟩ : MigNode),
      fi.index < mig.entries.length ∧ fi.index ≠ n := by
    intro fi hfi
    have hp : fi ∈ childList (mapNode notSignal (childrenOf mig n)) :=
      (childList_sortNode3_perm (mapNode notSignal (childrenOf mig n))).mem_iff.mp hfi
    rw [childList_mapNode, List.mem_map] at hp
    obtain ⟨a, ha, rfl⟩ := hp
    have := hbn a ha
    unfold notSignal
    dsimp only
    exact this
  unfold invNodeIM
  rw [if_neg (by rw [hpi, hcst]; simp)]
  dsimp only
  rw [createMaj_eq_of_distinct mig (notSignal (childrenOf mig n).c0)
    (notSignal (childrenOf mig n).c1) (notSignal (childrenOf mig n).c2)
    (Nat.ne_of_lt hs3.1) (Nat.ne_of_lt hs3.2)]
  cases hh : hashLookup mig
      ⟨(sort3 (notSignal (childrenOf mig n).c0) (notSignal (childrenOf mig n).c1)
          (notSignal (childrenOf mig n).c2)).1,
        (sort3 (notSignal (childrenOf mig n).c0) (notSignal (childrenOf mig n).c1)
          (notSignal (childrenOf mig n).c2)).2.1,
        (sort3 (notSignal (childrenOf mig n).c0) (notSignal (childrenOf mig n).c1)
          (notSignal (childrenOf mig n).c2)).2.2⟩ with
  | some i =>
      dsimp only
      simp only [notSignal, Bool.not_false]
      obtain ⟨hiLive, hiCh⟩ := hashLookup_some mig _ i hh
      have hilt : i < mig.entries.length := by
        unfold isLiveGate at hiLive
        simp only [Bool.and_eq_true, decide_eq_true_eq] at hiLive
        exact hiLive.1.2
      have hiIdx : hasIdx (childrenOf mig i) n = false := by
        apply hasIdx_false_of_forall
        intro fi hfi
        rw [hiCh] at hfi
        exact (hSmem fi hfi).2
      have hinv2 : InvIM (replaceInOutputs mig n ⟨i, true⟩) :=
        replaceInOutputs_InvIM mig n _ hinv hilt
      have hiLive2 : isLiveGate (replaceInOutputs mig n ⟨i, true⟩) i = true :=
        hiLive
      have hiIdx2 : hasIdx (childrenOf (replaceInOutputs mig n ⟨i, true⟩) i) n
          = false := hiIdx
      have hpack := fold_hashHit n i
        (fanoutList (replaceInOutputs mig n ⟨i, true⟩) n)
        (replaceInOutputs mig n ⟨i, true⟩) hinv2 hiLive2 hiIdx2
      obtain ⟨a1, a2, a3, a4, a5, a6⟩ := hpack
      constructor
      · split
        · exact takeOutNode_InvIM _ n a1
        · exact a1
      · have hng : numGates (replaceInOutputs mig n (⟨i, true⟩ : Signal)) = numGates mig :=
          replaceInOutputs_numGates mig n _
        split
        · calc numGates (takeOutNode _ n) ≤ _ := takeOutNode_numGates_le _ n
            _ = numGates mig := by rw [a2, hng]
        · rw [a2, hng]
  | none =>
      dsimp only
      obtain ⟨hnp, hnlt', hndead⟩ := hfacts
      rw [show notSignal (⟨mig.entries.length, false⟩ : Signal)
        = (⟨mig.entries.length, true⟩ : Signal) from rfl]
      generalize hSdef : (⟨(sort3 (notSignal (childrenOf mig n).c0)
          (notSignal (childrenOf mig n).c1) (notSignal (childrenOf mig n).c2)).1,
        (sort3 (notSignal (childrenOf mig n).c0) (notSignal (childrenOf mig n).c1)
          (notSignal (childrenOf mig n).c2)).2.1,
        (sort3 (notSignal (childrenOf mig n).c0) (notSignal (childrenOf mig n).c1)
          (notSignal (childrenOf mig n).c2)).2.2⟩ : MigNode) = S
      rw [hSdef] at hSmem hh
      have hSsorted : nodeSorted S := by
        rw [← hSdef]
        exact ⟨hs3.1, hs3.2⟩
      set A := ({ mig with entries := mig.entries ++ [(⟨S, false⟩ : Entry)] } : MIG)
        with hAdef
      set M1 := replaceInOutputs A n (⟨mig.entries.length, true⟩ : Signal) with hM1
      have hinvA : InvIM A := by
        rw [hAdef]
        refine ⟨?_, ?_, ?_, ?_, ?_⟩
        · show mig.numPis < (mig.entries ++ [(⟨S, false⟩ : Entry)]).length
          rw [List.length_append, List.length_singleton]
          have := hinv.pis_lt
          omega
        · intro po hpo
          show po.index < (mig.entries ++ [(⟨S, false⟩ : Entry)]).length
          rw [List.length_append, List.length_singleton]
          have := hinv.out_lt po hpo
          omega
        · intro g hg
          rcases isLiveGate_append_cases mig ⟨S, false⟩ hg with hgl | hgl
          · rw [hgl, childrenOf_append_self mig ⟨S, false⟩]
            exact hSsorted
          · have hglt : g < mig.entries.length := by
              unfold isLiveGate at hgl
              simp only [Bool.and_eq_true, decide_eq_true_eq] at hgl
              exact hgl.1.2
            rw [childrenOf_append_lt mig _ hglt]
            exact hinv.gSorted g hgl
        · intro g hg fi hfi
          rcases isLiveGate_append_cases mig ⟨S, false⟩ hg with hgl | hgl
          · rw [hgl, childrenOf_append_self mig ⟨S, false⟩] at hfi
            have h1 := hSmem fi hfi
            constructor
            · show fi.index < (mig.entries ++ [(⟨S, false⟩ : Entry)]).length
              rw [List.length_append, List.length_singleton]
              omega
            · rw [hgl]
              omega
          · have hglt : g < mig.entries.length := by
              unfold isLiveGate at hgl
              simp only [Bool.and_eq_true, decide_eq_true_eq] at hgl
              exact hgl.1.2
            rw [childrenOf_append_lt mig _ hglt] at hfi
            have h1 := hinv.gBounded g hgl fi hfi
            constructor
            · show fi.index < (mig.entries ++ [(⟨S, false⟩ : Entry)]).length
              rw [List.length_append, List.length_singleton]
              omega
            · exact h1.2
        · intro g1 g2 hg1 hg2 hne heq
          rcases isLiveGate_append_cases mig ⟨S, false⟩ hg1 with h1 | h1
          · rcases isLiveGate_append_cases mig ⟨S, false⟩ hg2 with h2 | h2
            · exact hne (h1.trans h2.symm)
            · have h2lt : g2 < mig.entries.length := by
                unfold isLiveGate at h2
                simp only [Bool.and_eq_true, decide_eq_true_eq] at h2
                exact h2.1.2
              rw [h1, childrenOf_append_self mig ⟨S, false⟩,
                childrenOf_append_lt mig _ h2lt] at heq
              exact (hashLookup_none_iff mig S).mp hh g2 (mem_liveGates.mpr h2) heq.symm
          · rcases isLiveGate_append_cases mig ⟨S, false⟩ hg2 with h2 | h2
            · have h1lt : g1 < mig.entries.length := by
                unfold isLiveGate at h1
                simp only [Bool.and_eq_true, decide_eq_true_eq] at h1
                exact h1.1.2
              rw [h2, childrenOf_append_self mig ⟨S, false⟩,
                childrenOf_append_lt mig _ h1lt] at heq
              exact (hashLookup_none_iff mig S).mp hh g1 (mem_liveGates.mpr h1) heq
            · have h1lt : g1 < mig.entries.length := by
                unfold isLiveGate at h1
                simp only [Bool.and_eq_true, decide_eq_true_eq] at h1
                exact h1.1.2
              have h2lt : g2 < mig.entries.length := by
                unfold isLiveGate at h2
                simp only [Bool.and_eq_true, decide_eq_true_eq] at h2
                exact h2.1.2
              rw [childrenOf_append_lt mig _ h1lt,
                childrenOf_append_lt mig _ h2lt] at heq
              exact hinv.gUniq g1 g2 h1 h2 hne heq
      have hlen1 : M1.entries.length = mig.entries.length + 1 := by
        rw [hM1, hAdef]
        show (mig.entries ++ [(⟨S, false⟩ : Entry)]).length = mig.entries.length + 1
        rw [List.length_append, List.length_singleton]
      have hdead1 : ∀ x, x ≠ mig.entries.length → isDead M1 x = isDead mig x := by
        intro x hx
        rw [hM1, hAdef]
        show ((mig.entries ++ [(⟨S, false⟩ : Entry)]).getD x defaultEntry).dead
          = (mig.entries.getD x defaultEntry).dead
        rcases Nat.lt_or_ge x mig.entries.length with hlt | hge
        · rw [getD_append_lt hlt]
        · rw [getD_ge_length (by rw [List.length_append, List.length_singleton]; omega)
              defaultEntry,
            getD_ge_length hge defaultEntry]
      have hchLS : childrenOf M1 mig.entries.length = S := by
        rw [hM1, replaceInOutputs_childrenOf, hAdef]
        exact childrenOf_append_self mig ⟨S, false⟩
      have hchLT : ∀ g, g < mig.entries.length → childrenOf M1 g = childrenOf mig g := by
        intro g hglt
        rw [hM1, replaceInOutputs_childrenOf, hAdef]
        exact childrenOf_append_lt mig _ hglt
      have hliveLT : ∀ g, g < mig.entries.length →
          isLiveGate M1 g = isLiveGate mig g := by
        intro g hglt
        rw [hM1, replaceInOutputs_isLiveGate, hAdef]
        exact isLiveGate_append_lt mig _ hglt
      have hlive_lt : ∀ g, isLiveGate M1 g = true → g ≠ mig.entries.length →
          g < mig.entries.length := by
        intro g hg hgne
        unfold isLiveGate at hg
        simp only [Bool.and_eq_true, decide_eq_true_eq] at hg
        have h2 := hg.1.2
        rw [hlen1] at h2
        omega
      have hLB1 : ∀ fi ∈ childList (childrenOf M1 mig.entries.length),
          fi.index < mig.entries.length := by
        intro fi hfi
        rw [hchLS] at hfi
        exact (hSmem fi hfi).1
      have hnotL : ∀ g ∈ fanoutList M1 n, g ≠ mig.entries.length := by
        intro g hg hgL
        rw [mem_fanoutList] at hg
        rw [hgL, hchLS] at hg
        have hfalse : hasIdx S n = false :=
          hasIdx_false_of_forall (fun fi hfi => (hSmem fi hfi).2)
        unfold hasIdx at hfalse
        rw [hg.2] at hfalse
        exact absurd hfalse (by simp)
      have hmemlt : ∀ g ∈ fanoutList M1 n, g < mig.entries.length :=
        fun g hg => hlive_lt g (mem_fanoutList.mp hg).1 (hnotL g hg)
      have horig1 : ∀ g ∈ fanoutList M1 n, childrenOf M1 g = childrenOf mig g :=
        fun g hg => hchLT g (hmemlt g hg)
      have hcons1 : ∀ g, isLiveGate M1 g = true →
          hasIdx (childrenOf M1 g) n = true → g ∈ fanoutList M1 n := by
        intro g hg hidx
        rw [mem_fanoutList]
        exact ⟨hg, hidx⟩
      have himg1 : ∀ g, isLiveGate M1 g = true → g ≠ mig.entries.length →
          hasIdx (childrenOf M1 g) mig.entries.length = true →
          childrenOf M1 g = sortNode3 (mapNode (substSignal n
            (⟨mig.entries.length, true⟩ : Signal)) (childrenOf mig g)) ∧
          isLiveGate mig g = true ∧ g ∉ fanoutList M1 n := by
        intro g hg hgne hidx
        exfalso
        have hglt := hlive_lt g hg hgne
        rw [hchLT g hglt] at hidx
        unfold hasIdx at hidx
        obtain ⟨fi, hfi, hfieq⟩ := List.any_eq_true.mp hidx
        have hgm : isLiveGate mig g = true := by
          rw [← hliveLT g hglt]
          exact hg
        have hb := (hinv.gBounded g hgm fi hfi).1
        have hfiL : fi.index = mig.entries.length := by simpa using hfieq
        omega
      have hinv1 : InvIM M1 := by
        rw [hM1]
        apply replaceInOutputs_InvIM _ _ _ hinvA
        show mig.entries.length < (mig.entries ++ [(⟨S, false⟩ : Entry)]).length
        rw [List.length_append, List.length_singleton]
        omega
      have hfacts9 : ∀ g ∈ fanoutList M1 n, isLiveGate mig g = true ∧
          hasIdx (childrenOf mig g) n = true ∧ isLiveGate M1 g = true := by
        intro g hg
        have hglt := hmemlt g hg
        have hgmem := mem_fanoutList.mp hg
        refine ⟨?_, ?_, hgmem.1⟩
        · rw [← hliveLT g hglt]
          exact hgmem.1
        · have h2 := hgmem.2
          rw [hchLT g hglt] at h2
          exact h2
      have hpack := fold_append mig n mig.entries.length rfl hinv hnlt'
        (fanoutList M1 n) M1 hinv1 hlen1 hdead1 hLB1 horig1 hcons1 himg1
        (fanoutList_nodup M1 n) hfacts9
      obtain ⟨b1, b2, b3, b4, b5, b6, b7⟩ := hpack
      set F := List.foldl (fun mg2 fo =>
        if true || isFanoutComp mg2 n fo then (replaceInNode mg2 fo n
          (⟨mig.entries.length, true⟩ : Signal)).1
        else mg2) M1 (fanoutList M1 n) with hFdef
      have hng1 : numGates M1 = numGates mig + 1 := by
        rw [hM1, replaceInOutputs_numGates, hAdef]
        exact numGates_append mig ⟨S, false⟩ hinv.pis_lt rfl
      have hliveFn : isLiveGate F n = true := by
        have hd := b5 n (by omega)
        have hnpF : F.numPis = mig.numPis := by
          rw [b7, hM1, hAdef]
          rfl
        unfold isLiveGate
        rw [b4, hd, hndead, hnpF]
        simp [hnp, Nat.lt_succ_of_lt hnlt']
      have hfz : fanoutSize F n = 0 := by
        unfold fanoutSize
        rw [b3]
        have hgatesum : ((liveGates F).map
            (fun g => (childList (childrenOf F g)).countP (fun fi => fi.index == n))).sum
            = 0 := by
          apply sum_eq_zero_of_mem
          intro x hx
          rw [List.mem_map] at hx
          obtain ⟨g, hg, hgx⟩ := hx
          rw [← hgx]
          rw [List.countP_eq_zero]
          intro fi hfi
          have hne := forall_of_hasIdx_false (b6 g (mem_liveGates.mp hg)) fi hfi
          simpa using hne
        have hpoz : M1.outputs.countP (fun po => po.index == n) = 0 := by
          rw [List.countP_eq_zero]
          intro po hpomem
          have hne := replaceInOutputs_no_old A n (⟨mig.entries.length, true⟩ : Signal)
            (by show mig.entries.length ≠ n; omega) po (by rw [← hM1]; exact hpomem)
          simpa using hne
        rw [hgatesum, hpoz]
      refine ⟨?_, ?_⟩
      · split
        · exact takeOutNode_InvIM _ n b1
        · exact b1
      · split
        · have htk := takeOutNode_numGates_live F n hliveFn
          rw [b2, hng1] at htk
          omega
        · next hcond =>
            exact absurd (show (fanoutSize F n == 0) = true by rw [hfz]; decide) hcond

/-- Under the invariant no live gate or primary output references an
out-of-range index, so such an index has no fan-out consumers. -/
theorem fanoutList_out_of_range (mig : MIG) (n : Nat) (hinv : InvIM mig)
    (hge : mig.entries.length ≤ n) : fanoutList mig n = [] := by
  rw [List.eq_nil_iff_forall_not_mem]
  intro g hg
  rw [mem_fanoutList] at hg
  obtain ⟨hgl, hany⟩ := hg
  obtain ⟨fi, hfi, hfieq⟩ := List.any_eq_true.mp hany
  have hlt := (hinv.gBounded g hgl fi hfi).1
  have hfin : fi.index = n := by simpa using hfieq
  omega

/-- Out-of-range indices have zero one-level gain: the fan-in triple read
through `getD` is the default all-constant node, and nothing in the network
references the index. -/
theorem oneLevel_out_of_range (mig : MIG) (n : Nat) (hinv : InvIM mig)
    (hge : mig.entries.length ≤ n) : oneLevel mig n = 0 := by
  unfold oneLevel
  split
  · rfl
  · dsimp only
    have hch : childrenOf mig n = defaultMigNode := by
      unfold childrenOf entryAt
      rw [getD_ge_length hge]
      rfl
    have hfo : fanoutList mig n = [] := fanoutList_out_of_range mig n hinv hge
    have hc1 : (childList defaultMigNode).countP
        (fun fi => !(isConstant fi.index) && fi.complement) = 0 := rfl
    have hc2 : (childList defaultMigNode).countP
        (fun fi => !(isConstant fi.index) && !fi.complement) = 0 := rfl
    have hpo1 : mig.outputs.countP (fun po => po.index == n && po.complement) = 0 := by
      rw [List.countP_eq_zero]
      intro po hpo
      have hlt := hinv.out_lt po hpo
      simp only [Bool.and_eq_true, beq_iff_eq, not_and]
      intro heq
      exact absurd heq (by omega)
    have hpo2 : mig.outputs.countP (fun po => po.index == n && !po.complement) = 0 := by
      rw [List.countP_eq_zero]
      intro po hpo
      have hlt := hinv.out_lt po hpo
      simp only [Bool.and_eq_true, beq_iff_eq, not_and]
      intro heq
      exact absurd heq (by omega)
    rw [hch, hfo, hc1, hc2, hpo1, hpo2, List.countP_nil, List.countP_nil]
    simp

/-- An index at which all three skip guards are false and that lies in the
pool range is a live gate. -/
theorem guards_false_live (mig : MIG) (n : Nat)
    (hguard : (isPi mig n || isConstant n || isDead mig n) = false)
    (hlt : n < mig.entries.length) : isLiveGate mig n = true := by
  have hpi : isPi mig n = false := by
    by_contra hc
    rw [Bool.not_eq_false] at hc
    rw [hc] at hguard
    simp at hguard
  have hcst : isConstant n = false := by
    by_contra hc
    rw [Bool.not_eq_false] at hc
    rw [hc] at hguard
    simp at hguard
  have hdead : isDead mig n = false := by
    by_contra hc
    rw [Bool.not_eq_false] at hc
    rw [hc] at hguard
    simp at hguard
  have hpi' : ¬(1 ≤ n ∧ n ≤ mig.numPis) := by
    intro hc
    unfold isPi at hpi
    rw [Bool.eq_false_iff] at hpi
    exact hpi (by simp only [Bool.and_eq_true, decide_eq_true_eq]; exact hc)
  have hcst' : n ≠ 0 := by
    intro hc
    unfold isConstant at hcst
    rw [hc] at hcst
    simp at hcst
  unfold isLiveGate
  simp only [Bool.and_eq_true, decide_eq_true_eq, Bool.not_eq_true']
  exact ⟨⟨by omega, hlt⟩, hdead⟩

/-- A node with positive one-level gain is a live gate: the gain is zero on
primary inputs, the constant, dead nodes and out-of-range indices. -/
theorem oneLevel_pos_live (mig : MIG) (n : Nat) (hinv : InvIM mig)
    (h : oneLevel mig n > 0) : isLiveGate mig n = true := by
  by_cases hguard : (isPi mig n || isConstant n || isDead mig n) = true
  · exfalso
    unfold oneLevel at h
    rw [if_pos hguard] at h
    exact lt_irrefl 0 h
  · rw [Bool.not_eq_true] at hguard
    rcases Nat.lt_or_ge n mig.entries.length with hlt | hge
    · exact guards_false_live mig n hguard hlt
    · exfalso
      rw [oneLevel_out_of_range mig n hinv hge] at h
      exact lt_irrefl 0 h

/-- A node with positive two-level gain is a live gate. -/
theorem twoLevel_pos_live (mig : MIG) (n : Nat) (hinv : InvIM mig)
    (h : twoLevel mig n > 0) : isLiveGate mig n = true := by
  by_cases hguard : (isPi mig n || isConstant n || isDead mig n) = true
  · exfalso
    unfold twoLevel at h
    rw [if_pos hguard] at h
    exact lt_irrefl 0 h
  · rw [Bool.not_eq_true] at hguard
    rcases Nat.lt_or_ge n mig.entries.length with hlt | hge
    · exact guards_false_live mig n hguard hlt
    · exfalso
      unfold twoLevel at h
      rw [if_neg (by rw [hguard]; simp)] at h
      rw [fanoutList_out_of_range mig n hinv hge, List.foldl_nil,
        oneLevel_out_of_range mig n hinv hge] at h
      exact lt_irrefl 0 h

/-- The nested fan-out sweep of the driver's two-level branch preserves the
invariant and never increases the live-gate count: each inversion happens
at a node whose positive gain certifies liveness. -/
theorem foldGain_le : ∀ (l : List Nat) (mg : MIG), InvIM mg →
    InvIM (l.foldl (fun mg2 fo =>
      if oneLevel mg2 fo > 0 then (invNodeIM mg2 fo).1 else mg2) mg) ∧
    numGates (l.foldl (fun mg2 fo =>
      if oneLevel mg2 fo > 0 then (invNodeIM mg2 fo).1 else mg2) mg) ≤ numGates mg := by
  intro l
  induction l with
  | nil => exact fun mg hinv => ⟨hinv, le_refl _⟩
  | cons fo rest ih =>
      intro mg hinv
      rw [List.foldl_cons]
      by_cases h1 : oneLevel mg fo > 0
      · rw [if_pos h1]
        obtain ⟨hinv1, hle1⟩ := invNodeIM_le mg fo hinv (oneLevel_pos_live mg fo hinv h1)
        obtain ⟨hinv2, hle2⟩ := ih (invNodeIM mg fo).1 hinv1
        exact ⟨hinv2, le_trans hle2 hle1⟩
      · rw [if_neg h1]
        exact ih mg hinv

/-- One driver iteration preserves the invariant and never increases the
live-gate count. -/
theorem imGateStep_le (st : MIG × MigInvMinimizationStats) (n : Nat)
    (hinv : InvIM st.1) :
    InvIM (imGateStep st n).1 ∧ numGates (imGateStep st n).1 ≤ numGates st.1 := by
  obtain ⟨mig, stats⟩ := st
  unfold imGateStep
  dsimp only
  by_cases hd : isDead mig n = true
  · rw [if_pos hd]
    exact ⟨hinv, le_refl _⟩
  · rw [if_neg hd]
    by_cases h1 : oneLevel mig n > 0
    · rw [if_pos h1]
      dsimp only
      obtain ⟨hinv1, hle1⟩ := invNodeIM_le mig n hinv (oneLevel_pos_live mig n hinv h1)
      by_cases h2 : twoLevel (invNodeIM mig n).1 n > 0
      · rw [if_pos h2]
        dsimp only
        obtain ⟨hinv2, hle2⟩ := invNodeIM_le (invNodeIM mig n).1 n hinv1
          (twoLevel_pos_live (invNodeIM mig n).1 n hinv1 h2)
        obtain ⟨hinv3, hle3⟩ := foldGain_le
          (fanoutList (invNodeIM (invNodeIM mig n).1 n).1 (invNodeIM (invNodeIM mig n).1 n).2)
          (invNodeIM (invNodeIM mig n).1 n).1 hinv2
        exact ⟨hinv3, le_trans hle3 (le_trans hle2 hle1)⟩
      · rw [if_neg h2]
        exact ⟨hinv1, hle1⟩
    · rw [if_neg h1]
      dsimp only
      by_cases h2 : twoLevel mig n > 0
      · rw [if_pos h2]
        dsimp only
        obtain ⟨hinv2, hle2⟩ := invNodeIM_le mig n hinv (twoLevel_pos_live mig n hinv h2)
        obtain ⟨hinv3, hle3⟩ := foldGain_le
          (fanoutList (invNodeIM mig n).1 (invNodeIM mig n).2)
          (invNodeIM mig n).1 hinv2
        exact ⟨hinv3, le_trans hle3 hle2⟩
      · rw [if_neg h2]
        exact ⟨hinv, le_refl _⟩

/-- The full sweep preserves the invariant and never increases the
live-gate count. -/
theorem imFold_le : ∀ (l : List Nat) (st : MIG × MigInvMinimizationStats),
    InvIM st.1 →
    InvIM (l.foldl imGateStep st).1 ∧
      numGates (l.foldl imGateStep st).1 ≤ numGates st.1 := by
  intro l
  induction l with
  | nil => exact fun st hinv => ⟨hinv, le_refl _⟩
  | cons x xs ih =>
      intro st hinv
      rw [List.foldl_cons]
      obtain ⟨h1, h2⟩ := imGateStep_le st x hinv
      obtain ⟨h3, h4⟩ := ih (imGateStep st x) h1
      exact ⟨h3, le_trans h4 h2⟩

theorem imRun_le (mig : MIG) (stats : MigInvMinimizationStats) (hinv : InvIM mig) :
    InvIM (imRun mig stats).1 ∧ numGates (imRun mig stats).1 ≤ numGates mig := by
  unfold imRun
  exact imFold_le (gateIndices mig) (mig, stats) hinv

/-- The decidable canonical-form check implies the invariant. -/
theorem wellFormed_InvIM (mig : MIG) (h : wellFormed mig = true) : InvIM mig := by
  unfold wellFormed at h
  simp only [Bool.and_eq_true, List.all_eq_true, decide_eq_true_eq, Bool.or_eq_true,
    beq_iff_eq, bne_iff_ne] at h
  obtain ⟨⟨⟨hp, ho⟩, hg⟩, hu⟩ := h
  refine ⟨hp, ho, ?_, ?_, ?_⟩
  · intro g hgl
    obtain ⟨⟨h1, h2⟩, -⟩ := hg g (mem_liveGates.mpr hgl)
    exact ⟨h1, h2⟩
  · intro g hgl fi hfi
    obtain ⟨-, h3⟩ := hg g (mem_liveGates.mpr hgl)
    have h4 := h3 fi hfi
    have hglen : g < mig.entries.length := by
      unfold isLiveGate at hgl
      simp only [Bool.and_eq_true, decide_eq_true_eq] at hgl
      exact hgl.1.2
    omega
  · intro g1 g2 hgl1 hgl2 hne
    rcases hu g1 (mem_liveGates.mpr hgl1) g2 (mem_liveGates.mpr hgl2) with h | h
    · exact absurd h hne
    · exact h

/-! ## Claim C7: the one-level gain function -/

/-- Claim C7: for every network whose live gates have pairwise distinct
fan-in indices (the canonical form produced by the constructor) and every
node `n`, the source's `one_level(n)` equals
`(C_in + C_out + C_po) - (U_in + U_out + U_po)` over the spec's six
counters, and is 0 whenever `n` is a primary input, the constant, or
dead. -/
theorem c7_one_level_eq_spec_gain (mig : MIG) (n : Nat)
    (h : childrenDistinctAll mig = true) :
    oneLevel mig n =
      if isPi mig n || isConstant n || isDead mig n then 0
      else
        ((specCIn mig n + specCOut mig n + specCPo mig n : Nat) : Int)
          - ((specUIn mig n + specUOut mig n + specUPo mig n : Nat) : Int) := by
  unfold oneLevel
  split
  · rfl
  · dsimp only
    have hdall := (List.all_eq_true).mp h
    have hin : (childList (childrenOf mig n)).countP
        (fun fi => !(isConstant fi.index) && fi.complement) = specCIn mig n :=
      countP_congr_mem (fun a _ => Bool.and_comm _ _)
    have huin : (childList (childrenOf mig n)).countP
        (fun fi => !(isConstant fi.index) && !fi.complement) = specUIn mig n :=
      countP_congr_mem (fun a _ => Bool.and_comm _ _)
    have hmem : ∀ fo ∈ fanoutList mig n,
        distinctChildren (childrenOf mig fo) = true ∧
        (childList (childrenOf mig fo)).any (fun fi => fi.index == n) = true := by
      intro fo hfo
      have h2 := List.mem_filter.mp hfo
      exact ⟨hdall fo h2.1, h2.2⟩
    have hout : (fanoutList mig n).countP (fun fo => isFanoutComp mig n fo)
        = specCOut mig n :=
      countP_congr_mem (fun fo hfo =>
        isFanoutComp_eq_any_comp mig n fo (hmem fo hfo).1 (hmem fo hfo).2)
    have huout : (fanoutList mig n).countP (fun fo => !(isFanoutComp mig n fo))
        = specUOut mig n :=
      countP_congr_mem (fun fo hfo =>
        not_isFanoutComp_eq_any_not_comp mig n fo (hmem fo hfo).1 (hmem fo hfo).2)
    rw [hin, huin, hout, huout]
    rfl

/-- Witness for claim C7 at the concrete network netA and node 6: the
hypothesis holds by evaluation and the gain equation is instantiated. -/
theorem c7_one_level_eq_spec_gain_witness :
    childrenDistinctAll netA = true ∧
    oneLevel netA 6 =
      if isPi netA 6 || isConstant 6 || isDead netA 6 then 0
      else
        ((specCIn netA 6 + specCOut netA 6 + specCPo netA 6 : Nat) : Int)
          - ((specUIn netA 6 + specUOut netA 6 + specUPo netA 6 : Nat) : Int) :=
  ⟨by decide, c7_one_level_eq_spec_gain netA 6 (by decide)⟩

/-! ## Claim C8: the majority constructor -/

/-- Claim C8: `create_maj_without_changing_comp(a, b, c)` first reorders
its inputs into a permutation of `{a, b, c}` sorted by index ascending with
each complement bit preserved; if the first two ordered signals share an
index it returns the first when their complements agree and the third
otherwise (symmetrically for the last two); otherwise on a structural-hash
hit it returns the hit index with complement 0 leaving the network
untouched, and on a miss it appends one node and returns its index with
complement 0 — and in every case the pool slots of all existing nodes
(in particular their fan-ins) are unchanged. -/
theorem c8_create_maj_characterization (mig : MIG) (a b c : Signal) :
    [(sort3 a b c).1, (sort3 a b c).2.1, (sort3 a b c).2.2].Perm [a, b, c] ∧
    (sort3 a b c).1.index ≤ (sort3 a b c).2.1.index ∧
    (sort3 a b c).2.1.index ≤ (sort3 a b c).2.2.index ∧
    createMajWithoutChangingComp mig a b c =
      (if (sort3 a b c).1.index = (sort3 a b c).2.1.index then
        (mig, if (sort3 a b c).1.complement = (sort3 a b c).2.1.complement
              then (sort3 a b c).1 else (sort3 a b c).2.2)
      else if (sort3 a b c).2.1.index = (sort3 a b c).2.2.index then
        (mig, if (sort3 a b c).2.1.complement = (sort3 a b c).2.2.complement
              then (sort3 a b c).2.1 else (sort3 a b c).1)
      else
        match hashLookup mig ⟨(sort3 a b c).1, (sort3 a b c).2.1, (sort3 a b c).2.2⟩ with
        | some i => (mig, ⟨i, false⟩)
        | none =>
            ({ mig with entries := mig.entries ++
                [⟨⟨(sort3 a b c).1, (sort3 a b c).2.1, (sort3 a b c).2.2⟩, false⟩] },
             ⟨mig.entries.length, false⟩)) ∧
    (createMajWithoutChangingComp mig a b c).1.entries.take mig.entries.length
      = mig.entries := by
  refine ⟨sort3_perm a b c, (sort3_sorted a b c).1, (sort3_sorted a b c).2, ?_, ?_⟩
  · simp only [createMajWithoutChangingComp, beq_iff_eq]
  · simp only [createMajWithoutChangingComp]
    split_ifs <;>
      first
        | exact List.take_length mig.entries
        | (split <;> simp [List.take_left', List.take_length])

/-! ## Claim C6: gate-count non-increase of the IM pass -/

/-- Claim C6: for every network satisfying the invariants I1-I4 (in their
decidable canonical form `wellFormed`), the number of live gates after
`mig_inv_minimization` is at most the number before the pass: each
inversion either collapses onto an existing node through the structural
hash, or appends one fresh node and takes out the inverted one. -/
theorem c6_im_num_gates_le (mig : MIG) (h : wellFormed mig = true) :
    numGates (migInvMinimization mig).1 ≤ numGates mig := by
  unfold migInvMinimization
  exact (imRun_le mig initMinimizationStats (wellFormed_InvIM mig h)).2

/-- The gate-count bound instantiated on the concrete network netA. -/
theorem c6_im_num_gates_le_witness :
    wellFormed netA = true ∧ numGates (migInvMinimization netA).1 ≤ numGates netA :=
  ⟨by decide, c6_im_num_gates_le netA (by decide)⟩

/-! ## Height theory (claim C9)

The bounded height stabilizes under any strict certificate; the canonical
height is then exact at every in-range gate slot, certifies itself, and is
pointwise bounded by every certificate of the modified network. -/

theorem heightF_succ (mig : MIG) (f x : Nat) :
    heightF mig (f + 1) x =
      if isConstant x || isPi mig x || decide (mig.entries.length ≤ x) then 0
      else 1 + max (heightF mig f (childrenOf mig x).c0.index)
            (max (heightF mig f (childrenOf mig x).c1.index)
              (heightF mig f (childrenOf mig x).c2.index)) := rfl

theorem heightF_guard_zero {mig : MIG} {x : Nat}
    (h : (isConstant x || isPi mig x || decide (mig.entries.length ≤ x)) = true) :
    ∀ f, heightF mig f x = 0 := by
  intro f
  cases f with
  | zero => rfl
  | succ f => rw [heightF_succ, if_pos h]

theorem gate_guard_false {mig : MIG} {x : Nat} (h1 : mig.numPis < x)
    (h2 : x < mig.entries.length) :
    (isConstant x || isPi mig x || decide (mig.entries.length ≤ x)) = false := by
  unfold isConstant isPi
  rw [Bool.eq_false_iff]
  intro hc
  simp only [Bool.or_eq_true, Bool.and_eq_true, decide_eq_true_eq, beq_iff_eq] at hc
  omega

theorem heightF_guard_false {mig : MIG} {x : Nat}
    (h : (isConstant x || isPi mig x || decide (mig.entries.length ≤ x)) = false) :
    mig.numPis < x ∧ x < mig.entries.length := by
  rw [Bool.eq_false_iff] at h
  constructor
  · rcases Nat.lt_or_ge mig.numPis x with h1 | h1
    · exact h1
    · exfalso
      apply h
      by_cases hx0 : x = 0
      · unfold isConstant
        simp [hx0]
      · unfold isPi
        have h1' : 1 ≤ x := Nat.one_le_iff_ne_zero.mpr hx0
        simp [h1', h1]
  · rcases Nat.lt_or_ge x mig.entries.length with h2 | h2
    · exact h2
    · exfalso
      apply h
      simp [h2]

theorem c0_mem_childList (nd : MigNode) : nd.c0 ∈ childList nd := by simp [childList]

theorem c1_mem_childList (nd : MigNode) : nd.c1 ∈ childList nd := by simp [childList]

theorem c2_mem_childList (nd : MigNode) : nd.c2 ∈ childList nd := by simp [childList]

theorem heightF_le_fuel (mig : MIG) : ∀ f x, heightF mig f x ≤ f := by
  intro f
  induction f with
  | zero => intro x; exact Nat.le_of_eq rfl
  | succ f ih =>
      intro x
      rw [heightF_succ]
      split
      · omega
      · have h0 := ih (childrenOf mig x).c0.index
        have h1 := ih (childrenOf mig x).c1.index
        have h2 := ih (childrenOf mig x).c2.index
        have hmax : max (heightF mig f (childrenOf mig x).c0.index)
            (max (heightF mig f (childrenOf mig x).c1.index)
              (heightF mig f (childrenOf mig x).c2.index)) ≤ f :=
          Nat.max_le.mpr ⟨h0, Nat.max_le.mpr ⟨h1, h2⟩⟩
        omega

theorem heightF_le_cert (mig : MIG) (H : Nat → Nat) (hcert : HCert mig H) :
    ∀ f x, heightF mig f x ≤ H x := by
  intro f
  induction f with
  | zero => intro x; exact Nat.zero_le _
  | succ f ih =>
      intro x
      rw [heightF_succ]
      split
      · exact Nat.zero_le _
      · next hguard =>
          rw [Bool.not_eq_true] at hguard
          obtain ⟨hx1, hx2⟩ := heightF_guard_false hguard
          have b0 := hcert x hx1 hx2 _ (c0_mem_childList _)
          have b1 := hcert x hx1 hx2 _ (c1_mem_childList _)
          have b2 := hcert x hx1 hx2 _ (c2_mem_childList _)
          have i0 := ih (childrenOf mig x).c0.index
          have i1 := ih (childrenOf mig x).c1.index
          have i2 := ih (childrenOf mig x).c2.index
          have hmax : max (heightF mig f (childrenOf mig x).c0.index)
              (max (heightF mig f (childrenOf mig x).c1.index)
                (heightF mig f (childrenOf mig x).c2.index)) ≤ H x - 1 :=
            Nat.max_le.mpr ⟨by omega, Nat.max_le.mpr ⟨by omega, by omega⟩⟩
          omega

theorem heightF_stab (mig : MIG) (H : Nat → Nat) (hcert : HCert mig H) :
    ∀ k x f1 f2, H x ≤ k → H x ≤ f1 → H x ≤ f2 →
      heightF mig f1 x = heightF mig f2 x := by
  intro k
  induction k with
  | zero =>
      intro x f1 f2 hk h1 h2
      by_cases hguard : (isConstant x || isPi mig x
          || decide (mig.entries.length ≤ x)) = true
      · rw [heightF_guard_zero hguard, heightF_guard_zero hguard]
      · exfalso
        rw [Bool.not_eq_true] at hguard
        obtain ⟨hx1, hx2⟩ := heightF_guard_false hguard
        have := hcert x hx1 hx2 _ (c0_mem_childList _)
        omega
  | succ k ih =>
      intro x f1 f2 hk h1 h2
      by_cases hguard : (isConstant x || isPi mig x
          || decide (mig.entries.length ≤ x)) = true
      · rw [heightF_guard_zero hguard, heightF_guard_zero hguard]
      · rw [Bool.not_eq_true] at hguard
        obtain ⟨hx1, hx2⟩ := heightF_guard_false hguard
        have b0 := hcert x hx1 hx2 _ (c0_mem_childList _)
        have b1 := hcert x hx1 hx2 _ (c1_mem_childList _)
        have b2 := hcert x hx1 hx2 _ (c2_mem_childList _)
        cases f1 with
        | zero => omega
        | succ f1 =>
            cases f2 with
            | zero => omega
            | succ f2 =>
                rw [heightF_succ, heightF_succ, if_neg (by simp [hguard]),
                  if_neg (by simp [hguard])]
                have e0 := ih (childrenOf mig x).c0.index f1 f2
                  (by omega) (by omega) (by omega)
                have e1 := ih (childrenOf mig x).c1.index f1 f2
                  (by omega) (by omega) (by omega)
                have e2 := ih (childrenOf mig x).c2.index f1 f2
                  (by omega) (by omega) (by omega)
                rw [e0, e1, e2]

theorem acyc_of_cert (mig : MIG) (H : Nat → Nat) (hcert : HCert mig H)
    (hb : ∀ x, x < mig.entries.length → H x ≤ mig.entries.length) :
    Acyc mig := by
  intro x
  by_cases hx : x < mig.entries.length
  · exact heightF_stab mig H hcert (H x) x _ _ le_rfl
      (le_trans (hb x hx) (Nat.le_succ _)) (hb x hx)
  · have hguard : (isConstant x || isPi mig x
        || decide (mig.entries.length ≤ x)) = true := by
      simp [Nat.le_of_not_lt hx]
    rw [heightF_guard_zero hguard, heightF_guard_zero hguard]

theorem hgt_le_len (mig : MIG) (x : Nat) : hgt mig x ≤ mig.entries.length :=
  heightF_le_fuel mig _ x

theorem hgt_exact (mig : MIG) (hacyc : Acyc mig) {x : Nat}
    (hx1 : mig.numPis < x) (hx2 : x < mig.entries.length) :
    hgt mig x = 1 + max (hgt mig (childrenOf mig x).c0.index)
      (max (hgt mig (childrenOf mig x).c1.index)
        (hgt mig (childrenOf mig x).c2.index)) := by
  unfold hgt
  rw [show heightF mig mig.entries.length x
      = heightF mig (mig.entries.length + 1) x from (hacyc x).symm,
    heightF_succ, if_neg (by simp [gate_guard_false hx1 hx2])]

theorem hgt_cert (mig : MIG) (hacyc : Acyc mig) : HCert mig (hgt mig) := by
  intro x hx1 hx2 fi hfi
  have hex := hgt_exact mig hacyc hx1 hx2
  simp only [childList, List.mem_cons, List.not_mem_nil, or_false] at hfi
  have m0 := Nat.le_max_left (hgt mig (childrenOf mig x).c0.index)
    (max (hgt mig (childrenOf mig x).c1.index) (hgt mig (childrenOf mig x).c2.index))
  have m1 := Nat.le_max_left (hgt mig (childrenOf mig x).c1.index)
    (hgt mig (childrenOf mig x).c2.index)
  have m2 := Nat.le_max_right (hgt mig (childrenOf mig x).c1.index)
    (hgt mig (childrenOf mig x).c2.index)
  have m3 := Nat.le_max_right (hgt mig (childrenOf mig x).c0.index)
    (max (hgt mig (childrenOf mig x).c1.index) (hgt mig (childrenOf mig x).c2.index))
  rcases hfi with h | h | h <;> subst h <;> omega

theorem acyc_transfer (mig mig' : MIG)
    (hlen : mig'.entries.length = mig.entries.length)
    (hcert' : HCert mig' (hgt mig)) :
    Acyc mig' ∧ ∀ x, hgt mig' x ≤ hgt mig x := by
  have hb : ∀ x, x < mig'.entries.length → hgt mig x ≤ mig'.entries.length := by
    intro x _
    rw [hlen]
    exact hgt_le_len mig x
  have hacyc' := acyc_of_cert mig' (hgt mig) hcert' hb
  refine ⟨hacyc', ?_⟩
  intro x
  exact heightF_le_cert mig' (hgt mig) hcert' _ x

theorem isPi_congr {mig mig' : MIG} (hpis : mig'.numPis = mig.numPis) (x : Nat) :
    isPi mig' x = isPi mig x := by
  unfold isPi
  rw [hpis]

theorem heightF_congr (mig mig' : MIG)
    (hch : ∀ x, childrenOf mig' x = childrenOf mig x)
    (hlen : mig'.entries.length = mig.entries.length)
    (hpis : mig'.numPis = mig.numPis) :
    ∀ f x, heightF mig' f x = heightF mig f x := by
  intro f
  induction f with
  | zero => intro x; rfl
  | succ f ih =>
      intro x
      rw [heightF_succ, heightF_succ, isPi_congr hpis, hlen, hch x]
      split
      · rfl
      · rw [ih, ih, ih]

theorem hgt_congr (mig mig' : MIG)
    (hch : ∀ x, childrenOf mig' x = childrenOf mig x)
    (hlen : mig'.entries.length = mig.entries.length)
    (hpis : mig'.numPis = mig.numPis) :
    ∀ x, hgt mig' x = hgt mig x := by
  intro x
  unfold hgt
  rw [hlen]
  exact heightF_congr mig mig' hch hlen hpis _ x

theorem acyc_congr (mig mig' : MIG)
    (hch : ∀ x, childrenOf mig' x = childrenOf mig x)
    (hlen : mig'.entries.length = mig.entries.length)
    (hpis : mig'.numPis = mig.numPis)
    (hacyc : Acyc mig) : Acyc mig' := by
  intro x
  rw [heightF_congr mig mig' hch hlen hpis _ x, heightF_congr mig mig' hch hlen hpis _ x,
    hlen]
  exact hacyc x

theorem heightF_frame (mig mig' : MIG) (H : Nat → Nat) (hcert : HCert mig H)
    (hlen : mig'.entries.length = mig.entries.length)
    (hpis : mig'.numPis = mig.numPis) (b : Nat)
    (hagree : ∀ x, H x ≤ b → childrenOf mig' x = childrenOf mig x) :
    ∀ k x, H x ≤ k → H x ≤ b → ∀ f, heightF mig' f x = heightF mig f x := by
  intro k
  induction k with
  | zero =>
      intro x hk hb' f
      by_cases hguard : (isConstant x || isPi mig x
          || decide (mig.entries.length ≤ x)) = true
      · have hguard' : (isConstant x || isPi mig' x
            || decide (mig'.entries.length ≤ x)) = true := by
          rw [isPi_congr hpis, hlen]
          exact hguard
        rw [heightF_guard_zero hguard', heightF_guard_zero hguard]
      · exfalso
        rw [Bool.not_eq_true] at hguard
        obtain ⟨hx1, hx2⟩ := heightF_guard_false hguard
        have := hcert x hx1 hx2 _ (c0_mem_childList _)
        omega
  | succ k ih =>
      intro x hk hb' f
      by_cases hguard : (isConstant x || isPi mig x
          || decide (mig.entries.length ≤ x)) = true
      · have hguard' : (isConstant x || isPi mig' x
            || decide (mig'.entries.length ≤ x)) = true := by
          rw [isPi_congr hpis, hlen]
          exact hguard
        rw [heightF_guard_zero hguard', heightF_guard_zero hguard]
      · rw [Bool.not_eq_true] at hguard
        obtain ⟨hx1, hx2⟩ := heightF_guard_false hguard
        have b0 := hcert x hx1 hx2 _ (c0_mem_childList _)
        have b1 := hcert x hx1 hx2 _ (c1_mem_childList _)
        have b2 := hcert x hx1 hx2 _ (c2_mem_childList _)
        cases f with
        | zero => rfl
        | succ f =>
            rw [heightF_succ, heightF_succ, isPi_congr hpis, hlen, hagree x hb',
              if_neg (by simp [hguard]), if_neg (by simp [hguard])]
            have e0 := ih (childrenOf mig x).c0.index (by omega) (by omega) f
            have e1 := ih (childrenOf mig x).c1.index (by omega) (by omega) f
            have e2 := ih (childrenOf mig x).c2.index (by omega) (by omega) f
            rw [e0, e1, e2]

theorem hgt_frame (mig mig' : MIG)
    (hlen : mig'.entries.length = mig.entries.length)
    (hpis : mig'.numPis = mig.numPis)
    (hacyc : Acyc mig) (b : Nat)
    (hagree : ∀ x, hgt mig x ≤ b → childrenOf mig' x = childrenOf mig x) :
    ∀ x, hgt mig x ≤ b → hgt mig' x = hgt mig x := by
  intro x hx
  unfold hgt
  rw [hlen]
  exact heightF_frame mig mig' (hgt mig) (hgt_cert mig hacyc) hlen hpis b hagree
    (hgt mig x) x le_rfl hx _

/-! ## Certificate transfer through the store operations (claim C9) -/

theorem setNode_cert (mig : MIG) (fo : Nat) (nd : MigNode) (H : Nat → Nat)
    (hcert : HCert mig H)
    (hnd : ∀ fi ∈ childList nd, H fi.index < H fo) :
    HCert (setNodeAt mig fo nd) H := by
  intro x hx1 hx2 fi hfi
  rw [setNodeAt_length] at hx2
  rw [setNodeAt_numPis] at hx1
  by_cases hxfo : x = fo
  · subst hxfo
    rw [childrenOf_setNode_self mig x nd hx2] at hfi
    exact hnd fi hfi
  · rw [childrenOf_setNode_ne mig fo nd x hxfo] at hfi
    exact hcert x hx1 hx2 fi hfi

theorem setNode_range (mig : MIG) (fo : Nat) (nd : MigNode)
    (hr : ChildRange mig)
    (hnd : ∀ fi ∈ childList nd, fi.index < mig.entries.length) :
    ChildRange (setNodeAt mig fo nd) := by
  intro x hx1 hx2 fi hfi
  rw [setNodeAt_length] at hx2 ⊢
  rw [setNodeAt_numPis] at hx1
  by_cases hxfo : x = fo
  · subst hxfo
    rw [childrenOf_setNode_self mig x nd hx2] at hfi
    exact hnd fi hfi
  · rw [childrenOf_setNode_ne mig fo nd x hxfo] at hfi
    exact hr x hx1 hx2 fi hfi

theorem zip_range_map_getD {α β : Type} (f : Nat × α → β) (d : β) (da : α) :
    ∀ (l : List α) (k x : Nat), x < l.length →
      (((List.range' k l.length).zip l).map f).getD x d = f (k + x, l.getD x da) := by
  intro l
  induction l with
  | nil =>
      intro k x hx
      simp at hx
  | cons a as ih =>
      intro k x hx
      rw [List.length_cons, List.range'_succ, List.zip_cons_cons, List.map_cons]
      cases x with
      | zero => simp
      | succ x =>
          show (((List.range' (k + 1) as.length).zip as).map f).getD x d = _
          rw [ih (k + 1) x (by simpa using hx)]
          have harith : k + 1 + x = k + (x + 1) := by omega
          rw [harith]
          rw [show (a :: as).getD (x + 1) da = as.getD x da from rfl]

theorem substituteNode_entries_length (mig : MIG) (m : Nat) (s : Signal) :
    (substituteNode mig m s).entries.length = mig.entries.length := by
  unfold substituteNode
  dsimp only
  split
  · rw [List.length_set, List.length_map, List.length_zip, List.length_range]
    omega
  · rw [List.length_map, List.length_zip, List.length_range]
    omega

theorem substituteNode_numPis (mig : MIG) (m : Nat) (s : Signal) :
    (substituteNode mig m s).numPis = mig.numPis := by
  unfold substituteNode
  dsimp only
  split <;> rfl

theorem getD_set_node {l : List Entry} {m x : Nat} (e : Entry)
    (he : e.node = (l.getD m defaultEntry).node) :
    ((l.set m e).getD x defaultEntry).node = (l.getD x defaultEntry).node := by
  by_cases hxm : x = m
  · subst hxm
    rcases Nat.lt_or_ge x l.length with hlt | hge
    · rw [getD_set_self hlt, he]
    · rw [getD_ge_length (by rw [List.length_set]; omega) _, getD_ge_length hge _]
  · rw [getD_set_ne hxm]

theorem substMid_node (mig : MIG) (m : Nat) (s : Signal) (x : Nat) :
    ((((List.range mig.entries.length).zip mig.entries).map (fun p =>
        if mig.numPis < p.1 && !p.2.dead then
          { p.2 with node := ⟨substSignal m s p.2.node.c0, substSignal m s p.2.node.c1,
            substSignal m s p.2.node.c2⟩ }
        else p.2)).getD x defaultEntry).node
      = if isLiveGate mig x = true then mapNode (substSignal m s) (childrenOf mig x)
        else childrenOf mig x := by
  rcases Nat.lt_or_ge x mig.entries.length with hx | hx
  · rw [List.range_eq_range',
      zip_range_map_getD _ _ defaultEntry mig.entries 0 x hx]
    dsimp only
    rw [Nat.zero_add]
    have hcond : (decide (mig.numPis < x) && !(mig.entries.getD x defaultEntry).dead)
        = isLiveGate mig x := by
      unfold isLiveGate isDead entryAt
      simp [hx]
    rw [hcond]
    split
    · rfl
    · rfl
  · have hlive : isLiveGate mig x = false := by
      unfold isLiveGate
      simp [Nat.not_lt.mpr hx]
    rw [hlive]
    simp only [Bool.false_eq_true, if_false]
    rw [getD_ge_length (by rw [List.length_map, List.length_zip, List.length_range]; omega) _]
    unfold childrenOf entryAt
    rw [getD_ge_length hx _]

theorem substituteNode_childrenOf (mig : MIG) (m : Nat) (s : Signal) (x : Nat) :
    childrenOf (substituteNode mig m s) x =
      if isLiveGate mig x = true then mapNode (substSignal m s) (childrenOf mig x)
      else childrenOf mig x := by
  unfold substituteNode childrenOf entryAt
  dsimp only
  split
  · rw [getD_set_node]
    · exact substMid_node mig m s x
    · rfl
  · exact substMid_node mig m s x

theorem substituteNode_range (mig : MIG) (m : Nat) (s : Signal)
    (hr : ChildRange mig) (hs : s.index < mig.entries.length) :
    ChildRange (substituteNode mig m s) := by
  intro x hx1 hx2 fi hfi
  rw [substituteNode_entries_length] at hx2 ⊢
  rw [substituteNode_numPis] at hx1
  rw [substituteNode_childrenOf] at hfi
  split at hfi
  · rw [childList_mapNode, List.mem_map] at hfi
    obtain ⟨fi0, hfi0, rfl⟩ := hfi
    unfold substSignal
    split
    · exact hs
    · exact hr x hx1 hx2 fi0 hfi0
  · exact hr x hx1 hx2 fi hfi

theorem substituteNode_cert (mig : MIG) (m : Nat) (s : Signal) (H : Nat → Nat)
    (hcert : HCert mig H) (hs : H s.index ≤ H m) :
    HCert (substituteNode mig m s) H := by
  intro x hx1 hx2 fi hfi
  rw [substituteNode_entries_length] at hx2
  rw [substituteNode_numPis] at hx1
  rw [substituteNode_childrenOf] at hfi
  split at hfi
  · rw [childList_mapNode, List.mem_map] at hfi
    obtain ⟨fi0, hfi0, rfl⟩ := hfi
    have hb := hcert x hx1 hx2 fi0 hfi0
    unfold substSignal
    split
    · next heq =>
        have heq' : fi0.index = m := by simpa using heq
        rw [heq'] at hb
        dsimp only
        omega
    · exact hb
  · exact hcert x hx1 hx2 fi hfi

theorem roccc_entries (mig : MIG) (old : Nat) (s : Signal) (h : Bool) :
    (replaceInOutputsCondComp mig old s h).entries = mig.entries := by
  unfold replaceInOutputsCondComp
  split <;> rfl

theorem roccc_numPis (mig : MIG) (old : Nat) (s : Signal) (h : Bool) :
    (replaceInOutputsCondComp mig old s h).numPis = mig.numPis := by
  unfold replaceInOutputsCondComp
  split <;> rfl

theorem roccc_childrenOf (mig : MIG) (old : Nat) (s : Signal) (h : Bool) (x : Nat) :
    childrenOf (replaceInOutputsCondComp mig old s h) x = childrenOf mig x := by
  unfold childrenOf entryAt
  rw [roccc_entries]

theorem append_cert (mig : MIG) (e : Entry) (hacyc : Acyc mig) (hr : ChildRange mig)
    (v : Nat)
    (hv : ∀ fi ∈ childList e.node, hgt mig fi.index < v)
    (hrange : ∀ fi ∈ childList e.node, fi.index < mig.entries.length) :
    HCert { mig with entries := mig.entries ++ [e] }
      (fun x => if x = mig.entries.length then v else hgt mig x) := by
  intro x hx1 hx2 fi hfi
  dsimp only at hx1 hx2
  rw [List.length_append, List.length_singleton] at hx2
  by_cases hxL : x = mig.entries.length
  · subst hxL
    rw [childrenOf_append_self] at hfi
    dsimp only
    rw [if_neg (Nat.ne_of_lt (hrange fi hfi)), if_pos rfl]
    exact hv fi hfi
  · have hxlt : x < mig.entries.length := by omega
    rw [childrenOf_append_lt mig e hxlt] at hfi
    have hfir := hr x hx1 hxlt fi hfi
    dsimp only
    rw [if_neg (Nat.ne_of_lt hfir), if_neg hxL]
    exact hgt_cert mig hacyc x hx1 hxlt fi hfi

theorem isFanoutComp_hasIdx (mig : MIG) (n fo : Nat)
    (h : isFanoutComp mig n fo = true) :
    hasIdx (childrenOf mig fo) n = true := by
  unfold isFanoutComp at h
  unfold hasIdx
  generalize childrenOf mig fo = cs at h ⊢
  obtain ⟨c0, c1, c2⟩ := cs
  simp only [childList, List.foldl_cons, List.foldl_nil] at h
  simp only [childList, List.any_cons, List.any_nil, Bool.or_eq_true]
  by_cases e0 : (c0.index == n) = true <;> by_cases e1 : (c1.index == n) = true <;>
    by_cases e2 : (c2.index == n) = true <;> simp_all

theorem sigma_childList_mem (old : Nat) (new : Signal) (cs : MigNode) :
    ∀ fi ∈ childList (sortNode3 (mapNode (substSignal old new) cs)),
      fi.index = new.index ∨ ∃ fi0 ∈ childList cs, fi.index = fi0.index := by
  intro fi hfi
  have hp : fi ∈ childList (mapNode (substSignal old new) cs) :=
    (childList_sortNode3_perm (mapNode (substSignal old new) cs)).mem_iff.mp hfi
  rw [childList_mapNode, List.mem_map] at hp
  obtain ⟨fi0, hfi0, rfl⟩ := hp
  unfold substSignal
  split
  · left
    rfl
  · right
    exact ⟨fi0, hfi0, rfl⟩

theorem hgt_sigma_lt (mg : MIG) (hacyc : Acyc mg) (n fo : Nat) (newSig : Signal)
    (hfo1 : mg.numPis < fo) (hfo2 : fo < mg.entries.length)
    (hnchild : hasIdx (childrenOf mg fo) n = true)
    (hm : hgt mg newSig.index ≤ hgt mg n) :
    ∀ fi ∈ childList (sortNode3 (mapNode (substSignal n newSig) (childrenOf mg fo))),
      hgt mg fi.index < hgt mg fo := by
  intro fi hfi
  have hex := hgt_exact mg hacyc hfo1 hfo2
  have m0 := Nat.le_max_left (hgt mg (childrenOf mg fo).c0.index)
    (max (hgt mg (childrenOf mg fo).c1.index) (hgt mg (childrenOf mg fo).c2.index))
  have m1 := le_trans (Nat.le_max_left (hgt mg (childrenOf mg fo).c1.index)
    (hgt mg (childrenOf mg fo).c2.index))
    (Nat.le_max_right (hgt mg (childrenOf mg fo).c0.index) _)
  have m2 := le_trans (Nat.le_max_right (hgt mg (childrenOf mg fo).c1.index)
    (hgt mg (childrenOf mg fo).c2.index))
    (Nat.le_max_right (hgt mg (childrenOf mg fo).c0.index) _)
  have hnb : hgt mg n ≤ max (hgt mg (childrenOf mg fo).c0.index)
      (max (hgt mg (childrenOf mg fo).c1.index) (hgt mg (childrenOf mg fo).c2.index)) := by
    unfold hasIdx at hnchild
    rw [List.any_eq_true] at hnchild
    obtain ⟨fi0, hfi0, hfieq⟩ := hnchild
    have heq : fi0.index = n := by simpa using hfieq
    simp only [childList, List.mem_cons, List.not_mem_nil, or_false] at hfi0
    rcases hfi0 with h | h | h
    · rw [← heq, h]
      exact m0
    · rw [← heq, h]
      exact m1
    · rw [← heq, h]
      exact m2
  rcases sigma_childList_mem n newSig (childrenOf mg fo) fi hfi with h | ⟨fi0, hfi0, h⟩
  · rw [h]
    omega
  · rw [h]
    simp only [childList, List.mem_cons, List.not_mem_nil, or_false] at hfi0
    rcases hfi0 with h0 | h0 | h0 <;> rw [h0] <;> omega

theorem replaceInNode_cases3 (mig : MIG) (m old : Nat) (new : Signal) :
    replaceInNode mig m old new = (mig, none) ∨
    (∃ s : Signal, replaceInNode mig m old new = (mig, some s) ∧
      (s ∈ childList (sortNode3 (mapNode (substSignal old new) (childrenOf mig m))) ∨
       (isLiveGate mig s.index = true ∧
        childrenOf mig s.index
          = sortNode3 (mapNode (substSignal old new) (childrenOf mig m))))) ∨
    replaceInNode mig m old new
      = (setNodeAt mig m (sortNode3 (mapNode (substSignal old new) (childrenOf mig m))),
         none) := by
  unfold replaceInNode
  dsimp only
  split
  · exact Or.inl rfl
  · split
    · refine Or.inr (Or.inl ⟨_, rfl, Or.inl ?_⟩)
      split
      · exact c0_mem_childList _
      · exact c2_mem_childList _
    · split
      · refine Or.inr (Or.inl ⟨_, rfl, Or.inl ?_⟩)
        split
        · exact c1_mem_childList _
        · exact c0_mem_childList _
      · split
        · next i heq =>
            obtain ⟨hlive, hch⟩ := hashLookup_some mig _ i heq
            exact Or.inr (Or.inl ⟨⟨i, false⟩, rfl, Or.inr ⟨hlive, hch⟩⟩)
        · exact Or.inr (Or.inr rfl)

theorem createMaj_cases3 (mig : MIG) (a b c : Signal) :
    (∃ t : Signal, createMajWithoutChangingComp mig a b c = (mig, t) ∧
      (t ∈ [(sort3 a b c).1, (sort3 a b c).2.1, (sort3 a b c).2.2] ∨
       (isLiveGate mig t.index = true ∧
        childrenOf mig t.index
          = ⟨(sort3 a b c).1, (sort3 a b c).2.1, (sort3 a b c).2.2⟩))) ∨
    (createMajWithoutChangingComp mig a b c =
        ({ mig with entries := mig.entries ++
            [⟨⟨(sort3 a b c).1, (sort3 a b c).2.1, (sort3 a b c).2.2⟩, false⟩] },
         ⟨mig.entries.length, false⟩) ∧
      hashLookup mig ⟨(sort3 a b c).1, (sort3 a b c).2.1, (sort3 a b c).2.2⟩ = none) := by
  unfold createMajWithoutChangingComp
  dsimp only
  split
  · refine Or.inl ⟨_, rfl, Or.inl ?_⟩
    split
    · simp
    · simp
  · split
    · refine Or.inl ⟨_, rfl, Or.inl ?_⟩
      split
      · simp
      · simp
    · split
      · next i heq =>
          obtain ⟨hlive, hch⟩ := hashLookup_some mig _ i heq
          exact Or.inl ⟨⟨i, false⟩, rfl, Or.inr ⟨hlive, hch⟩⟩
      · next heq => exact Or.inr ⟨rfl, heq⟩

/-- One iteration of the IP `inv_node` consumer sweep preserves the sweep
invariant: a rewired consumer receives only fan-ins strictly below it, a
trivial collapse substitutes a fan-in of the rewired triple, and a
hash-alias collapse substitutes a node of the same canonical height. -/
theorem ipFold_body_inv (mig0 : MIG) (n m : Nat) (newSig : Signal)
    (hns : newSig.index = m)
    (hn1 : mig0.numPis < n) (hn2 : n < mig0.entries.length)
    (hm2 : m < mig0.entries.length)
    (mg : MIG) (J : IpFoldInv mig0 n m mg) (fo : Nat)
    (hfo1 : mig0.numPis < fo) (hfo2 : fo < mig0.entries.length) :
    IpFoldInv mig0 n m
      (if isDead mg fo then mg
       else if false || isFanoutComp mg n fo then
         (match (replaceInNode mg fo n newSig).2 with
          | some s => substituteNode (replaceInNode mg fo n newSig).1 fo s
          | none => (replaceInNode mg fo n newSig).1)
       else mg) := by
  by_cases hd : isDead mg fo = true
  · rw [if_pos hd]
    exact J
  · rw [if_neg hd]
    by_cases hcomp : isFanoutComp mg n fo = true
    · rw [if_pos (by simp [hcomp])]
      have hfo1' : mg.numPis < fo := by rw [J.pis_eq]; exact hfo1
      have hfo2' : fo < mg.entries.length := by rw [J.len_eq]; exact hfo2
      have hn1' : mg.numPis < n := by rw [J.pis_eq]; exact hn1
      have hn2' : n < mg.entries.length := by rw [J.len_eq]; exact hn2
      have hm2' : m < mg.entries.length := by rw [J.len_eq]; exact hm2
      have hcert0 : HCert mg (hgt mg) := hgt_cert mg J.acyc
      have hidx : hasIdx (childrenOf mg fo) n = true := isFanoutComp_hasIdx mg n fo hcomp
      have hnfo : hgt mg n < hgt mg fo := by
        have hidx2 := hidx
        unfold hasIdx at hidx2
        rw [List.any_eq_true] at hidx2
        obtain ⟨fi0, hfi0, hfieq⟩ := hidx2
        have heq : fi0.index = n := by simpa using hfieq
        have hb := hcert0 fo hfo1' hfo2' fi0 hfi0
        rw [heq] at hb
        exact hb
      have hm' : hgt mg newSig.index ≤ hgt mg n := by rw [hns]; exact J.hm
      have hsig := hgt_sigma_lt mg J.acyc n fo newSig hfo1' hfo2' hidx hm'
      have hsigr : ∀ fi ∈ childList (sortNode3 (mapNode (substSignal n newSig)
          (childrenOf mg fo))), fi.index < mg.entries.length := by
        intro fi hfi
        rcases sigma_childList_mem n newSig (childrenOf mg fo) fi hfi with h | ⟨fi0, hfi0, h⟩
        · rw [h, hns]
          exact hm2'
        · rw [h]
          exact J.range fo hfo1' hfo2' fi0 hfi0
      have hlow_subst : ∀ (sg : Signal), ∀ x, hgt mg x ≤ hgt mg n →
          childrenOf (substituteNode mg fo sg) x = childrenOf mg x := by
        intro sg x hx
        rw [substituteNode_childrenOf]
        split
        · next hlive =>
            have hx1 : mg.numPis < x ∧ x < mg.entries.length := by
              unfold isLiveGate at hlive
              simp only [Bool.and_eq_true, decide_eq_true_eq] at hlive
              exact ⟨hlive.1.1, hlive.1.2⟩
            have hne : ∀ fi ∈ childList (childrenOf mg x), (fi.index == fo) = false := by
              intro fi hfi
              have hb := hcert0 x hx1.1 hx1.2 fi hfi
              rw [beq_eq_false_iff_ne]
              intro hc
              rw [hc] at hb
              omega
            unfold mapNode substSignal
            rw [hne _ (c0_mem_childList _), hne _ (c1_mem_childList _),
              hne _ (c2_mem_childList _)]
            simp only [Bool.false_eq_true, if_false]
        · rfl
      have hframe_pack : ∀ (mig' : MIG),
          mig'.entries.length = mg.entries.length →
          mig'.numPis = mg.numPis →
          (∀ x, hgt mg x ≤ hgt mg n → childrenOf mig' x = childrenOf mg x) →
          childrenOf mig' n = childrenOf mig0 n ∧
          hgt mig' m = hgt mg m ∧ hgt mig' n = hgt mg n := by
        intro mig' hlen' hpis' hagree
        refine ⟨(hagree n le_rfl).trans J.chn, ?_, ?_⟩
        · exact hgt_frame mg mig' hlen' hpis' J.acyc (hgt mg n) hagree m J.hm
        · exact hgt_frame mg mig' hlen' hpis' J.acyc (hgt mg n) hagree n le_rfl
      rcases replaceInNode_cases3 mg fo n newSig with hcase | ⟨sg, hcase, hsg⟩ | hcase
      · rw [hcase]
        exact J
      · rw [hcase]
        dsimp only
        have hsr : sg.index < mg.entries.length := by
          rcases hsg with hmem | ⟨hlive, -⟩
          · exact hsigr sg hmem
          · unfold isLiveGate at hlive
            simp only [Bool.and_eq_true, decide_eq_true_eq] at hlive
            exact hlive.1.2
        have hs_le : hgt mg sg.index ≤ hgt mg fo := by
          rcases hsg with hmem | ⟨hlive, hch⟩
          · exact le_of_lt (hsig sg hmem)
          · have hl1 : mg.numPis < sg.index ∧ sg.index < mg.entries.length := by
              unfold isLiveGate at hlive
              simp only [Bool.and_eq_true, decide_eq_true_eq] at hlive
              exact ⟨hlive.1.1, hlive.1.2⟩
            have hex := hgt_exact mg J.acyc hl1.1 hl1.2
            rw [hch] at hex
            have b0 := hsig _ (c0_mem_childList (sortNode3 (mapNode (substSignal n newSig)
              (childrenOf mg fo))))
            have b1 := hsig _ (c1_mem_childList (sortNode3 (mapNode (substSignal n newSig)
              (childrenOf mg fo))))
            have b2 := hsig _ (c2_mem_childList (sortNode3 (mapNode (substSignal n newSig)
              (childrenOf mg fo))))
            have hlt : max (hgt mg (sortNode3 (mapNode (substSignal n newSig)
                  (childrenOf mg fo))).c0.index)
                (max (hgt mg (sortNode3 (mapNode (substSignal n newSig)
                  (childrenOf mg fo))).c1.index)
                 (hgt mg (sortNode3 (mapNode (substSignal n newSig)
                  (childrenOf mg fo))).c2.index)) < hgt mg fo :=
              Nat.max_lt.mpr ⟨b0, Nat.max_lt.mpr ⟨b1, b2⟩⟩
            omega
        have hlen' := substituteNode_entries_length mg fo sg
        have hpis' := substituteNode_numPis mg fo sg
        have hcert' := substituteNode_cert mg fo sg (hgt mg) hcert0 hs_le
        obtain ⟨hacyc', hmono'⟩ := acyc_transfer mg (substituteNode mg fo sg) hlen' hcert'
        have hrange' := substituteNode_range mg fo sg J.range hsr
        obtain ⟨hchn', hhm1, hhm2⟩ := hframe_pack (substituteNode mg fo sg) hlen' hpis'
          (hlow_subst sg)
        exact ⟨hlen'.trans J.len_eq, hpis'.trans J.pis_eq, hrange', hacyc',
          fun x => le_trans (hmono' x) (J.mono x), hchn',
          by rw [hhm1, hhm2]; exact J.hm⟩
      · rw [hcase]
        dsimp only
        have hlen' := setNodeAt_length mg fo (sortNode3 (mapNode (substSignal n newSig)
          (childrenOf mg fo)))
        have hpis' := setNodeAt_numPis mg fo (sortNode3 (mapNode (substSignal n newSig)
          (childrenOf mg fo)))
        have hcert' := setNode_cert mg fo _ (hgt mg) hcert0 hsig
        obtain ⟨hacyc', hmono'⟩ := acyc_transfer mg (setNodeAt mg fo _) hlen' hcert'
        have hrange' := setNode_range mg fo _ J.range hsigr
        have hlow : ∀ x, hgt mg x ≤ hgt mg n →
            childrenOf (setNodeAt mg fo (sortNode3 (mapNode (substSignal n newSig)
              (childrenOf mg fo)))) x = childrenOf mg x := by
          intro x hx
          apply childrenOf_setNode_ne
          intro hc
          rw [hc] at hx
          omega
        obtain ⟨hchn', hhm1, hhm2⟩ := hframe_pack _ hlen' hpis' hlow
        exact ⟨hlen'.trans J.len_eq, hpis'.trans J.pis_eq, hrange', hacyc',
          fun x => le_trans (hmono' x) (J.mono x), hchn',
          by rw [hhm1, hhm2]; exact J.hm⟩
    · rw [if_neg (by simp [hcomp])]
      exact J

/-- The full consumer sweep preserves the sweep invariant. -/
theorem ipFold_inv (mig0 : MIG) (n m : Nat) (newSig : Signal) (hns : newSig.index = m)
    (hn1 : mig0.numPis < n) (hn2 : n < mig0.entries.length)
    (hm2 : m < mig0.entries.length) :
    ∀ (l : List Nat) (mg : MIG), IpFoldInv mig0 n m mg →
      (∀ fo ∈ l, mig0.numPis < fo ∧ fo < mig0.entries.length) →
      IpFoldInv mig0 n m (l.foldl (fun mg2 fo =>
        if isDead mg2 fo then mg2
        else if false || isFanoutComp mg2 n fo then
          (match (replaceInNode mg2 fo n newSig).2 with
           | some s => substituteNode (replaceInNode mg2 fo n newSig).1 fo s
           | none => (replaceInNode mg2 fo n newSig).1)
        else mg2) mg) := by
  intro l
  induction l with
  | nil => exact fun mg J _ => J
  | cons fo rest ih =>
      intro mg J hl
      rw [List.foldl_cons]
      obtain ⟨hfo1, hfo2⟩ := hl fo (List.mem_cons_self fo rest)
      exact ih _ (ipFold_body_inv mig0 n m newSig hns hn1 hn2 hm2 mg J fo hfo1 hfo2)
        (fun g hg => hl g (List.mem_cons_of_mem fo hg))

/-- Appending a fresh node whose fan-ins are (height-wise) fan-ins of `n`
preserves range, acyclicity and heights, and the fresh slot never
out-weighs `n`. -/
theorem append_invIP (mig : MIG) (hinv : InvIP mig) (n : Nat)
    (hn1 : mig.numPis < n) (hn2 : n < mig.entries.length) (e : Entry)
    (hv : ∀ fi ∈ childList e.node, hgt mig fi.index < hgt mig n)
    (hrange : ∀ fi ∈ childList e.node, fi.index < mig.entries.length)
    (hidxmem : ∀ fi ∈ childList e.node,
      ∃ fi0 ∈ childList (childrenOf mig n), fi.index = fi0.index) :
    ChildRange { mig with entries := mig.entries ++ [e] } ∧
    Acyc { mig with entries := mig.entries ++ [e] } ∧
    (∀ x, x < mig.entries.length →
      hgt { mig with entries := mig.entries ++ [e] } x ≤ hgt mig x) ∧
    hgt { mig with entries := mig.entries ++ [e] } mig.entries.length
      ≤ hgt { mig with entries := mig.entries ++ [e] } n ∧
    childrenOf { mig with entries := mig.entries ++ [e] } n = childrenOf mig n := by
  have hAlen : ({ mig with entries := mig.entries ++ [e] } : MIG).entries.length
      = mig.entries.length + 1 := by
    dsimp only
    rw [List.length_append, List.length_singleton]
  have hcertA := append_cert mig e hinv.acyc hinv.range (hgt mig n + 1)
    (fun fi hfi => Nat.lt_succ_of_lt (hv fi hfi)) hrange
  have hbound : ∀ x, x < ({ mig with entries := mig.entries ++ [e] } : MIG).entries.length →
      (fun x => if x = mig.entries.length then hgt mig n + 1 else hgt mig x) x
        ≤ ({ mig with entries := mig.entries ++ [e] } : MIG).entries.length := by
    intro x hx
    rw [hAlen]
    dsimp only
    split
    · have := hgt_le_len mig n
      omega
    · have := hgt_le_len mig x
      omega
  have hAacyc : Acyc { mig with entries := mig.entries ++ [e] } :=
    acyc_of_cert _ _ hcertA hbound
  have hAmono : ∀ x, x < mig.entries.length →
      hgt { mig with entries := mig.entries ++ [e] } x ≤ hgt mig x := by
    intro x hx
    have h1 := heightF_le_cert _ _ hcertA
      ({ mig with entries := mig.entries ++ [e] } : MIG).entries.length x
    dsimp only at h1
    rw [if_neg (by omega)] at h1
    exact h1
  have hArange : ChildRange { mig with entries := mig.entries ++ [e] } := by
    intro x hx1 hx2 fi hfi
    rw [hAlen] at hx2 ⊢
    by_cases hxL : x = mig.entries.length
    · subst hxL
      rw [childrenOf_append_self] at hfi
      have := hrange fi hfi
      omega
    · have hxlt : x < mig.entries.length := by omega
      rw [childrenOf_append_lt mig e hxlt] at hfi
      have := hinv.range x hx1 hxlt fi hfi
      omega
  have hAchn : childrenOf { mig with entries := mig.entries ++ [e] } n = childrenOf mig n :=
    childrenOf_append_lt mig e hn2
  refine ⟨hArange, hAacyc, hAmono, ?_, hAchn⟩
  have hex_n := hgt_exact { mig with entries := mig.entries ++ [e] } hAacyc
    (x := n) hn1 (by rw [hAlen]; omega)
  have hex_L := hgt_exact { mig with entries := mig.entries ++ [e] } hAacyc
    (x := mig.entries.length) hinv.pis_lt (by rw [hAlen]; omega)
  rw [hAchn] at hex_n
  rw [childrenOf_append_self] at hex_L
  have hmemb : ∀ fi ∈ childList e.node,
      hgt { mig with entries := mig.entries ++ [e] } fi.index
        ≤ max (hgt { mig with entries := mig.entries ++ [e] } (childrenOf mig n).c0.index)
          (max (hgt { mig with entries := mig.entries ++ [e] } (childrenOf mig n).c1.index)
            (hgt { mig with entries := mig.entries ++ [e] } (childrenOf mig n).c2.index)) := by
    intro fi hfi
    obtain ⟨fi0, hfi0, heq⟩ := hidxmem fi hfi
    rw [heq]
    simp only [childList, List.mem_cons, List.not_mem_nil, or_false] at hfi0
    rcases hfi0 with h | h | h <;> rw [h]
    · exact Nat.le_max_left _ _
    · exact le_trans (Nat.le_max_left _ _) (Nat.le_max_right _ _)
    · exact le_trans (Nat.le_max_right _ _) (Nat.le_max_right _ _)
  have b0 := hmemb _ (c0_mem_childList e.node)
  have b1 := hmemb _ (c1_mem_childList e.node)
  have b2 := hmemb _ (c2_mem_childList e.node)
  have hmx : max (hgt { mig with entries := mig.entries ++ [e] } e.node.c0.index)
      (max (hgt { mig with entries := mig.entries ++ [e] } e.node.c1.index)
        (hgt { mig with entries := mig.entries ++ [e] } e.node.c2.index))
      ≤ max (hgt { mig with entries := mig.entries ++ [e] } (childrenOf mig n).c0.index)
        (max (hgt { mig with entries := mig.entries ++ [e] } (childrenOf mig n).c1.index)
          (hgt { mig with entries := mig.entries ++ [e] } (childrenOf mig n).c2.index)) :=
    Nat.max_le.mpr ⟨b0, Nat.max_le.mpr ⟨b1, b2⟩⟩
  omega

/-- Discharge the tail of `inv_node`: the conditional take-out of `n`
preserves the invariant package. -/
theorem ip_final_wrap (mig B : MIG) (n m : Nat)
    (hBpis_mig : B.numPis = mig.numPis)
    (hBlen_ge : mig.entries.length ≤ B.entries.length)
    (hBpislt : B.numPis < B.entries.length)
    (hBmono : ∀ x, x < mig.entries.length → hgt B x ≤ hgt mig x)
    (hBchn : childrenOf B n = childrenOf mig n)
    (G : MIG) (JG : IpFoldInv B n m G) :
    InvIP (if fanoutSize G n == 0 then takeOutNode G n else G) ∧
    mig.entries.length ≤ (if fanoutSize G n == 0 then takeOutNode G n else G).entries.length ∧
    (if fanoutSize G n == 0 then takeOutNode G n else G).numPis = mig.numPis ∧
    (∀ x, x < mig.entries.length →
      hgt (if fanoutSize G n == 0 then takeOutNode G n else G) x ≤ hgt mig x) ∧
    childrenOf (if fanoutSize G n == 0 then takeOutNode G n else G) n
      = childrenOf mig n := by
  split
  · have tch := takeOutNode_childrenOf G n
    have tlen := takeOutNode_length G n
    have tpis := takeOutNode_numPis G n
    have thgt := hgt_congr G (takeOutNode G n) tch tlen tpis
    have tacyc := acyc_congr G (takeOutNode G n) tch tlen tpis JG.acyc
    have trange : ChildRange (takeOutNode G n) := by
      intro x hx1 hx2 fi hfi
      rw [tch] at hfi
      rw [tlen] at hx2
      rw [tpis] at hx1
      rw [tlen]
      exact JG.range x hx1 hx2 fi hfi
    refine ⟨⟨?_, trange, tacyc⟩, ?_, ?_, ?_, ?_⟩
    · rw [tlen, tpis, JG.len_eq, JG.pis_eq]
      exact hBpislt
    · rw [tlen, JG.len_eq]
      exact hBlen_ge
    · rw [tpis, JG.pis_eq]
      exact hBpis_mig
    · intro x hx
      rw [thgt x]
      exact le_trans (JG.mono x) (hBmono x hx)
    · rw [tch, JG.chn]
      exact hBchn
  · refine ⟨⟨?_, JG.range, JG.acyc⟩, ?_, ?_, ?_, ?_⟩
    · rw [JG.len_eq, JG.pis_eq]
      exact hBpislt
    · rw [JG.len_eq]
      exact hBlen_ge
    · rw [JG.pis_eq]
      exact hBpis_mig
    · intro x hx
      exact le_trans (JG.mono x) (hBmono x hx)
    · rw [JG.chn]
      exact hBchn

/-- `inv_node` of the IP pass preserves the loop invariant, never shrinks
the pool, never raises the canonical height of a pre-existing slot, and
leaves `n`'s own fan-ins untouched. -/
theorem invNodeIP_pack (mig : MIG) (n : Nat) (hinv : InvIP mig)
    (hn1 : mig.numPis < n) (hn2 : n < mig.entries.length) :
    InvIP (invNodeIP mig n).1 ∧
    mig.entries.length ≤ (invNodeIP mig n).1.entries.length ∧
    (invNodeIP mig n).1.numPis = mig.numPis ∧
    (∀ x, x < mig.entries.length → hgt (invNodeIP mig n).1 x ≤ hgt mig x) ∧
    childrenOf (invNodeIP mig n).1 n = childrenOf mig n := by
  have hpi : isPi mig n = false := by
    unfold isPi
    rw [Bool.eq_false_iff]
    intro h
    simp only [Bool.and_eq_true, decide_eq_true_eq] at h
    omega
  have hcst : isConstant n = false := by
    unfold isConstant
    rw [Bool.eq_false_iff]
    intro h
    simp only [beq_iff_eq] at h
    omega
  have hS : ∀ fi ∈ childList (sortNode3 (mapNode notSignal (childrenOf mig n))),
      hgt mig fi.index < hgt mig n := by
    intro fi hfi
    have hp := (childList_sortNode3_perm (mapNode notSignal (childrenOf mig n))).mem_iff.mp hfi
    rw [childList_mapNode, List.mem_map] at hp
    obtain ⟨fi0, hfi0, rfl⟩ := hp
    exact hgt_cert mig hinv.acyc n hn1 hn2 fi0 hfi0
  have hSr : ∀ fi ∈ childList (sortNode3 (mapNode notSignal (childrenOf mig n))),
      fi.index < mig.entries.length := by
    intro fi hfi
    have hp := (childList_sortNode3_perm (mapNode notSignal (childrenOf mig n))).mem_iff.mp hfi
    rw [childList_mapNode, List.mem_map] at hp
    obtain ⟨fi0, hfi0, rfl⟩ := hp
    exact hinv.range n hn1 hn2 fi0 hfi0
  have hSidx : ∀ fi ∈ childList (sortNode3 (mapNode notSignal (childrenOf mig n))),
      ∃ fi0 ∈ childList (childrenOf mig n), fi.index = fi0.index := by
    intro fi hfi
    have hp := (childList_sortNode3_perm (mapNode notSignal (childrenOf mig n))).mem_iff.mp hfi
    rw [childList_mapNode, List.mem_map] at hp
    obtain ⟨fi0, hfi0, rfl⟩ := hp
    exact ⟨fi0, hfi0, rfl⟩
  unfold invNodeIP
  rw [if_neg (by rw [hpi, hcst]; simp)]
  dsimp only
  rcases createMaj_cases3 mig (notSignal (childrenOf mig n).c0)
      (notSignal (childrenOf mig n).c1) (notSignal (childrenOf mig n).c2)
    with ⟨t, hcm, ht⟩ | ⟨hcm, hnone⟩
  · rw [hcm]
    dsimp only
    have hBent := roccc_entries mig n (notSignal t) false
    have hBlen : (replaceInOutputsCondComp mig n (notSignal t) false).entries.length
        = mig.entries.length := by rw [hBent]
    have hBpis := roccc_numPis mig n (notSignal t) false
    have hBch := roccc_childrenOf mig n (notSignal t) false
    have hBhgt := hgt_congr mig (replaceInOutputsCondComp mig n (notSignal t) false)
      hBch hBlen hBpis
    have hBacyc := acyc_congr mig (replaceInOutputsCondComp mig n (notSignal t) false)
      hBch hBlen hBpis hinv.acyc
    have hBrange : ChildRange (replaceInOutputsCondComp mig n (notSignal t) false) := by
      intro x hx1 hx2 fi hfi
      rw [hBch] at hfi
      rw [hBlen] at hx2 ⊢
      rw [hBpis] at hx1
      exact hinv.range x hx1 hx2 fi hfi
    have hm_le : hgt mig t.index ≤ hgt mig n := by
      rcases ht with hmem | ⟨hlive, hch⟩
      · exact le_of_lt (hS t hmem)
      · have hl1 : mig.numPis < t.index ∧ t.index < mig.entries.length := by
          unfold isLiveGate at hlive
          simp only [Bool.and_eq_true, decide_eq_true_eq] at hlive
          exact ⟨hlive.1.1, hlive.1.2⟩
        have hch' : childrenOf mig t.index
            = sortNode3 (mapNode notSignal (childrenOf mig n)) := hch
        have hex := hgt_exact mig hinv.acyc hl1.1 hl1.2
        rw [hch'] at hex
        have b0 := hS _ (c0_mem_childList (sortNode3 (mapNode notSignal (childrenOf mig n))))
        have b1 := hS _ (c1_mem_childList (sortNode3 (mapNode notSignal (childrenOf mig n))))
        have b2 := hS _ (c2_mem_childList (sortNode3 (mapNode notSignal (childrenOf mig n))))
        have hlt : max (hgt mig (sortNode3 (mapNode notSignal (childrenOf mig n))).c0.index)
            (max (hgt mig (sortNode3 (mapNode notSignal (childrenOf mig n))).c1.index)
              (hgt mig (sortNode3 (mapNode notSignal (childrenOf mig n))).c2.index))
            < hgt mig n :=
          Nat.max_lt.mpr ⟨b0, Nat.max_lt.mpr ⟨b1, b2⟩⟩
        omega
    have hm_lt : t.index < mig.entries.length := by
      rcases ht with hmem | ⟨hlive, -⟩
      · exact hSr t hmem
      · unfold isLiveGate at hlive
        simp only [Bool.and_eq_true, decide_eq_true_eq] at hlive
        exact hlive.1.2
    have J0 : IpFoldInv (replaceInOutputsCondComp mig n (notSignal t) false) n
        (notSignal t).index (replaceInOutputsCondComp mig n (notSignal t) false) :=
      ⟨rfl, rfl, hBrange, hBacyc, fun x => le_rfl, rfl, by
        rw [hBhgt, hBhgt]
        exact hm_le⟩
    have hgs : ∀ fo ∈ gateIndices (replaceInOutputsCondComp mig n (notSignal t) false),
        (replaceInOutputsCondComp mig n (notSignal t) false).numPis < fo ∧
        fo < (replaceInOutputsCondComp mig n (notSignal t) false).entries.length := by
      intro fo hfo
      unfold gateIndices at hfo
      simp only [List.mem_filter, List.mem_range, decide_eq_true_eq] at hfo
      exact ⟨hfo.2, hfo.1⟩
    have Jf := ipFold_inv (replaceInOutputsCondComp mig n (notSignal t) false) n
      (notSignal t).index (notSignal t) rfl
      (by rw [hBpis]; exact hn1) (by rw [hBlen]; exact hn2) (by rw [hBlen]; exact hm_lt)
      (gateIndices (replaceInOutputsCondComp mig n (notSignal t) false))
      (replaceInOutputsCondComp mig n (notSignal t) false) J0 hgs
    exact ip_final_wrap mig (replaceInOutputsCondComp mig n (notSignal t) false) n
      (notSignal t).index hBpis (le_of_eq hBlen.symm)
      (by rw [hBpis, hBlen]; exact hinv.pis_lt)
      (fun x hx => le_of_eq (hBhgt x))
      (hBch n) _ Jf
  · rw [hcm]
    dsimp only
    obtain ⟨hArange, hAacyc, hAmono, hAhm, hAchn⟩ := append_invIP mig hinv n hn1 hn2
      ⟨⟨(sort3 (notSignal (childrenOf mig n).c0) (notSignal (childrenOf mig n).c1)
          (notSignal (childrenOf mig n).c2)).1,
        (sort3 (notSignal (childrenOf mig n).c0) (notSignal (childrenOf mig n).c1)
          (notSignal (childrenOf mig n).c2)).2.1,
        (sort3 (notSignal (childrenOf mig n).c0) (notSignal (childrenOf mig n).c1)
          (notSignal (childrenOf mig n).c2)).2.2⟩, false⟩
      (fun fi hfi => hS fi hfi) (fun fi hfi => hSr fi hfi) (fun fi hfi => hSidx fi hfi)
    set A := ({ mig with entries := mig.entries ++
      [(⟨⟨(sort3 (notSignal (childrenOf mig n).c0) (notSignal (childrenOf mig n).c1)
          (notSignal (childrenOf mig n).c2)).1,
        (sort3 (notSignal (childrenOf mig n).c0) (notSignal (childrenOf mig n).c1)
          (notSignal (childrenOf mig n).c2)).2.1,
        (sort3 (notSignal (childrenOf mig n).c0) (notSignal (childrenOf mig n).c1)
          (notSignal (childrenOf mig n).c2)).2.2⟩, false⟩ : Entry)] } : MIG) with hA
    have hApis : A.numPis = mig.numPis := by rw [hA]
    have hAlen : A.entries.length = mig.entries.length + 1 := by
      rw [hA]
      dsimp only
      rw [List.length_append, List.length_singleton]
    set B := replaceInOutputsCondComp A n
      (notSignal (⟨mig.entries.length, false⟩ : Signal)) false with hB
    have hBentA : B.entries = A.entries := by
      rw [hB]
      exact roccc_entries A n (notSignal (⟨mig.entries.length, false⟩ : Signal)) false
    have hBlenA : B.entries.length = A.entries.length := by rw [hBentA]
    have hBpisA : B.numPis = A.numPis := by
      rw [hB]
      exact roccc_numPis A n (notSignal (⟨mig.entries.length, false⟩ : Signal)) false
    have hBchA : ∀ x, childrenOf B x = childrenOf A x := by
      intro x
      rw [hB]
      exact roccc_childrenOf A n (notSignal (⟨mig.entries.length, false⟩ : Signal)) false x
    have hBhgt := hgt_congr A B hBchA hBlenA hBpisA
    have hBacyc := acyc_congr A B hBchA hBlenA hBpisA hAacyc
    have hBrange : ChildRange B := by
      intro x hx1 hx2 fi hfi
      rw [hBchA] at hfi
      rw [hBlenA] at hx2 ⊢
      rw [hBpisA] at hx1
      exact hArange x hx1 hx2 fi hfi
    have J0 : IpFoldInv B n mig.entries.length B :=
      ⟨rfl, rfl, hBrange, hBacyc, fun x => le_rfl, rfl, by
        rw [hBhgt, hBhgt]
        exact hAhm⟩
    have hgs : ∀ fo ∈ gateIndices B, B.numPis < fo ∧ fo < B.entries.length := by
      intro fo hfo
      unfold gateIndices at hfo
      simp only [List.mem_filter, List.mem_range, decide_eq_true_eq] at hfo
      exact ⟨hfo.2, hfo.1⟩
    have Jf := ipFold_inv B n mig.entries.length
      (notSignal (⟨mig.entries.length, false⟩ : Signal)) rfl
      (by rw [hBpisA, hApis]; exact hn1)
      (by rw [hBlenA, hAlen]; omega)
      (by rw [hBlenA, hAlen]; omega)
      (gateIndices B) B J0 hgs
    exact ip_final_wrap mig B n mig.entries.length (hBpisA.trans hApis)
      (by rw [hBlenA, hAlen]; omega)
      (by rw [hBpisA, hApis, hBlenA, hAlen]; have := hinv.pis_lt; omega)
      (fun x hx => by rw [hBhgt x]; exact hAmono x hx)
      ((hBchA n).trans hAchn) _ Jf

/-- One iteration of the IP work-queue loop preserves the invariant and
the queue ranges and strictly decreases the height measure. -/
theorem ipStep_pack (mig : MIG) (n : Nat) (q : List Nat) (hinv : InvIP mig)
    (hq : ∀ x ∈ n :: q, x < mig.entries.length) :
    InvIP (ipStep (mig, n :: q)).1 ∧
    (∀ x ∈ (ipStep (mig, n :: q)).2, x < (ipStep (mig, n :: q)).1.entries.length) ∧
    queueMeasure (ipStep (mig, n :: q)).1 (ipStep (mig, n :: q)).2
      < queueMeasure mig (n :: q) := by
  have h4 : 0 < 4 ^ hgt mig n := pow_pos (by omega) _
  unfold ipStep
  dsimp only
  by_cases hskip : (isConstant n || isPi mig n || isDead mig n) = true
  · rw [if_pos hskip]
    dsimp only
    refine ⟨hinv, ?_, ?_⟩
    · intro x hx
      exact hq x (List.mem_cons_of_mem n hx)
    · unfold queueMeasure
      rw [List.map_cons, List.sum_cons]
      omega
  · rw [if_neg hskip]
    have hn2 : n < mig.entries.length := hq n (List.mem_cons_self n q)
    have hc1 : isConstant n = false := by
      by_contra hc
      rw [Bool.not_eq_false] at hc
      rw [hc] at hskip
      simp at hskip
    have hpi2 : isPi mig n = false := by
      by_contra hc
      rw [Bool.not_eq_false] at hc
      rw [hc] at hskip
      simp at hskip
    have hn1 : mig.numPis < n := by
      unfold isConstant at hc1
      rw [Bool.eq_false_iff] at hpi2
      simp only [beq_eq_false_iff_ne] at hc1
      by_contra hcon
      apply hpi2
      unfold isPi
      simp only [Bool.and_eq_true, decide_eq_true_eq]
      omega
    by_cases hcf : hasCompFanout mig n = true
    · rw [if_pos hcf]
      dsimp only
      obtain ⟨hinv', hlen', hpis', hmono', hchn'⟩ := invNodeIP_pack mig n hinv hn1 hn2
      refine ⟨hinv', ?_, ?_⟩
      · intro x hx
        rw [List.mem_append] at hx
        rcases hx with hx | hx
        · exact lt_of_lt_of_le (hq x (List.mem_cons_of_mem n hx)) hlen'
        · rw [List.mem_map] at hx
          obtain ⟨fi, hfi, rfl⟩ := hx
          rw [hchn'] at hfi
          exact lt_of_lt_of_le (hinv.range n hn1 hn2 fi hfi) hlen'
      · have hch : ∀ fi ∈ childList (childrenOf (invNodeIP mig n).1 n),
            hgt (invNodeIP mig n).1 fi.index ≤ hgt mig n - 1 := by
          intro fi hfi
          rw [hchn'] at hfi
          have h1 := hgt_cert mig hinv.acyc n hn1 hn2 fi hfi
          have h2 := hmono' fi.index (hinv.range n hn1 hn2 fi hfi)
          omega
        have hH : 1 ≤ hgt mig n := by
          have h1 := hgt_cert mig hinv.acyc n hn1 hn2 _
            (c0_mem_childList (childrenOf mig n))
          omega
        have p0 := hch _ (c0_mem_childList (childrenOf (invNodeIP mig n).1 n))
        have p1 := hch _ (c1_mem_childList (childrenOf (invNodeIP mig n).1 n))
        have p2 := hch _ (c2_mem_childList (childrenOf (invNodeIP mig n).1 n))
        have e0 : 4 ^ hgt (invNodeIP mig n).1 (childrenOf (invNodeIP mig n).1 n).c0.index
            ≤ 4 ^ (hgt mig n - 1) := Nat.pow_le_pow_right (by omega) p0
        have e1 : 4 ^ hgt (invNodeIP mig n).1 (childrenOf (invNodeIP mig n).1 n).c1.index
            ≤ 4 ^ (hgt mig n - 1) := Nat.pow_le_pow_right (by omega) p1
        have e2 : 4 ^ hgt (invNodeIP mig n).1 (childrenOf (invNodeIP mig n).1 n).c2.index
            ≤ 4 ^ (hgt mig n - 1) := Nat.pow_le_pow_right (by omega) p2
        have hqsum : (q.map (fun x => 4 ^ hgt (invNodeIP mig n).1 x)).sum
            ≤ (q.map (fun x => 4 ^ hgt mig x)).sum := by
          apply List.sum_le_sum
          intro x hx
          exact Nat.pow_le_pow_right (by omega)
            (hmono' x (hq x (List.mem_cons_of_mem n hx)))
        have hpow : 4 ^ hgt mig n = 4 ^ (hgt mig n - 1) * 4 := by
          rw [← pow_succ]
          congr 1
          omega
        unfold queueMeasure
        rw [List.map_cons, List.sum_cons, List.map_append, List.sum_append]
        simp only [childList, List.map_cons, List.map_nil, List.sum_cons, List.sum_nil]
        omega
    · rw [if_neg hcf]
      dsimp only
      refine ⟨hinv, ?_, ?_⟩
      · intro x hx
        rw [List.mem_append] at hx
        rcases hx with hx | hx
        · exact hq x (List.mem_cons_of_mem n hx)
        · rw [List.mem_map] at hx
          obtain ⟨fi, hfi, rfl⟩ := hx
          exact hinv.range n hn1 hn2 fi hfi
      · have hch : ∀ fi ∈ childList (childrenOf mig n),
            hgt mig fi.index ≤ hgt mig n - 1 := by
          intro fi hfi
          have h1 := hgt_cert mig hinv.acyc n hn1 hn2 fi hfi
          omega
        have hH : 1 ≤ hgt mig n := by
          have h1 := hgt_cert mig hinv.acyc n hn1 hn2 _
            (c0_mem_childList (childrenOf mig n))
          omega
        have e0 : 4 ^ hgt mig (childrenOf mig n).c0.index ≤ 4 ^ (hgt mig n - 1) :=
          Nat.pow_le_pow_right (by omega) (hch _ (c0_mem_childList (childrenOf mig n)))
        have e1 : 4 ^ hgt mig (childrenOf mig n).c1.index ≤ 4 ^ (hgt mig n - 1) :=
          Nat.pow_le_pow_right (by omega) (hch _ (c1_mem_childList (childrenOf mig n)))
        have e2 : 4 ^ hgt mig (childrenOf mig n).c2.index ≤ 4 ^ (hgt mig n - 1) :=
          Nat.pow_le_pow_right (by omega) (hch _ (c2_mem_childList (childrenOf mig n)))
        have hpow : 4 ^ hgt mig n = 4 ^ (hgt mig n - 1) * 4 := by
          rw [← pow_succ]
          congr 1
          omega
        unfold queueMeasure
        rw [List.map_cons, List.sum_cons, List.map_append, List.sum_append]
        simp only [childList, List.map_cons, List.map_nil, List.sum_cons, List.sum_nil]
        omega

/-- The loop returns the final network whenever the fuel covers the
measure. -/
theorem ipLoop_isSome : ∀ (B : Nat) (mig : MIG) (q : List Nat),
    InvIP mig → (∀ x ∈ q, x < mig.entries.length) →
    queueMeasure mig q ≤ B → (ipLoop B (mig, q)).isSome = true := by
  intro B
  induction B with
  | zero =>
      intro mig q hinv hq hB
      cases q with
      | nil => rfl
      | cons n q' =>
          exfalso
          unfold queueMeasure at hB
          rw [List.map_cons, List.sum_cons] at hB
          have h4 : 0 < 4 ^ hgt mig n := pow_pos (by omega) _
          omega
  | succ B ih =>
      intro mig q hinv hq hB
      cases q with
      | nil => rfl
      | cons n q' =>
          have hstep : ipLoop (B + 1) (mig, n :: q') = ipLoop B (ipStep (mig, n :: q')) :=
            rfl
          rw [hstep]
          obtain ⟨h1, h2, h3⟩ := ipStep_pack mig n q' hinv hq
          exact ih (ipStep (mig, n :: q')).1 (ipStep (mig, n :: q')).2 h1 h2 (by omega)

/-- The decidable precondition yields the loop invariant and the seed
ranges. -/
theorem wellFormedIdx_facts (mig : MIG) (h : wellFormedIdx mig = true) :
    InvIP mig ∧ ∀ po ∈ mig.outputs, po.index < mig.entries.length := by
  unfold wellFormedIdx at h
  simp only [Bool.and_eq_true, List.all_eq_true, decide_eq_true_eq, Bool.or_eq_true,
    Bool.not_eq_true', decide_eq_false_iff_not] at h
  obtain ⟨⟨hp, ho⟩, hg⟩ := h
  have hidx : ∀ x, mig.numPis < x → x < mig.entries.length →
      ∀ fi ∈ childList (childrenOf mig x), fi.index < x := by
    intro x hx1 hx2 fi hfi
    rcases hg x (List.mem_range.mpr hx2) with hcon | hall
    · exact absurd hx1 hcon
    · exact hall fi hfi
  refine ⟨⟨hp, ?_, ?_⟩, ho⟩
  · intro x hx1 hx2 fi hfi
    have := hidx x hx1 hx2 fi hfi
    omega
  · apply acyc_of_cert mig (fun x => x)
    · intro x hx1 hx2 fi hfi
      exact hidx x hx1 hx2 fi hfi
    · intro x hx
      omega

/-! ## Claim C9: termination of the IP work-queue loop -/

/-- Claim C9 (counterexample to the stated mechanism): on netD the first
pop (node 5) leaves the queue `[6, 1, 2, 3]`, and the subsequent pop of
node 6 appends the fan-in indices `[3, 4, 7]` — the index 7 of the freshly
created replacement node exceeds the popped index 6, so it is not true
that every pop enqueues only strictly smaller indices. -/
theorem c9_pop_enqueues_larger_index :
    (ipStep (netD, ipSeeds netD)).2 = [6, 1, 2, 3] ∧
    (ipStep (ipStep (netD, ipSeeds netD))).2 = [1, 2, 3] ++ [3, 4, 7] ∧
    6 < 7 :=
  ⟨rfl, rfl, by omega⟩

/-- Claim C9 (amended): on every network satisfying the invariants — with
acyclicity I3 read index-wise, as the claim states it — the IP work-queue
loop terminates: some fuel makes `ipLoop` return the final network.  The
claim's stated mechanism is false (`c9_pop_enqueues_larger_index`): a pop
may enqueue the index of the freshly created replacement node, which
exceeds the popped index.  Termination holds because every enqueued fan-in
has a strictly smaller canonical height in the current — always acyclic —
network, heights never increase, and so the height measure of the queue
decreases at every pop. -/
theorem c9_ip_terminates (mig : MIG) (h : wellFormedIdx mig = true) :
    ∃ fuel, (ipLoop fuel (mig, ipSeeds mig)).isSome = true := by
  obtain ⟨hinv, ho⟩ := wellFormedIdx_facts mig h
  refine ⟨queueMeasure mig (ipSeeds mig),
    ipLoop_isSome (queueMeasure mig (ipSeeds mig)) mig (ipSeeds mig) hinv ?_ le_rfl⟩
  intro x hx
  unfold ipSeeds at hx
  rw [List.mem_map] at hx
  obtain ⟨po, hpo, rfl⟩ := hx
  exact ho po hpo

/-- The termination bound instantiated on the concrete network netD. -/
theorem c9_ip_terminates_witness :
    wellFormedIdx netD = true ∧
    ∃ fuel, (ipLoop fuel (netD, ipSeeds netD)).isSome = true :=
  ⟨by decide, c9_ip_terminates netD (by decide)⟩

/-! ## Claim theorems: counterexample evaluations -/

/-- Claim C3 (failing-input evaluation): on netA the IM pass reports
`num_inverters_removed = 1`, yet the global complement count is 3 both
before and after the pass — it does not strictly decrease, and does not
decrease by the reported amount.  (The gain of the inverted gate 6 ignores
its constant fan-in edge, but `inv_node` flips that edge's complement.) -/
theorem c3_im_count_not_decreased_by_stats :
    complementCount netA = 3 ∧
    (migInvMinimization netA).2.num_inverters_removed = 1 ∧
    complementCount (migInvMinimization netA).1 = 3 :=
  ⟨rfl, rfl, rfl⟩

/-- Claim C5 (failing-input evaluation): on netB, during `inv_node 6` of
the IM pass, `replace_in_node` on consumer 8 returns the substitution
signal (7, uncomplemented) — the first conjunct evaluates the exact call
the pass performs — yet in the final network gate 8 is still live with its
original fan-ins, still referencing node 6 (which also remains live):
the substitution signal was discarded, not applied network-wide. -/
theorem c5_im_substitution_discarded :
    (replaceInNode (replaceInOutputs netB 6 ⟨7, true⟩) 8 6 ⟨7, true⟩).2
        = some ⟨7, false⟩ ∧
    childrenOf (migInvMinimization netB).1 8 = ⟨⟨4, false⟩, ⟨6, true⟩, ⟨7, false⟩⟩ ∧
    isLiveGate (migInvMinimization netB).1 8 = true ∧
    isLiveGate (migInvMinimization netB).1 6 = true :=
  ⟨rfl, rfl, rfl, rfl⟩

/-- Claim C2 (failing-input evaluation): on netC the IP pass terminates
with primary outputs [(6, uncomplemented), (8, complemented)]: the second
primary-output entry has its complement bit set while referencing node 8,
which is a live gate, not a primary input and not the constant; the
complement count over internal-sourced edges is 1, not 0. -/
theorem c2_ip_leaves_complemented_internal_po :
    (migInvPropogation 100 netC).1.map
        (fun m => (m.outputs, isLiveGate m 8, isPi m 8, isConstant 8,
                   complementCountExceptPi m))
      = some ([⟨6, false⟩, ⟨8, true⟩], true, false, false, 1) :=
  rfl

/-- Claim C4 (failing-input evaluation): running IP once on netC yields a
network with complement count 4; running IP on that result yields a
different network (the second run inverts node 8, whose primary output is
still complemented) with complement count 6.  The second run is not a
no-op and the observable complement counts differ. -/
theorem c4_ip_not_idempotent :
    ((migInvPropogation 100 netC).1.bind (fun m1 =>
        (migInvPropogation 100 m1).1.map (fun m2 =>
          (complementCount m1, complementCount m2, decide (m1 = m2)))))
      = some (4, 6, false) :=
  rfl

/-- Claim C10: the IP pass never updates its statistics record — for every
network and every fuel, the statistics reported through the out-parameter
are the default-initialized values (`run()` contains no stopwatch and
never increments `num_calls` or `num_inverters_removed`). -/
theorem c10_ip_stats_default (fuel : Nat) (mig : MIG) :
    (migInvPropogation fuel mig).2 = ⟨0, 0, 0⟩ :=
  rfl


/-! ## Evaluation theory (claim C1)

The bounded evaluator stabilizes under any strict certificate; the
canonical value is then exact at every in-range gate slot and agrees
across networks that coincide in structure, and the majority of a fan-in
triple is invariant under permutation and value-preserving rewiring. -/

theorem evalF_succ (mig : MIG) (asg : Nat → Bool) (f x : Nat) :
    evalF mig asg (f + 1) x =
      if isConstant x || isPi mig x || decide (mig.entries.length ≤ x) then
        isPi mig x && asg x
      else evalNodeWith (evalF mig asg f) (childrenOf mig x) := rfl

theorem evalF_guard {mig : MIG} {x : Nat} (asg : Nat → Bool)
    (h : (isConstant x || isPi mig x || decide (mig.entries.length ≤ x)) = true) :
    ∀ f, evalF mig asg f x = (isPi mig x && asg x) := by
  intro f
  cases f with
  | zero => rfl
  | succ f => rw [evalF_succ, if_pos h]

theorem evalF_stab (mig : MIG) (asg : Nat → Bool) (H : Nat → Nat)
    (hcert : HCert mig H) :
    ∀ k x f1 f2, H x ≤ k → H x ≤ f1 → H x ≤ f2 →
      evalF mig asg f1 x = evalF mig asg f2 x := by
  intro k
  induction k with
  | zero =>
      intro x f1 f2 hk h1 h2
      by_cases hguard : (isConstant x || isPi mig x
          || decide (mig.entries.length ≤ x)) = true
      · rw [evalF_guard asg hguard, evalF_guard asg hguard]
      · exfalso
        rw [Bool.not_eq_true] at hguard
        obtain ⟨hx1, hx2⟩ := heightF_guard_false hguard
        have := hcert x hx1 hx2 _ (c0_mem_childList _)
        omega
  | succ k ih =>
      intro x f1 f2 hk h1 h2
      by_cases hguard : (isConstant x || isPi mig x
          || decide (mig.entries.length ≤ x)) = true
      · rw [evalF_guard asg hguard, evalF_guard asg hguard]
      · rw [Bool.not_eq_true] at hguard
        obtain ⟨hx1, hx2⟩ := heightF_guard_false hguard
        have b0 := hcert x hx1 hx2 _ (c0_mem_childList _)
        have b1 := hcert x hx1 hx2 _ (c1_mem_childList _)
        have b2 := hcert x hx1 hx2 _ (c2_mem_childList _)
        cases f1 with
        | zero => omega
        | succ f1 =>
            cases f2 with
            | zero => omega
            | succ f2 =>
                rw [evalF_succ, evalF_succ, if_neg (by simp [hguard]),
                  if_neg (by simp [hguard])]
                unfold evalNodeWith sigVal
                have e0 := ih (childrenOf mig x).c0.index f1 f2
                  (by omega) (by omega) (by omega)
                have e1 := ih (childrenOf mig x).c1.index f1 f2
                  (by omega) (by omega) (by omega)
                have e2 := ih (childrenOf mig x).c2.index f1 f2
                  (by omega) (by omega) (by omega)
                rw [e0, e1, e2]

theorem evalC_exact_of_cert (mig : MIG) (asg : Nat → Bool) (H : Nat → Nat)
    (hcert : HCert mig H) (hb : ∀ x, H x ≤ mig.entries.length) {x : Nat}
    (hx1 : mig.numPis < x) (hx2 : x < mig.entries.length) :
    evalC mig asg x = evalNodeWith (evalC mig asg) (childrenOf mig x) := by
  have h1 : evalF mig asg (mig.entries.length + 1) x
      = evalF mig asg mig.entries.length x :=
    evalF_stab mig asg H hcert (H x) x _ _ le_rfl (by have := hb x; omega) (hb x)
  unfold evalC
  rw [← h1, evalF_succ, if_neg (by simp [gate_guard_false hx1 hx2])]

theorem evalC_exact (mig : MIG) (asg : Nat → Bool) (hacyc : Acyc mig) {x : Nat}
    (hx1 : mig.numPis < x) (hx2 : x < mig.entries.length) :
    evalC mig asg x = evalNodeWith (evalC mig asg) (childrenOf mig x) :=
  evalC_exact_of_cert mig asg (hgt mig) (hgt_cert mig hacyc)
    (fun x => hgt_le_len mig x) hx1 hx2

theorem evalF_congr (mig mig' : MIG) (asg : Nat → Bool)
    (hch : ∀ x, childrenOf mig' x = childrenOf mig x)
    (hlen : mig'.entries.length = mig.entries.length)
    (hpis : mig'.numPis = mig.numPis) :
    ∀ f x, evalF mig' asg f x = evalF mig asg f x := by
  intro f
  induction f with
  | zero =>
      intro x
      show (isPi mig' x && asg x) = (isPi mig x && asg x)
      rw [isPi_congr hpis]
  | succ f ih =>
      intro x
      rw [evalF_succ, evalF_succ, isPi_congr hpis, hlen, hch x]
      split
      · rfl
      · unfold evalNodeWith sigVal
        rw [ih, ih, ih]

theorem evalC_congr (mig mig' : MIG) (asg : Nat → Bool)
    (hch : ∀ x, childrenOf mig' x = childrenOf mig x)
    (hlen : mig'.entries.length = mig.entries.length)
    (hpis : mig'.numPis = mig.numPis) :
    ∀ x, evalC mig' asg x = evalC mig asg x := by
  intro x
  unfold evalC
  rw [hlen]
  exact evalF_congr mig mig' asg hch hlen hpis _ x

theorem poVals_congr_of_evals (m1 m2 : MIG) (asg : Nat → Bool)
    (houts : m2.outputs = m1.outputs)
    (hev : ∀ x, evalC m2 asg x = evalC m1 asg x) :
    poVals m2 asg = poVals m1 asg := by
  unfold poVals
  rw [houts]
  apply List.map_congr_left
  intro po _
  rw [hev po.index]

theorem bmaj_count (a b c : Bool) :
    bmaj a b c = decide (2 ≤ [a, b, c].countP (fun x => x)) := by
  cases a <;> cases b <;> cases c <;> rfl

theorem evalNodeWith_eq_count (v : Nat → Bool) (nd : MigNode) :
    evalNodeWith v nd
      = decide (2 ≤ (childList nd).countP (fun fi => sigVal v fi)) := by
  unfold evalNodeWith childList
  rw [bmaj_count]
  simp only [List.countP_cons, List.countP_nil]

theorem evalNodeWith_perm (v : Nat → Bool) {nd nd' : MigNode}
    (hp : (childList nd).Perm (childList nd')) :
    evalNodeWith v nd = evalNodeWith v nd' := by
  rw [evalNodeWith_eq_count, evalNodeWith_eq_count, hp.countP_eq]

theorem evalNodeWith_congr {v v' : Nat → Bool} (nd : MigNode)
    (h : ∀ fi ∈ childList nd, v fi.index = v' fi.index) :
    evalNodeWith v nd = evalNodeWith v' nd := by
  unfold evalNodeWith sigVal
  rw [h _ (c0_mem_childList nd), h _ (c1_mem_childList nd), h _ (c2_mem_childList nd)]

theorem sigVal_not (v : Nat → Bool) (s : Signal) :
    sigVal v (notSignal s) = !(sigVal v s) := by
  unfold sigVal notSignal
  dsimp only
  cases v s.index <;> cases s.complement <;> rfl

theorem bmaj_not (a b c : Bool) : bmaj (!a) (!b) (!c) = !(bmaj a b c) := by
  cases a <;> cases b <;> cases c <;> rfl

theorem evalNodeWith_mapNot (v : Nat → Bool) (nd : MigNode) :
    evalNodeWith v (mapNode notSignal nd) = !(evalNodeWith v nd) := by
  unfold evalNodeWith mapNode
  dsimp only
  rw [sigVal_not, sigVal_not, sigVal_not, bmaj_not]

theorem substSignal_value (v : Nat → Bool) (old : Nat) (new : Signal) (fi : Signal)
    (hval : sigVal v new = v old) :
    sigVal v (substSignal old new fi) = sigVal v fi := by
  unfold substSignal
  split
  · next h =>
      have h' : fi.index = old := by simpa using h
      unfold sigVal at hval ⊢
      dsimp only
      rw [h', ← hval]
      cases v new.index <;> cases fi.complement <;> cases new.complement <;> rfl
  · rfl

theorem evalNodeWith_subst (v : Nat → Bool) (old : Nat) (new : Signal) (nd : MigNode)
    (hval : sigVal v new = v old) :
    evalNodeWith v (mapNode (substSignal old new) nd) = evalNodeWith v nd := by
  unfold evalNodeWith mapNode
  dsimp only
  rw [substSignal_value v old new nd.c0 hval, substSignal_value v old new nd.c1 hval,
    substSignal_value v old new nd.c2 hval]

theorem evalNodeWith_sigma (v : Nat → Bool) (old : Nat) (new : Signal) (nd : MigNode)
    (hval : sigVal v new = v old) :
    evalNodeWith v (sortNode3 (mapNode (substSignal old new) nd))
      = evalNodeWith v nd :=
  (evalNodeWith_perm v (childList_sortNode3_perm (mapNode (substSignal old new) nd))).trans
    (evalNodeWith_subst v old new nd hval)

theorem bmaj_eq_left (a c : Bool) : bmaj a a c = a := by cases a <;> cases c <;> rfl

theorem bmaj_neq_left (a c : Bool) : bmaj a (!a) c = c := by cases a <;> cases c <;> rfl

theorem bmaj_eq_right (a b : Bool) : bmaj a b b = b := by cases a <;> cases b <;> rfl

theorem bmaj_neq_right (a b : Bool) : bmaj a b (!b) = a := by cases a <;> cases b <;> rfl

theorem trivial_value_01 (v : Nat → Bool) (nd : MigNode)
    (heq : nd.c0.index = nd.c1.index) :
    sigVal v (if nd.c0.complement == nd.c1.complement then nd.c0 else nd.c2)
      = evalNodeWith v nd := by
  unfold evalNodeWith
  by_cases hc : nd.c0.complement = nd.c1.complement
  · rw [if_pos (by simp [hc])]
    have h1 : sigVal v nd.c1 = sigVal v nd.c0 := by
      unfold sigVal
      rw [heq, hc]
    rw [h1, bmaj_eq_left]
  · rw [if_neg (by simp [hc])]
    have h1 : sigVal v nd.c1 = !(sigVal v nd.c0) := by
      unfold sigVal
      rw [heq]
      have h2 : nd.c1.complement = !nd.c0.complement := by
        cases h0 : nd.c0.complement <;> cases h3 : nd.c1.complement <;> simp_all
      rw [h2]
      cases v nd.c1.index <;> cases nd.c0.complement <;> rfl
    rw [h1, bmaj_neq_left]

theorem trivial_value_12 (v : Nat → Bool) (nd : MigNode)
    (heq : nd.c1.index = nd.c2.index) :
    sigVal v (if nd.c1.complement == nd.c2.complement then nd.c1 else nd.c0)
      = evalNodeWith v nd := by
  unfold evalNodeWith
  by_cases hc : nd.c1.complement = nd.c2.complement
  · rw [if_pos (by simp [hc])]
    have h1 : sigVal v nd.c2 = sigVal v nd.c1 := by
      unfold sigVal
      rw [heq, hc]
    rw [h1, bmaj_eq_right]
  · rw [if_neg (by simp [hc])]
    have h1 : sigVal v nd.c2 = !(sigVal v nd.c1) := by
      unfold sigVal
      rw [heq]
      have h2 : nd.c2.complement = !nd.c1.complement := by
        cases h0 : nd.c1.complement <;> cases h3 : nd.c2.complement <;> simp_all
      rw [h2]
      cases v nd.c2.index <;> cases nd.c1.complement <;> rfl
    rw [h1, bmaj_neq_right]

theorem evalC_preserve (mig mig' : MIG) (asg : Nat → Bool)
    (hlen : mig'.entries.length = mig.entries.length)
    (hpis : mig'.numPis = mig.numPis)
    (H : Nat → Nat) (hcert : HCert mig H) (hcert' : HCert mig' H)
    (hb : ∀ x, H x ≤ mig.entries.length)
    (hmod : ∀ x, mig.numPis < x → x < mig.entries.length →
      evalNodeWith (evalC mig asg) (childrenOf mig' x)
        = evalNodeWith (evalC mig asg) (childrenOf mig x)) :
    ∀ x, evalC mig' asg x = evalC mig asg x := by
  have hb' : ∀ x, H x ≤ mig'.entries.length := by
    intro x
    rw [hlen]
    exact hb x
  have main : ∀ k x, H x ≤ k → evalC mig' asg x = evalC mig asg x := by
    intro k
    induction k with
    | zero =>
        intro x hk
        by_cases hguard : (isConstant x || isPi mig x
            || decide (mig.entries.length ≤ x)) = true
        · have hguard' : (isConstant x || isPi mig' x
              || decide (mig'.entries.length ≤ x)) = true := by
            rw [isPi_congr hpis, hlen]
            exact hguard
          unfold evalC
          rw [evalF_guard asg hguard', evalF_guard asg hguard, isPi_congr hpis]
        · exfalso
          rw [Bool.not_eq_true] at hguard
          obtain ⟨hx1, hx2⟩ := heightF_guard_false hguard
          have := hcert x hx1 hx2 _ (c0_mem_childList _)
          omega
    | succ k ih =>
        intro x hk
        by_cases hguard : (isConstant x || isPi mig x
            || decide (mig.entries.length ≤ x)) = true
        · have hguard' : (isConstant x || isPi mig' x
              || decide (mig'.entries.length ≤ x)) = true := by
            rw [isPi_congr hpis, hlen]
            exact hguard
          unfold evalC
          rw [evalF_guard asg hguard', evalF_guard asg hguard, isPi_congr hpis]
        · rw [Bool.not_eq_true] at hguard
          obtain ⟨hx1, hx2⟩ := heightF_guard_false hguard
          have hx1' : mig'.numPis < x := by rw [hpis]; exact hx1
          have hx2' : x < mig'.entries.length := by rw [hlen]; exact hx2
          rw [evalC_exact_of_cert mig' asg H hcert' hb' hx1' hx2',
            evalC_exact_of_cert mig asg H hcert hb hx1 hx2, ← hmod x hx1 hx2]
          apply evalNodeWith_congr
          intro fi hfi
          exact ih fi.index (by have := hcert' x hx1' hx2' fi hfi; omega)
  intro x
  exact main (H x) x le_rfl


/-! ## Value preservation through the store operations (claim C1) -/

theorem sigVal_retarget (v : Nat → Bool) (m : Nat) (s po : Signal)
    (hval : sigVal v s = v m) (hidx : po.index = m) :
    sigVal v (⟨s.index, xor po.complement s.complement⟩ : Signal) = sigVal v po := by
  unfold sigVal at hval ⊢
  dsimp only
  rw [hidx, ← hval]
  cases v s.index <;> cases po.complement <;> cases s.complement <;> rfl

theorem setNode_evalC (mig : MIG) (asg : Nat → Bool) (fo : Nat) (nd : MigNode)
    (hacyc : Acyc mig)
    (hnd : ∀ fi ∈ childList nd, hgt mig fi.index < hgt mig fo)
    (hsem : evalNodeWith (evalC mig asg) nd
      = evalNodeWith (evalC mig asg) (childrenOf mig fo)) :
    ∀ x, evalC (setNodeAt mig fo nd) asg x = evalC mig asg x := by
  apply evalC_preserve mig (setNodeAt mig fo nd) asg (setNodeAt_length mig fo nd)
    (setNodeAt_numPis mig fo nd) (hgt mig) (hgt_cert mig hacyc)
    (setNode_cert mig fo nd (hgt mig) (hgt_cert mig hacyc) hnd)
    (fun x => hgt_le_len mig x)
  intro x hx1 hx2
  by_cases hxfo : x = fo
  · subst hxfo
    rw [childrenOf_setNode_self mig x nd hx2]
    exact hsem
  · rw [childrenOf_setNode_ne mig fo nd x hxfo]

theorem substituteNode_outputs (mig : MIG) (m : Nat) (s : Signal) :
    (substituteNode mig m s).outputs = mig.outputs.map (fun po =>
      if po.index == m then ⟨s.index, xor po.complement s.complement⟩ else po) := by
  unfold substituteNode
  dsimp only
  split <;> rfl

theorem substituteNode_evalC (mig : MIG) (asg : Nat → Bool) (m : Nat) (s : Signal)
    (hacyc : Acyc mig) (hs_le : hgt mig s.index ≤ hgt mig m)
    (hval : sigVal (evalC mig asg) s = evalC mig asg m) :
    ∀ x, evalC (substituteNode mig m s) asg x = evalC mig asg x := by
  apply evalC_preserve mig (substituteNode mig m s) asg
    (substituteNode_entries_length mig m s) (substituteNode_numPis mig m s)
    (hgt mig) (hgt_cert mig hacyc)
    (substituteNode_cert mig m s (hgt mig) (hgt_cert mig hacyc) hs_le)
    (fun x => hgt_le_len mig x)
  intro x _ _
  rw [substituteNode_childrenOf]
  split
  · exact evalNodeWith_subst (evalC mig asg) m s (childrenOf mig x) hval
  · rfl

theorem substituteNode_poVals (mig : MIG) (asg : Nat → Bool) (m : Nat) (s : Signal)
    (hacyc : Acyc mig) (hs_le : hgt mig s.index ≤ hgt mig m)
    (hval : sigVal (evalC mig asg) s = evalC mig asg m) :
    poVals (substituteNode mig m s) asg = poVals mig asg := by
  have hev := substituteNode_evalC mig asg m s hacyc hs_le hval
  unfold poVals
  rw [substituteNode_outputs, List.map_map]
  apply List.map_congr_left
  intro po _
  dsimp only [Function.comp]
  rw [hev]
  show sigVal (evalC mig asg) (if po.index == m then
      (⟨s.index, xor po.complement s.complement⟩ : Signal) else po)
    = sigVal (evalC mig asg) po
  split
  · next h => exact sigVal_retarget (evalC mig asg) m s po hval (by simpa using h)
  · rfl

theorem replaceInOutputs_evalC (mig : MIG) (asg : Nat → Bool) (n : Nat) (s : Signal) :
    ∀ x, evalC (replaceInOutputs mig n s) asg x = evalC mig asg x :=
  evalC_congr mig (replaceInOutputs mig n s) asg
    (replaceInOutputs_childrenOf mig n s) rfl rfl

theorem replaceInOutputs_poVals (mig : MIG) (asg : Nat → Bool) (n : Nat) (s : Signal)
    (hval : sigVal (evalC mig asg) s = evalC mig asg n) :
    poVals (replaceInOutputs mig n s) asg = poVals mig asg := by
  have hev := replaceInOutputs_evalC mig asg n s
  have houts : (replaceInOutputs mig n s).outputs
      = mig.outputs.map (fun po => if po.index == n
          then (⟨s.index, xor po.complement s.complement⟩ : Signal) else po) := rfl
  unfold poVals
  rw [houts, List.map_map]
  apply List.map_congr_left
  intro po _
  dsimp only [Function.comp]
  rw [hev]
  show sigVal (evalC mig asg) (if po.index == n then
      (⟨s.index, xor po.complement s.complement⟩ : Signal) else po)
    = sigVal (evalC mig asg) po
  split
  · next h => exact sigVal_retarget (evalC mig asg) n s po hval (by simpa using h)
  · rfl

theorem roccc_evalC (mig : MIG) (asg : Nat → Bool) (old : Nat) (s : Signal) (hb : Bool) :
    ∀ x, evalC (replaceInOutputsCondComp mig old s hb) asg x = evalC mig asg x :=
  evalC_congr mig (replaceInOutputsCondComp mig old s hb) asg
    (roccc_childrenOf mig old s hb) (by rw [roccc_entries]) (roccc_numPis mig old s hb)

theorem roccc_poVals (mig : MIG) (asg : Nat → Bool) (old : Nat) (s : Signal) (hb : Bool)
    (hval : sigVal (evalC mig asg) s = evalC mig asg old) :
    poVals (replaceInOutputsCondComp mig old s hb) asg = poVals mig asg := by
  have hev := roccc_evalC mig asg old s hb
  by_cases hd : isDead mig old = true
  · unfold replaceInOutputsCondComp
    rw [if_pos hd]
  · have houts : (replaceInOutputsCondComp mig old s hb).outputs
        = mig.outputs.map (fun po =>
            if po.index == old && (hb || po.complement) then
              (⟨s.index, xor po.complement s.complement⟩ : Signal) else po) := by
      unfold replaceInOutputsCondComp
      rw [if_neg hd]
    unfold poVals
    rw [houts, List.map_map]
    apply List.map_congr_left
    intro po _
    dsimp only [Function.comp]
    rw [hev]
    show sigVal (evalC mig asg) (if po.index == old && (hb || po.complement) then
        (⟨s.index, xor po.complement s.complement⟩ : Signal) else po)
      = sigVal (evalC mig asg) po
    split
    · next h =>
        have hidx : po.index = old := by
          simp only [Bool.and_eq_true, beq_iff_eq] at h
          exact h.1
        exact sigVal_retarget (evalC mig asg) old s po hval hidx
    · rfl

theorem append_evalF (mig : MIG) (asg : Nat → Bool) (e : Entry)
    (hacyc : Acyc mig) (hr : ChildRange mig) :
    ∀ k x, hgt mig x ≤ k → x < mig.entries.length →
      ∀ f, evalF { mig with entries := mig.entries ++ [e] } asg f x
        = evalF mig asg f x := by
  have hlenA : ({ mig with entries := mig.entries ++ [e] } : MIG).entries.length
      = mig.entries.length + 1 := by
    dsimp only
    rw [List.length_append, List.length_singleton]
  have hpiA : ∀ x, isPi { mig with entries := mig.entries ++ [e] } x = isPi mig x :=
    fun x => rfl
  intro k
  induction k with
  | zero =>
      intro x hk hx f
      by_cases hcp : (isConstant x || isPi mig x) = true
      · have hg : (isConstant x || isPi mig x || decide (mig.entries.length ≤ x))
            = true := by
          simp [hcp]
        have hgA : (isConstant x
            || isPi { mig with entries := mig.entries ++ [e] } x
            || decide (({ mig with entries := mig.entries ++ [e] } : MIG).entries.length
                ≤ x)) = true := by
          simp [hpiA, hcp]
        rw [evalF_guard asg hgA, evalF_guard asg hg, hpiA]
      · exfalso
        have hg : (isConstant x || isPi mig x || decide (mig.entries.length ≤ x))
            = false := by
          rw [Bool.eq_false_iff]
          intro hcon
          rcases (Bool.or_eq_true _ _).mp hcon with h | h
          · exact hcp h
          · simp only [decide_eq_true_eq] at h
            omega
        obtain ⟨hx1, hx2⟩ := heightF_guard_false hg
        have := hgt_cert mig hacyc x hx1 hx2 _ (c0_mem_childList _)
        omega
  | succ k ih =>
      intro x hk hx f
      by_cases hcp : (isConstant x || isPi mig x) = true
      · have hg : (isConstant x || isPi mig x || decide (mig.entries.length ≤ x))
            = true := by
          simp [hcp]
        have hgA : (isConstant x
            || isPi { mig with entries := mig.entries ++ [e] } x
            || decide (({ mig with entries := mig.entries ++ [e] } : MIG).entries.length
                ≤ x)) = true := by
          simp [hpiA, hcp]
        rw [evalF_guard asg hgA, evalF_guard asg hg, hpiA]
      · have hg : (isConstant x || isPi mig x || decide (mig.entries.length ≤ x))
            = false := by
          rw [Bool.eq_false_iff]
          intro hcon
          rcases (Bool.or_eq_true _ _).mp hcon with h | h
          · exact hcp h
          · simp only [decide_eq_true_eq] at h
            omega
        obtain ⟨hx1, hx2⟩ := heightF_guard_false hg
        have hgA : (isConstant x
            || isPi { mig with entries := mig.entries ++ [e] } x
            || decide (({ mig with entries := mig.entries ++ [e] } : MIG).entries.length
                ≤ x)) = false :=
          gate_guard_false (show ({ mig with entries := mig.entries ++ [e] } : MIG).numPis
              < x from hx1) (by rw [hlenA]; omega)
        cases f with
        | zero =>
            show (isPi { mig with entries := mig.entries ++ [e] } x && asg x)
              = (isPi mig x && asg x)
            rw [hpiA]
        | succ f =>
            rw [evalF_succ, evalF_succ, if_neg (by rw [hgA]; exact Bool.false_ne_true),
              if_neg (by rw [hg]; exact Bool.false_ne_true),
              childrenOf_append_lt mig e hx]
            have hc := hgt_cert mig hacyc x hx1 hx2
            have hrg := hr x hx1 hx2
            unfold evalNodeWith sigVal
            have e0 := ih (childrenOf mig x).c0.index
              (by have := hc _ (c0_mem_childList _); omega)
              (hrg _ (c0_mem_childList _)) f
            have e1 := ih (childrenOf mig x).c1.index
              (by have := hc _ (c1_mem_childList _); omega)
              (hrg _ (c1_mem_childList _)) f
            have e2 := ih (childrenOf mig x).c2.index
              (by have := hc _ (c2_mem_childList _); omega)
              (hrg _ (c2_mem_childList _)) f
            rw [e0, e1, e2]

theorem append_evalC_old (mig : MIG) (asg : Nat → Bool) (e : Entry)
    (hacyc : Acyc mig) (hr : ChildRange mig) {x : Nat} (hx : x < mig.entries.length) :
    evalC { mig with entries := mig.entries ++ [e] } asg x = evalC mig asg x := by
  have hlenA : ({ mig with entries := mig.entries ++ [e] } : MIG).entries.length
      = mig.entries.length + 1 := by
    dsimp only
    rw [List.length_append, List.length_singleton]
  unfold evalC
  rw [hlenA,
    append_evalF mig asg e hacyc hr (hgt mig x) x le_rfl hx (mig.entries.length + 1)]
  exact evalF_stab mig asg (hgt mig) (hgt_cert mig hacyc) (hgt mig x) x _ _ le_rfl
    (by have := hgt_le_len mig x; omega) (hgt_le_len mig x)

theorem append_evalC_new (mig : MIG) (asg : Nat → Bool) (e : Entry)
    (hacyc : Acyc mig) (hr : ChildRange mig) (hpl : mig.numPis < mig.entries.length)
    (hrange : ∀ fi ∈ childList e.node, fi.index < mig.entries.length) :
    evalC { mig with entries := mig.entries ++ [e] } asg mig.entries.length
      = evalNodeWith (evalC mig asg) e.node := by
  have hlenA : ({ mig with entries := mig.entries ++ [e] } : MIG).entries.length
      = mig.entries.length + 1 := by
    dsimp only
    rw [List.length_append, List.length_singleton]
  have hcertA := append_cert mig e hacyc hr (mig.entries.length + 1)
    (fun fi hfi => by have := hgt_le_len mig fi.index; omega) hrange
  have hbA : ∀ x, (fun y => if y = mig.entries.length then mig.entries.length + 1
      else hgt mig y) x
        ≤ ({ mig with entries := mig.entries ++ [e] } : MIG).entries.length := by
    intro x
    rw [hlenA]
    dsimp only
    split
    · omega
    · have := hgt_le_len mig x
      omega
  have hex := evalC_exact_of_cert { mig with entries := mig.entries ++ [e] } asg _
    hcertA hbA (x := mig.entries.length)
    (show ({ mig with entries := mig.entries ++ [e] } : MIG).numPis
      < mig.entries.length from hpl) (by rw [hlenA]; omega)
  rw [hex, childrenOf_append_self]
  apply evalNodeWith_congr
  intro fi hfi
  exact append_evalC_old mig asg e hacyc hr (hrange fi hfi)


/-! ## Case analyses enriched with collapse-signal values (claim C1) -/

/-- `replace_in_node`, with the value of the collapse signal: a trivial
collapse returns a signal carrying (under every valuation) exactly the
majority value of the rewired triple, and a hash-alias collapse returns an
uncomplemented reference to a live gate holding exactly the rewired
triple. -/
theorem replaceInNode_cases4 (mig : MIG) (m old : Nat) (new : Signal) :
    replaceInNode mig m old new = (mig, none) ∨
    (∃ s : Signal, replaceInNode mig m old new = (mig, some s) ∧
      ((s ∈ childList (sortNode3 (mapNode (substSignal old new) (childrenOf mig m))) ∧
        ∀ v : Nat → Bool, sigVal v s
          = evalNodeWith v
              (sortNode3 (mapNode (substSignal old new) (childrenOf mig m)))) ∨
       (isLiveGate mig s.index = true ∧ s.complement = false ∧
        childrenOf mig s.index
          = sortNode3 (mapNode (substSignal old new) (childrenOf mig m))))) ∨
    replaceInNode mig m old new
      = (setNodeAt mig m (sortNode3 (mapNode (substSignal old new) (childrenOf mig m))),
         none) := by
  unfold replaceInNode
  dsimp only
  split
  · exact Or.inl rfl
  · split
    · next heq =>
        refine Or.inr (Or.inl ⟨_, rfl, Or.inl ⟨?_, ?_⟩⟩)
        · split
          · exact c0_mem_childList _
          · exact c2_mem_childList _
        · exact fun v => trivial_value_01 v
            (sortNode3 (mapNode (substSignal old new) (childrenOf mig m)))
            (beq_iff_eq.mp heq)
    · split
      · next heq =>
          refine Or.inr (Or.inl ⟨_, rfl, Or.inl ⟨?_, ?_⟩⟩)
          · split
            · exact c1_mem_childList _
            · exact c0_mem_childList _
          · exact fun v => trivial_value_12 v
              (sortNode3 (mapNode (substSignal old new) (childrenOf mig m)))
              (beq_iff_eq.mp heq)
      · split
        · next i hlk =>
            obtain ⟨hlive, hch⟩ := hashLookup_some mig _ i hlk
            exact Or.inr (Or.inl ⟨⟨i, false⟩, rfl, Or.inr ⟨hlive, rfl, hch⟩⟩)
        · exact Or.inr (Or.inr rfl)

/-- `create_maj_without_changing_comp`, with the value of the returned
signal in the no-append cases: a trivial reduction returns a signal
carrying exactly the majority value of the sorted triple, and a hash hit
returns an uncomplemented reference to a live gate holding exactly the
sorted triple. -/
theorem createMaj_cases4 (mig : MIG) (a b c : Signal) :
    (∃ t : Signal, createMajWithoutChangingComp mig a b c = (mig, t) ∧
      ((t ∈ [(sort3 a b c).1, (sort3 a b c).2.1, (sort3 a b c).2.2] ∧
        ∀ v : Nat → Bool, sigVal v t
          = evalNodeWith v ⟨(sort3 a b c).1, (sort3 a b c).2.1, (sort3 a b c).2.2⟩) ∨
       (isLiveGate mig t.index = true ∧ t.complement = false ∧
        childrenOf mig t.index
          = ⟨(sort3 a b c).1, (sort3 a b c).2.1, (sort3 a b c).2.2⟩))) ∨
    (createMajWithoutChangingComp mig a b c =
        ({ mig with entries := mig.entries ++
            [⟨⟨(sort3 a b c).1, (sort3 a b c).2.1, (sort3 a b c).2.2⟩, false⟩] },
         ⟨mig.entries.length, false⟩) ∧
      hashLookup mig ⟨(sort3 a b c).1, (sort3 a b c).2.1, (sort3 a b c).2.2⟩
        = none) := by
  unfold createMajWithoutChangingComp
  dsimp only
  split
  · next heq =>
      refine Or.inl ⟨_, rfl, Or.inl ⟨?_, ?_⟩⟩
      · split
        · simp
        · simp
      · exact fun v => trivial_value_01 v ⟨(sort3 a b c).1, (sort3 a b c).2.1,
          (sort3 a b c).2.2⟩ (beq_iff_eq.mp heq)
  · split
    · next heq =>
        refine Or.inl ⟨_, rfl, Or.inl ⟨?_, ?_⟩⟩
        · split
          · simp
          · simp
        · exact fun v => trivial_value_12 v ⟨(sort3 a b c).1, (sort3 a b c).2.1,
            (sort3 a b c).2.2⟩ (beq_iff_eq.mp heq)
    · split
      · next i hlk =>
          obtain ⟨hlive, hch⟩ := hashLookup_some mig _ i hlk
          exact Or.inl ⟨⟨i, false⟩, rfl, Or.inr ⟨hlive, rfl, hch⟩⟩
      · next hnone => exact Or.inr ⟨rfl, hnone⟩


/-! ## Value preservation through the IM consumer sweep (claim C1) -/

theorem poVals_congr_mem (m1 m2 : MIG) (asg : Nat → Bool)
    (houts : m2.outputs = m1.outputs)
    (hev : ∀ po ∈ m1.outputs, evalC m2 asg po.index = evalC m1 asg po.index) :
    poVals m2 asg = poVals m1 asg := by
  unfold poVals
  rw [houts]
  apply List.map_congr_left
  intro po hpo
  rw [hev po hpo]

theorem takeOutNode_evalC (mig : MIG) (asg : Nat → Bool) (n : Nat) :
    ∀ x, evalC (takeOutNode mig n) asg x = evalC mig asg x :=
  evalC_congr mig (takeOutNode mig n) asg (takeOutNode_childrenOf mig n)
    (takeOutNode_length mig n) (takeOutNode_numPis mig n)

theorem takeOutNode_poVals (mig : MIG) (asg : Nat → Bool) (n : Nat) :
    poVals (takeOutNode mig n) asg = poVals mig asg :=
  poVals_congr_of_evals mig (takeOutNode mig n) asg (takeOutNode_outputs mig n)
    (takeOutNode_evalC mig asg n)

theorem replaceInNode_none_of_no_old (mig : MIG) (m old : Nat) (new : Signal)
    (h : hasIdx (childrenOf mig m) old = false) :
    replaceInNode mig m old new = (mig, none) := by
  have hall : (childList (childrenOf mig m)).all (fun fi => fi.index != old)
      = true := by
    rw [List.all_eq_true]
    intro fi hfi
    rw [bne_iff_ne, ne_eq]
    intro hcc
    unfold hasIdx at h
    rw [Bool.eq_false_iff] at h
    apply h
    rw [List.any_eq_true]
    exact ⟨fi, hfi, by simp [hcc]⟩
  unfold replaceInNode
  dsimp only
  rw [if_pos hall]

theorem replaceInOutputs_out_lt (mig : MIG) (n : Nat) (s : Signal)
    (hout : ∀ po ∈ mig.outputs, po.index < mig.entries.length)
    (hs : s.index < mig.entries.length) :
    ∀ po ∈ (replaceInOutputs mig n s).outputs,
      po.index < (replaceInOutputs mig n s).entries.length := by
  intro po hpo
  have houts : (replaceInOutputs mig n s).outputs = mig.outputs.map (fun po =>
      if po.index == n then (⟨s.index, xor po.complement s.complement⟩ : Signal)
      else po) := rfl
  rw [houts, List.mem_map] at hpo
  obtain ⟨po0, hpo0, rfl⟩ := hpo
  show (if po0.index == n then (⟨s.index, xor po0.complement s.complement⟩ : Signal)
      else po0).index < mig.entries.length
  split
  · exact hs
  · exact hout po0 hpo0

/-- One iteration of the IM `inv_node` consumer sweep preserves the
value-tracking sweep invariant: the returned substitution signal is
discarded, so only the install case changes the network, and the installed
triple carries the value of the old one. -/
theorem imFold_body_val (mig0 : MIG) (asg : Nat → Bool) (n m : Nat) (newSig : Signal)
    (hns : newSig.index = m)
    (hn1 : mig0.numPis < n) (hn2 : n < mig0.entries.length)
    (hm2 : m < mig0.entries.length)
    (hval0 : sigVal (evalC mig0 asg) newSig = evalC mig0 asg n)
    (mg : MIG) (J : ImValFold mig0 asg n m mg) (fo : Nat)
    (hfo1 : mig0.numPis < fo) (hfo2 : fo < mig0.entries.length) :
    ImValFold mig0 asg n m (replaceInNode mg fo n newSig).1 := by
  by_cases hidx : hasIdx (childrenOf mg fo) n = true
  case neg =>
    rw [replaceInNode_none_of_no_old mg fo n newSig (Bool.eq_false_iff.mpr hidx)]
    exact J
  case pos =>
  have hfo1' : mg.numPis < fo := by rw [J.pis_eq]; exact hfo1
  have hfo2' : fo < mg.entries.length := by rw [J.len_eq]; exact hfo2
  have hm2' : m < mg.entries.length := by rw [J.len_eq]; exact hm2
  have hcert0 : HCert mg (hgt mg) := hgt_cert mg J.acyc
  have hm' : hgt mg newSig.index ≤ hgt mg n := by rw [hns]; exact J.hm
  have hnfo : hgt mg n < hgt mg fo := by
    have hidx2 := hidx
    unfold hasIdx at hidx2
    rw [List.any_eq_true] at hidx2
    obtain ⟨fi0, hfi0, hfieq⟩ := hidx2
    have heq : fi0.index = n := by simpa using hfieq
    have hb := hcert0 fo hfo1' hfo2' fi0 hfi0
    rw [heq] at hb
    exact hb
  have hsig := hgt_sigma_lt mg J.acyc n fo newSig hfo1' hfo2' hidx hm'
  have hsigr : ∀ fi ∈ childList (sortNode3 (mapNode (substSignal n newSig)
      (childrenOf mg fo))), fi.index < mg.entries.length := by
    intro fi hfi
    rcases sigma_childList_mem n newSig (childrenOf mg fo) fi hfi with h | ⟨fi0, hfi0, h⟩
    · rw [h, hns]
      exact hm2'
    · rw [h]
      exact J.range fo hfo1' hfo2' fi0 hfi0
  have hvalmg : sigVal (evalC mg asg) newSig = evalC mg asg n := by
    have h0 := hval0
    unfold sigVal at h0 ⊢
    rw [J.evals newSig.index, J.evals n]
    exact h0
  rcases replaceInNode_cases4 mg fo n newSig with hcase | ⟨sg, hcase, hsg⟩ | hcase
  · rw [hcase]
    exact J
  · rw [hcase]
    exact J
  · rw [hcase]
    dsimp only
    have hlen' := setNodeAt_length mg fo (sortNode3 (mapNode (substSignal n newSig)
      (childrenOf mg fo)))
    have hpis' := setNodeAt_numPis mg fo (sortNode3 (mapNode (substSignal n newSig)
      (childrenOf mg fo)))
    have hcert' := setNode_cert mg fo _ (hgt mg) hcert0 hsig
    obtain ⟨hacyc', hmono'⟩ := acyc_transfer mg (setNodeAt mg fo _) hlen' hcert'
    have hrange' := setNode_range mg fo _ J.range hsigr
    have hlow : ∀ x, hgt mg x ≤ hgt mg n →
        childrenOf (setNodeAt mg fo (sortNode3 (mapNode (substSignal n newSig)
          (childrenOf mg fo)))) x = childrenOf mg x := by
      intro x hx
      apply childrenOf_setNode_ne
      intro hc
      rw [hc] at hx
      omega
    have hhm1 := hgt_frame mg (setNodeAt mg fo _) hlen' hpis' J.acyc (hgt mg n)
      hlow m J.hm
    have hhm2 := hgt_frame mg (setNodeAt mg fo _) hlen' hpis' J.acyc (hgt mg n)
      hlow n le_rfl
    have hsem : evalNodeWith (evalC mg asg) (sortNode3 (mapNode (substSignal n newSig)
        (childrenOf mg fo))) = evalNodeWith (evalC mg asg) (childrenOf mg fo) :=
      evalNodeWith_sigma (evalC mg asg) n newSig (childrenOf mg fo) hvalmg
    have hev' := setNode_evalC mg asg fo _ J.acyc hsig hsem
    exact ⟨⟨hlen'.trans J.len_eq, hpis'.trans J.pis_eq, hrange', hacyc',
        fun x => le_trans (hmono' x) (J.mono x),
        by rw [hlow n le_rfl]; exact J.chn,
        by rw [hhm1, hhm2]; exact J.hm⟩,
      (setNodeAt_outputs mg fo _).trans J.outs_eq,
      fun x => (hev' x).trans (J.evals x)⟩

/-- The full IM consumer sweep preserves the value-tracking sweep
invariant. -/
theorem imFold_val (mig0 : MIG) (asg : Nat → Bool) (n m : Nat) (newSig : Signal)
    (hns : newSig.index = m)
    (hn1 : mig0.numPis < n) (hn2 : n < mig0.entries.length)
    (hm2 : m < mig0.entries.length)
    (hval0 : sigVal (evalC mig0 asg) newSig = evalC mig0 asg n) :
    ∀ (l : List Nat) (mg : MIG), ImValFold mig0 asg n m mg →
      (∀ fo ∈ l, mig0.numPis < fo ∧ fo < mig0.entries.length) →
      ImValFold mig0 asg n m (l.foldl (fun mg2 fo =>
        if true || isFanoutComp mg2 n fo then (replaceInNode mg2 fo n newSig).1
        else mg2) mg) := by
  intro l
  induction l with
  | nil => exact fun mg J _ => J
  | cons fo rest ih =>
      intro mg J hl
      rw [List.foldl_cons]
      obtain ⟨hfo1, hfo2⟩ := hl fo (List.mem_cons_self fo rest)
      have hbody := imFold_body_val mig0 asg n m newSig hns hn1 hn2 hm2 hval0 mg J
        fo hfo1 hfo2
      rw [if_pos (show (true || isFanoutComp mg n fo) = true by simp)]
      exact ih _ hbody (fun g hg => hl g (List.mem_cons_of_mem fo hg))


/-- `inv_node` of the IM pass preserves the structural loop invariant,
never shrinks the pool, keeps primary outputs in range, and preserves the
observable primary-output values under every assignment. -/
theorem invNodeIM_val_pack (mig : MIG) (asg : Nat → Bool) (n : Nat) (hinv : InvIP mig)
    (hout : ∀ po ∈ mig.outputs, po.index < mig.entries.length)
    (hn1 : mig.numPis < n) (hn2 : n < mig.entries.length) :
    InvIP (invNodeIM mig n).1 ∧
    mig.entries.length ≤ (invNodeIM mig n).1.entries.length ∧
    (invNodeIM mig n).1.numPis = mig.numPis ∧
    (∀ po ∈ (invNodeIM mig n).1.outputs,
      po.index < (invNodeIM mig n).1.entries.length) ∧
    poVals (invNodeIM mig n).1 asg = poVals mig asg := by
  have hpi : isPi mig n = false := by
    unfold isPi
    rw [Bool.eq_false_iff]
    intro h
    simp only [Bool.and_eq_true, decide_eq_true_eq] at h
    omega
  have hcst : isConstant n = false := by
    unfold isConstant
    rw [Bool.eq_false_iff]
    intro h
    simp only [beq_iff_eq] at h
    omega
  have hS : ∀ fi ∈ childList (sortNode3 (mapNode notSignal (childrenOf mig n))),
      hgt mig fi.index < hgt mig n := by
    intro fi hfi
    have hp := (childList_sortNode3_perm (mapNode notSignal (childrenOf mig n))).mem_iff.mp hfi
    rw [childList_mapNode, List.mem_map] at hp
    obtain ⟨fi0, hfi0, rfl⟩ := hp
    exact hgt_cert mig hinv.acyc n hn1 hn2 fi0 hfi0
  have hSr : ∀ fi ∈ childList (sortNode3 (mapNode notSignal (childrenOf mig n))),
      fi.index < mig.entries.length := by
    intro fi hfi
    have hp := (childList_sortNode3_perm (mapNode notSignal (childrenOf mig n))).mem_iff.mp hfi
    rw [childList_mapNode, List.mem_map] at hp
    obtain ⟨fi0, hfi0, rfl⟩ := hp
    exact hinv.range n hn1 hn2 fi0 hfi0
  have hSidx : ∀ fi ∈ childList (sortNode3 (mapNode notSignal (childrenOf mig n))),
      ∃ fi0 ∈ childList (childrenOf mig n), fi.index = fi0.index := by
    intro fi hfi
    have hp := (childList_sortNode3_perm (mapNode notSignal (childrenOf mig n))).mem_iff.mp hfi
    rw [childList_mapNode, List.mem_map] at hp
    obtain ⟨fi0, hfi0, rfl⟩ := hp
    exact ⟨fi0, hfi0, rfl⟩
  have hflip : evalNodeWith (evalC mig asg)
      (sortNode3 (mapNode notSignal (childrenOf mig n))) = !(evalC mig asg n) := by
    rw [evalNodeWith_perm (evalC mig asg) (childList_sortNode3_perm
        (mapNode notSignal (childrenOf mig n))), evalNodeWith_mapNot,
      ← evalC_exact mig asg hinv.acyc hn1 hn2]
  unfold invNodeIM
  rw [if_neg (by rw [hpi, hcst]; simp)]
  dsimp only
  rcases createMaj_cases4 mig (notSignal (childrenOf mig n).c0)
      (notSignal (childrenOf mig n).c1) (notSignal (childrenOf mig n).c2)
    with ⟨t, hcm, ht⟩ | ⟨hcm, hnone⟩
  · rw [hcm]
    dsimp only
    have hvalT : sigVal (evalC mig asg) t = !(evalC mig asg n) := by
      rcases ht with ⟨hmem, hval⟩ | ⟨hlive, hcomp, hch⟩
      · rw [hval (evalC mig asg)]
        exact hflip
      · have hl1 : mig.numPis < t.index ∧ t.index < mig.entries.length := by
          unfold isLiveGate at hlive
          simp only [Bool.and_eq_true, decide_eq_true_eq] at hlive
          exact ⟨hlive.1.1, hlive.1.2⟩
        have hex := evalC_exact mig asg hinv.acyc hl1.1 hl1.2
        rw [hch] at hex
        unfold sigVal
        rw [hcomp, Bool.xor_false, hex]
        exact hflip
    have hvalNew : sigVal (evalC mig asg) (notSignal t) = evalC mig asg n := by
      rw [sigVal_not, hvalT, Bool.not_not]
    have hm_le : hgt mig t.index ≤ hgt mig n := by
      rcases ht with ⟨hmem, -⟩ | ⟨hlive, -, hch⟩
      · exact le_of_lt (hS t hmem)
      · have hl1 : mig.numPis < t.index ∧ t.index < mig.entries.length := by
          unfold isLiveGate at hlive
          simp only [Bool.and_eq_true, decide_eq_true_eq] at hlive
          exact ⟨hlive.1.1, hlive.1.2⟩
        have hch' : childrenOf mig t.index
            = sortNode3 (mapNode notSignal (childrenOf mig n)) := hch
        have hex := hgt_exact mig hinv.acyc hl1.1 hl1.2
        rw [hch'] at hex
        have b0 := hS _ (c0_mem_childList (sortNode3 (mapNode notSignal
          (childrenOf mig n))))
        have b1 := hS _ (c1_mem_childList (sortNode3 (mapNode notSignal
          (childrenOf mig n))))
        have b2 := hS _ (c2_mem_childList (sortNode3 (mapNode notSignal
          (childrenOf mig n))))
        have hlt : max (hgt mig (sortNode3 (mapNode notSignal
              (childrenOf mig n))).c0.index)
            (max (hgt mig (sortNode3 (mapNode notSignal (childrenOf mig n))).c1.index)
              (hgt mig (sortNode3 (mapNode notSignal (childrenOf mig n))).c2.index))
            < hgt mig n :=
          Nat.max_lt.mpr ⟨b0, Nat.max_lt.mpr ⟨b1, b2⟩⟩
        omega
    have hm_lt : t.index < mig.entries.length := by
      rcases ht with ⟨hmem, -⟩ | ⟨hlive, -, -⟩
      · exact hSr t hmem
      · unfold isLiveGate at hlive
        simp only [Bool.and_eq_true, decide_eq_true_eq] at hlive
        exact hlive.1.2
    set B := replaceInOutputs mig n (notSignal t) with hB
    have hBlen : B.entries.length = mig.entries.length := by rw [hB]; rfl
    have hBpis : B.numPis = mig.numPis := by rw [hB]; rfl
    have hBch : ∀ x, childrenOf B x = childrenOf mig x := by
      intro x
      rw [hB]
      exact replaceInOutputs_childrenOf mig n (notSignal t) x
    have hBhgt := hgt_congr mig B hBch hBlen hBpis
    have hBacyc := acyc_congr mig B hBch hBlen hBpis hinv.acyc
    have hBrange : ChildRange B := by
      intro x hx1 hx2 fi hfi
      rw [hBch] at hfi
      rw [hBlen] at hx2 ⊢
      rw [hBpis] at hx1
      exact hinv.range x hx1 hx2 fi hfi
    have hBevals : ∀ x, evalC B asg x = evalC mig asg x := by
      intro x
      rw [hB]
      exact replaceInOutputs_evalC mig asg n (notSignal t) x
    have hBvals : poVals B asg = poVals mig asg := by
      rw [hB]
      exact replaceInOutputs_poVals mig asg n (notSignal t) hvalNew
    have hBout : ∀ po ∈ B.outputs, po.index < B.entries.length := by
      rw [hB]
      exact replaceInOutputs_out_lt mig n (notSignal t) hout hm_lt
    have hvalB : sigVal (evalC B asg) (notSignal t) = evalC B asg n := by
      have h0 := hvalNew
      unfold sigVal at h0 ⊢
      rw [hBevals, hBevals]
      exact h0
    have J0 : ImValFold B asg n (notSignal t).index B :=
      ⟨⟨rfl, rfl, hBrange, hBacyc, fun x => le_rfl, rfl, by
          rw [hBhgt, hBhgt]
          exact hm_le⟩, rfl, fun x => rfl⟩
    have hgs : ∀ fo ∈ fanoutList B n, B.numPis < fo ∧ fo < B.entries.length := by
      intro fo hfo
      rw [mem_fanoutList] at hfo
      have hlive := hfo.1
      unfold isLiveGate at hlive
      simp only [Bool.and_eq_true, decide_eq_true_eq] at hlive
      exact ⟨hlive.1.1, hlive.1.2⟩
    have Jf := imFold_val B asg n (notSignal t).index (notSignal t) rfl
      (by rw [hBpis]; exact hn1) (by rw [hBlen]; exact hn2)
      (by rw [hBlen]; exact hm_lt) hvalB (fanoutList B n) B J0 hgs
    obtain ⟨hfin_inv, hfin_len, hfin_pis, hfin_mono, hfin_chn⟩ :=
      ip_final_wrap mig B n (notSignal t).index hBpis (le_of_eq hBlen.symm)
        (by rw [hBpis, hBlen]; exact hinv.pis_lt)
        (fun x hx => le_of_eq (hBhgt x)) (hBch n) _ Jf.toIpFoldInv
    refine ⟨hfin_inv, hfin_len, hfin_pis, ?_, ?_⟩
    · split
      · intro po hpo
        rw [takeOutNode_outputs, Jf.outs_eq] at hpo
        rw [takeOutNode_length, Jf.len_eq]
        exact hBout po hpo
      · intro po hpo
        rw [Jf.outs_eq] at hpo
        rw [Jf.len_eq]
        exact hBout po hpo
    · have hGvals := poVals_congr_of_evals B _ asg Jf.outs_eq Jf.evals
      split
      · rw [takeOutNode_poVals, hGvals, hBvals]
      · rw [hGvals, hBvals]
  · rw [hcm]
    dsimp only
    obtain ⟨hArange, hAacyc, hAmono, hAhm, hAchn⟩ := append_invIP mig hinv n hn1 hn2
      ⟨⟨(sort3 (notSignal (childrenOf mig n).c0) (notSignal (childrenOf mig n).c1)
          (notSignal (childrenOf mig n).c2)).1,
        (sort3 (notSignal (childrenOf mig n).c0) (notSignal (childrenOf mig n).c1)
          (notSignal (childrenOf mig n).c2)).2.1,
        (sort3 (notSignal (childrenOf mig n).c0) (notSignal (childrenOf mig n).c1)
          (notSignal (childrenOf mig n).c2)).2.2⟩, false⟩
      (fun fi hfi => hS fi hfi) (fun fi hfi => hSr fi hfi) (fun fi hfi => hSidx fi hfi)
    set A := ({ mig with entries := mig.entries ++
      [(⟨⟨(sort3 (notSignal (childrenOf mig n).c0) (notSignal (childrenOf mig n).c1)
          (notSignal (childrenOf mig n).c2)).1,
        (sort3 (notSignal (childrenOf mig n).c0) (notSignal (childrenOf mig n).c1)
          (notSignal (childrenOf mig n).c2)).2.1,
        (sort3 (notSignal (childrenOf mig n).c0) (notSignal (childrenOf mig n).c1)
          (notSignal (childrenOf mig n).c2)).2.2⟩, false⟩ : Entry)] } : MIG) with hA
    have hApis : A.numPis = mig.numPis := by rw [hA]
    have hAlen : A.entries.length = mig.entries.length + 1 := by
      rw [hA]
      dsimp only
      rw [List.length_append, List.length_singleton]
    have hAold : ∀ {x : Nat}, x < mig.entries.length →
        evalC A asg x = evalC mig asg x := by
      intro x hx
      rw [hA]
      exact append_evalC_old mig asg _ hinv.acyc hinv.range hx
    have hAnew : evalC A asg mig.entries.length = !(evalC mig asg n) := by
      rw [hA, append_evalC_new mig asg _ hinv.acyc hinv.range hinv.pis_lt
        (fun fi hfi => hSr fi hfi)]
      exact hflip
    have hvalA : sigVal (evalC A asg)
        (notSignal (⟨mig.entries.length, false⟩ : Signal)) = evalC A asg n := by
      unfold sigVal notSignal
      dsimp only
      rw [Bool.not_false, hAnew, hAold hn2]
      cases evalC mig asg n <;> rfl
    have hAvals : poVals A asg = poVals mig asg := by
      apply poVals_congr_mem mig A asg (by rw [hA])
      intro po hpo
      exact hAold (hout po hpo)
    have hAout : ∀ po ∈ A.outputs, po.index < A.entries.length := by
      intro po hpo
      have hpo' : po ∈ mig.outputs := by rw [hA] at hpo; exact hpo
      rw [hAlen]
      have := hout po hpo'
      omega
    set B := replaceInOutputs A n
      (notSignal (⟨mig.entries.length, false⟩ : Signal)) with hB
    have hBlenA : B.entries.length = A.entries.length := by rw [hB]; rfl
    have hBpisA : B.numPis = A.numPis := by rw [hB]; rfl
    have hBchA : ∀ x, childrenOf B x = childrenOf A x := by
      intro x
      rw [hB]
      exact replaceInOutputs_childrenOf A n _ x
    have hBhgt := hgt_congr A B hBchA hBlenA hBpisA
    have hBacyc := acyc_congr A B hBchA hBlenA hBpisA hAacyc
    have hBrange : ChildRange B := by
      intro x hx1 hx2 fi hfi
      rw [hBchA] at hfi
      rw [hBlenA] at hx2 ⊢
      rw [hBpisA] at hx1
      exact hArange x hx1 hx2 fi hfi
    have hBevals : ∀ x, evalC B asg x = evalC A asg x := by
      intro x
      rw [hB]
      exact replaceInOutputs_evalC A asg n _ x
    have hBvals : poVals B asg = poVals A asg := by
      rw [hB]
      exact replaceInOutputs_poVals A asg n _ hvalA
    have hBout : ∀ po ∈ B.outputs, po.index < B.entries.length := by
      rw [hB]
      exact replaceInOutputs_out_lt A n _ hAout
        (by rw [hAlen]
            show mig.entries.length < mig.entries.length + 1
            omega)
    have hvalB : sigVal (evalC B asg)
        (notSignal (⟨mig.entries.length, false⟩ : Signal)) = evalC B asg n := by
      have h0 := hvalA
      unfold sigVal at h0 ⊢
      rw [hBevals, hBevals]
      exact h0
    have J0 : ImValFold B asg n mig.entries.length B :=
      ⟨⟨rfl, rfl, hBrange, hBacyc, fun x => le_rfl, rfl, by
          rw [hBhgt, hBhgt]
          exact hAhm⟩, rfl, fun x => rfl⟩
    have hgs : ∀ fo ∈ fanoutList B n, B.numPis < fo ∧ fo < B.entries.length := by
      intro fo hfo
      rw [mem_fanoutList] at hfo
      have hlive := hfo.1
      unfold isLiveGate at hlive
      simp only [Bool.and_eq_true, decide_eq_true_eq] at hlive
      exact ⟨hlive.1.1, hlive.1.2⟩
    have Jf := imFold_val B asg n mig.entries.length
      (notSignal (⟨mig.entries.length, false⟩ : Signal)) rfl
      (by rw [hBpisA, hApis]; exact hn1)
      (by rw [hBlenA, hAlen]; omega)
      (by rw [hBlenA, hAlen]; omega)
      hvalB (fanoutList B n) B J0 hgs
    obtain ⟨hfin_inv, hfin_len, hfin_pis, hfin_mono, hfin_chn⟩ :=
      ip_final_wrap mig B n mig.entries.length (hBpisA.trans hApis)
        (by rw [hBlenA, hAlen]; omega)
        (by rw [hBpisA, hApis, hBlenA, hAlen]; have := hinv.pis_lt; omega)
        (fun x hx => by rw [hBhgt x]; exact hAmono x hx)
        ((hBchA n).trans hAchn) _ Jf.toIpFoldInv
    refine ⟨hfin_inv, hfin_len, hfin_pis, ?_, ?_⟩
    · split
      · intro po hpo
        rw [takeOutNode_outputs, Jf.outs_eq] at hpo
        rw [takeOutNode_length, Jf.len_eq]
        exact hBout po hpo
      · intro po hpo
        rw [Jf.outs_eq] at hpo
        rw [Jf.len_eq]
        exact hBout po hpo
    · have hGvals := poVals_congr_of_evals B _ asg Jf.outs_eq Jf.evals
      split
      · rw [takeOutNode_poVals, hGvals, hBvals, hAvals]
      · rw [hGvals, hBvals, hAvals]


/-- One `inv_node` call at an in-range slot preserves the IM driver
invariant and never shrinks the pool. -/
theorem invNodeIM_pass_step (mig0 : MIG) (asg : Nat → Bool) (mg : MIG)
    (J : ImPassInv mig0 asg mg) (k : Nat)
    (hk1 : mig0.numPis < k) (hk2 : k < mg.entries.length) :
    ImPassInv mig0 asg (invNodeIM mg k).1 ∧
    mg.entries.length ≤ (invNodeIM mg k).1.entries.length := by
  have hk1' : mg.numPis < k := by rw [J.pis_eq]; exact hk1
  obtain ⟨hinv', hlen', hpis', hout', hvals'⟩ :=
    invNodeIM_val_pack mg asg k J.inv J.out_lt hk1' hk2
  exact ⟨⟨hinv', le_trans J.len_ge hlen', hpis'.trans J.pis_eq, hout',
    hvals'.trans J.vals⟩, hlen'⟩

/-- The nested fan-out sweep of the IM two-level branch preserves the
driver invariant. -/
theorem imNestedFold_val (mig0 : MIG) (asg : Nat → Bool) (R : Nat) :
    ∀ (l : List Nat) (mg : MIG), ImPassInv mig0 asg mg → R ≤ mg.entries.length →
      (∀ fo ∈ l, mig0.numPis < fo ∧ fo < R) →
      ImPassInv mig0 asg (l.foldl (fun mg2 fo =>
          if oneLevel mg2 fo > 0 then (invNodeIM mg2 fo).1 else mg2) mg) ∧
      R ≤ (l.foldl (fun mg2 fo =>
          if oneLevel mg2 fo > 0 then (invNodeIM mg2 fo).1 else mg2) mg).entries.length := by
  intro l
  induction l with
  | nil => exact fun mg J hR _ => ⟨J, hR⟩
  | cons fo rest ih =>
      intro mg J hR hl
      rw [List.foldl_cons]
      obtain ⟨hfo1, hfo2⟩ := hl fo (List.mem_cons_self fo rest)
      by_cases hg : oneLevel mg fo > 0
      · rw [if_pos hg]
        obtain ⟨J1, hlen1⟩ := invNodeIM_pass_step mig0 asg mg J fo hfo1 (by omega)
        exact ih _ J1 (by omega) (fun g hgm => hl g (List.mem_cons_of_mem fo hgm))
      · rw [if_neg hg]
        exact ih mg J hR (fun g hgm => hl g (List.mem_cons_of_mem fo hgm))

/-- One iteration of the IM driver sweep preserves the driver invariant. -/
theorem imGateStep_val (mig0 : MIG) (asg : Nat → Bool)
    (st : MIG × MigInvMinimizationStats) (n : Nat) (J : ImPassInv mig0 asg st.1)
    (hn1 : mig0.numPis < n) (hn2 : n < mig0.entries.length) :
    ImPassInv mig0 asg (imGateStep st n).1 := by
  obtain ⟨mg, stats⟩ := st
  have hJ : ImPassInv mig0 asg mg := J
  unfold imGateStep
  dsimp only
  by_cases hd : isDead mg n = true
  · rw [if_pos hd]
    exact hJ
  · rw [if_neg hd]
    by_cases h1 : oneLevel mg n > 0
    · rw [if_pos h1]
      dsimp only
      obtain ⟨J1, hlen1⟩ := invNodeIM_pass_step mig0 asg mg hJ n hn1
        (lt_of_lt_of_le hn2 hJ.len_ge)
      by_cases h2 : twoLevel (invNodeIM mg n).1 n > 0
      · rw [if_pos h2]
        dsimp only
        obtain ⟨J2, hlen2⟩ := invNodeIM_pass_step mig0 asg (invNodeIM mg n).1 J1 n hn1
          (lt_of_lt_of_le hn2 J1.len_ge)
        have hgs : ∀ fo ∈ fanoutList (invNodeIM (invNodeIM mg n).1 n).1
            (invNodeIM (invNodeIM mg n).1 n).2,
            mig0.numPis < fo ∧
            fo < (invNodeIM (invNodeIM mg n).1 n).1.entries.length := by
          intro fo hfo
          rw [mem_fanoutList] at hfo
          have hlive := hfo.1
          unfold isLiveGate at hlive
          simp only [Bool.and_eq_true, decide_eq_true_eq] at hlive
          refine ⟨?_, hlive.1.2⟩
          rw [← J2.pis_eq]
          exact hlive.1.1
        exact (imNestedFold_val mig0 asg
          (invNodeIM (invNodeIM mg n).1 n).1.entries.length _ _ J2 le_rfl hgs).1
      · rw [if_neg h2]
        exact J1
    · rw [if_neg h1]
      dsimp only
      by_cases h2 : twoLevel mg n > 0
      · rw [if_pos h2]
        dsimp only
        obtain ⟨J2, hlen2⟩ := invNodeIM_pass_step mig0 asg mg hJ n hn1
          (lt_of_lt_of_le hn2 hJ.len_ge)
        have hgs : ∀ fo ∈ fanoutList (invNodeIM mg n).1 (invNodeIM mg n).2,
            mig0.numPis < fo ∧ fo < (invNodeIM mg n).1.entries.length := by
          intro fo hfo
          rw [mem_fanoutList] at hfo
          have hlive := hfo.1
          unfold isLiveGate at hlive
          simp only [Bool.and_eq_true, decide_eq_true_eq] at hlive
          refine ⟨?_, hlive.1.2⟩
          rw [← J2.pis_eq]
          exact hlive.1.1
        exact (imNestedFold_val mig0 asg (invNodeIM mg n).1.entries.length _ _ J2
          le_rfl hgs).1
      · rw [if_neg h2]
        exact hJ

/-- The full IM driver sweep preserves the driver invariant. -/
theorem imFold_val_run (mig0 : MIG) (asg : Nat → Bool) :
    ∀ (l : List Nat) (st : MIG × MigInvMinimizationStats),
      ImPassInv mig0 asg st.1 →
      (∀ k ∈ l, mig0.numPis < k ∧ k < mig0.entries.length) →
      ImPassInv mig0 asg (l.foldl imGateStep st).1 := by
  intro l
  induction l with
  | nil => exact fun st J _ => J
  | cons k rest ih =>
      intro st J hl
      rw [List.foldl_cons]
      obtain ⟨hk1, hk2⟩ := hl k (List.mem_cons_self k rest)
      exact ih (imGateStep st k) (imGateStep_val mig0 asg st k J hk1 hk2)
        (fun g hg => hl g (List.mem_cons_of_mem k hg))

/-- The IM pass preserves the observable primary-output values. -/
theorem imRun_val (mig : MIG) (asg : Nat → Bool) (hinv : InvIP mig)
    (hout : ∀ po ∈ mig.outputs, po.index < mig.entries.length) :
    poVals (migInvMinimization mig).1 asg = poVals mig asg := by
  unfold migInvMinimization imRun
  have hgs : ∀ k ∈ gateIndices mig, mig.numPis < k ∧ k < mig.entries.length := by
    intro k hk
    unfold gateIndices at hk
    simp only [List.mem_filter, List.mem_range, decide_eq_true_eq] at hk
    exact ⟨hk.2, hk.1⟩
  exact (imFold_val_run mig asg (gateIndices mig) (mig, initMinimizationStats)
    ⟨hinv, le_rfl, rfl, hout, rfl⟩ hgs).vals


/-! ## Value preservation through the IP consumer sweep (claim C1) -/

theorem roccc_out_lt (mig : MIG) (old : Nat) (s : Signal) (hb : Bool)
    (hout : ∀ po ∈ mig.outputs, po.index < mig.entries.length)
    (hs : s.index < mig.entries.length) :
    ∀ po ∈ (replaceInOutputsCondComp mig old s hb).outputs,
      po.index < (replaceInOutputsCondComp mig old s hb).entries.length := by
  by_cases hd : isDead mig old = true
  · intro po hpo
    unfold replaceInOutputsCondComp at hpo ⊢
    rw [if_pos hd] at hpo ⊢
    exact hout po hpo
  · intro po hpo
    unfold replaceInOutputsCondComp at hpo ⊢
    rw [if_neg hd] at hpo ⊢
    dsimp only at hpo ⊢
    rw [List.mem_map] at hpo
    obtain ⟨po0, hpo0, rfl⟩ := hpo
    split
    · exact hs
    · exact hout po0 hpo0

/-- One iteration of the IP `inv_node` consumer sweep preserves the
value-tracking sweep invariant: a trivial collapse substitutes a signal
carrying the consumer's value, a hash-alias collapse substitutes a node
computing the consumer's value, and an installed triple carries the value
of the old one. -/
theorem ipFold_body_val (mig0 : MIG) (asg : Nat → Bool) (n m : Nat) (newSig : Signal)
    (hns : newSig.index = m)
    (hn1 : mig0.numPis < n) (hn2 : n < mig0.entries.length)
    (hm2 : m < mig0.entries.length)
    (hval0 : sigVal (evalC mig0 asg) newSig = evalC mig0 asg n)
    (mg : MIG) (J : IpValFold mig0 asg n m mg) (fo : Nat)
    (hfo1 : mig0.numPis < fo) (hfo2 : fo < mig0.entries.length) :
    IpValFold mig0 asg n m
      (if isDead mg fo then mg
       else if false || isFanoutComp mg n fo then
         (match (replaceInNode mg fo n newSig).2 with
          | some s => substituteNode (replaceInNode mg fo n newSig).1 fo s
          | none => (replaceInNode mg fo n newSig).1)
       else mg) := by
  by_cases hd : isDead mg fo = true
  · rw [if_pos hd]
    exact J
  · rw [if_neg hd]
    by_cases hcomp : isFanoutComp mg n fo = true
    case neg =>
      rw [if_neg (by simp [hcomp])]
      exact J
    case pos =>
    rw [if_pos (by simp [hcomp])]
    have hfo1' : mg.numPis < fo := by rw [J.pis_eq]; exact hfo1
    have hfo2' : fo < mg.entries.length := by rw [J.len_eq]; exact hfo2
    have hm2' : m < mg.entries.length := by rw [J.len_eq]; exact hm2
    have hcert0 : HCert mg (hgt mg) := hgt_cert mg J.acyc
    have hidx : hasIdx (childrenOf mg fo) n = true := isFanoutComp_hasIdx mg n fo hcomp
    have hnfo : hgt mg n < hgt mg fo := by
      have hidx2 := hidx
      unfold hasIdx at hidx2
      rw [List.any_eq_true] at hidx2
      obtain ⟨fi0, hfi0, hfieq⟩ := hidx2
      have heq : fi0.index = n := by simpa using hfieq
      have hb := hcert0 fo hfo1' hfo2' fi0 hfi0
      rw [heq] at hb
      exact hb
    have hm' : hgt mg newSig.index ≤ hgt mg n := by rw [hns]; exact J.hm
    have hsig := hgt_sigma_lt mg J.acyc n fo newSig hfo1' hfo2' hidx hm'
    have hsigr : ∀ fi ∈ childList (sortNode3 (mapNode (substSignal n newSig)
        (childrenOf mg fo))), fi.index < mg.entries.length := by
      intro fi hfi
      rcases sigma_childList_mem n newSig (childrenOf mg fo) fi hfi with h | ⟨fi0, hfi0, h⟩
      · rw [h, hns]
        exact hm2'
      · rw [h]
        exact J.range fo hfo1' hfo2' fi0 hfi0
    have hvalmg : sigVal (evalC mg asg) newSig = evalC mg asg n := by
      have h0 := hval0
      unfold sigVal at h0 ⊢
      rw [J.evals newSig.index, J.evals n]
      exact h0
    have hsem : evalNodeWith (evalC mg asg) (sortNode3 (mapNode (substSignal n newSig)
        (childrenOf mg fo))) = evalNodeWith (evalC mg asg) (childrenOf mg fo) :=
      evalNodeWith_sigma (evalC mg asg) n newSig (childrenOf mg fo) hvalmg
    rcases replaceInNode_cases4 mg fo n newSig with hcase | ⟨sg, hcase, hsg⟩ | hcase
    · rw [hcase]
      exact J
    · rw [hcase]
      dsimp only
      have hsr : sg.index < mg.entries.length := by
        rcases hsg with ⟨hmem, -⟩ | ⟨hlive, -, -⟩
        · exact hsigr sg hmem
        · unfold isLiveGate at hlive
          simp only [Bool.and_eq_true, decide_eq_true_eq] at hlive
          exact hlive.1.2
      have hs_le : hgt mg sg.index ≤ hgt mg fo := by
        rcases hsg with ⟨hmem, -⟩ | ⟨hlive, -, hch⟩
        · exact le_of_lt (hsig sg hmem)
        · have hl1 : mg.numPis < sg.index ∧ sg.index < mg.entries.length := by
            unfold isLiveGate at hlive
            simp only [Bool.and_eq_true, decide_eq_true_eq] at hlive
            exact ⟨hlive.1.1, hlive.1.2⟩
          have hex := hgt_exact mg J.acyc hl1.1 hl1.2
          rw [hch] at hex
          have b0 := hsig _ (c0_mem_childList (sortNode3 (mapNode (substSignal n newSig)
            (childrenOf mg fo))))
          have b1 := hsig _ (c1_mem_childList (sortNode3 (mapNode (substSignal n newSig)
            (childrenOf mg fo))))
          have b2 := hsig _ (c2_mem_childList (sortNode3 (mapNode (substSignal n newSig)
            (childrenOf mg fo))))
          have hlt : max (hgt mg (sortNode3 (mapNode (substSignal n newSig)
                (childrenOf mg fo))).c0.index)
              (max (hgt mg (sortNode3 (mapNode (substSignal n newSig)
                (childrenOf mg fo))).c1.index)
               (hgt mg (sortNode3 (mapNode (substSignal n newSig)
                (childrenOf mg fo))).c2.index)) < hgt mg fo :=
            Nat.max_lt.mpr ⟨b0, Nat.max_lt.mpr ⟨b1, b2⟩⟩
          omega
      have hvs : sigVal (evalC mg asg) sg = evalC mg asg fo := by
        rcases hsg with ⟨hmem, hvalp⟩ | ⟨hlive, hcomp2, hch⟩
        · rw [hvalp (evalC mg asg), hsem, ← evalC_exact mg asg J.acyc hfo1' hfo2']
        · have hl1 : mg.numPis < sg.index ∧ sg.index < mg.entries.length := by
            unfold isLiveGate at hlive
            simp only [Bool.and_eq_true, decide_eq_true_eq] at hlive
            exact ⟨hlive.1.1, hlive.1.2⟩
          have hex := evalC_exact mg asg J.acyc hl1.1 hl1.2
          rw [hch] at hex
          unfold sigVal
          rw [hcomp2, Bool.xor_false, hex, hsem,
            ← evalC_exact mg asg J.acyc hfo1' hfo2']
      have hlen' := substituteNode_entries_length mg fo sg
      have hpis' := substituteNode_numPis mg fo sg
      have hcert' := substituteNode_cert mg fo sg (hgt mg) hcert0 hs_le
      obtain ⟨hacyc', hmono'⟩ := acyc_transfer mg (substituteNode mg fo sg) hlen' hcert'
      have hrange' := substituteNode_range mg fo sg J.range hsr
      have hlow_subst : ∀ x, hgt mg x ≤ hgt mg n →
          childrenOf (substituteNode mg fo sg) x = childrenOf mg x := by
        intro x hx
        rw [substituteNode_childrenOf]
        split
        · next hlive =>
            have hx1 : mg.numPis < x ∧ x < mg.entries.length := by
              unfold isLiveGate at hlive
              simp only [Bool.and_eq_true, decide_eq_true_eq] at hlive
              exact ⟨hlive.1.1, hlive.1.2⟩
            have hne : ∀ fi ∈ childList (childrenOf mg x), (fi.index == fo) = false := by
              intro fi hfi
              have hb := hcert0 x hx1.1 hx1.2 fi hfi
              rw [beq_eq_false_iff_ne]
              intro hc
              rw [hc] at hb
              omega
            unfold mapNode substSignal
            rw [hne _ (c0_mem_childList _), hne _ (c1_mem_childList _),
              hne _ (c2_mem_childList _)]
            simp only [Bool.false_eq_true, if_false]
        · rfl
      have hchn' : childrenOf (substituteNode mg fo sg) n = childrenOf mig0 n :=
        (hlow_subst n le_rfl).trans J.chn
      have hhm1 := hgt_frame mg (substituteNode mg fo sg) hlen' hpis' J.acyc (hgt mg n)
        hlow_subst m J.hm
      have hhm2 := hgt_frame mg (substituteNode mg fo sg) hlen' hpis' J.acyc (hgt mg n)
        hlow_subst n le_rfl
      have hev' := substituteNode_evalC mg asg fo sg J.acyc hs_le hvs
      have hvals' := substituteNode_poVals mg asg fo sg J.acyc hs_le hvs
      have hout' : ∀ po ∈ (substituteNode mg fo sg).outputs,
          po.index < (substituteNode mg fo sg).entries.length := by
        intro po hpo
        rw [substituteNode_outputs, List.mem_map] at hpo
        obtain ⟨po0, hpo0, rfl⟩ := hpo
        rw [hlen']
        show (if po0.index == fo then
            (⟨sg.index, xor po0.complement sg.complement⟩ : Signal)
          else po0).index < mg.entries.length
        split
        · exact hsr
        · exact J.out_lt po0 hpo0
      exact ⟨⟨hlen'.trans J.len_eq, hpis'.trans J.pis_eq, hrange', hacyc',
          fun x => le_trans (hmono' x) (J.mono x), hchn',
          by rw [hhm1, hhm2]; exact J.hm⟩,
        hout', fun x => (hev' x).trans (J.evals x), hvals'.trans J.vals⟩
    · rw [hcase]
      dsimp only
      have hlen' := setNodeAt_length mg fo (sortNode3 (mapNode (substSignal n newSig)
        (childrenOf mg fo)))
      have hpis' := setNodeAt_numPis mg fo (sortNode3 (mapNode (substSignal n newSig)
        (childrenOf mg fo)))
      have hcert' := setNode_cert mg fo _ (hgt mg) hcert0 hsig
      obtain ⟨hacyc', hmono'⟩ := acyc_transfer mg (setNodeAt mg fo _) hlen' hcert'
      have hrange' := setNode_range mg fo _ J.range hsigr
      have hlow : ∀ x, hgt mg x ≤ hgt mg n →
          childrenOf (setNodeAt mg fo (sortNode3 (mapNode (substSignal n newSig)
            (childrenOf mg fo)))) x = childrenOf mg x := by
        intro x hx
        apply childrenOf_setNode_ne
        intro hc
        rw [hc] at hx
        omega
      have hhm1 := hgt_frame mg (setNodeAt mg fo _) hlen' hpis' J.acyc (hgt mg n)
        hlow m J.hm
      have hhm2 := hgt_frame mg (setNodeAt mg fo _) hlen' hpis' J.acyc (hgt mg n)
        hlow n le_rfl
      have hev' := setNode_evalC mg asg fo _ J.acyc hsig hsem
      have hout' : ∀ po ∈ (setNodeAt mg fo (sortNode3 (mapNode (substSignal n newSig)
          (childrenOf mg fo)))).outputs,
          po.index < (setNodeAt mg fo (sortNode3 (mapNode (substSignal n newSig)
            (childrenOf mg fo)))).entries.length := by
        intro po hpo
        rw [setNodeAt_outputs] at hpo
        rw [hlen']
        exact J.out_lt po hpo
      have hvals' : poVals (setNodeAt mg fo (sortNode3 (mapNode (substSignal n newSig)
          (childrenOf mg fo)))) asg = poVals mg asg :=
        poVals_congr_of_evals mg _ asg (setNodeAt_outputs mg fo _) hev'
      exact ⟨⟨hlen'.trans J.len_eq, hpis'.trans J.pis_eq, hrange', hacyc',
          fun x => le_trans (hmono' x) (J.mono x),
          by rw [hlow n le_rfl]; exact J.chn,
          by rw [hhm1, hhm2]; exact J.hm⟩,
        hout', fun x => (hev' x).trans (J.evals x), hvals'.trans J.vals⟩

/-- The full IP consumer sweep preserves the value-tracking sweep
invariant. -/
theorem ipFold_val_run (mig0 : MIG) (asg : Nat → Bool) (n m : Nat) (newSig : Signal)
    (hns : newSig.index = m)
    (hn1 : mig0.numPis < n) (hn2 : n < mig0.entries.length)
    (hm2 : m < mig0.entries.length)
    (hval0 : sigVal (evalC mig0 asg) newSig = evalC mig0 asg n) :
    ∀ (l : List Nat) (mg : MIG), IpValFold mig0 asg n m mg →
      (∀ fo ∈ l, mig0.numPis < fo ∧ fo < mig0.entries.length) →
      IpValFold mig0 asg n m (l.foldl (fun mg2 fo =>
        if isDead mg2 fo then mg2
        else if false || isFanoutComp mg2 n fo then
          (match (replaceInNode mg2 fo n newSig).2 with
           | some s => substituteNode (replaceInNode mg2 fo n newSig).1 fo s
           | none => (replaceInNode mg2 fo n newSig).1)
        else mg2) mg) := by
  intro l
  induction l with
  | nil => exact fun mg J _ => J
  | cons fo rest ih =>
      intro mg J hl
      rw [List.foldl_cons]
      obtain ⟨hfo1, hfo2⟩ := hl fo (List.mem_cons_self fo rest)
      exact ih _ (ipFold_body_val mig0 asg n m newSig hns hn1 hn2 hm2 hval0 mg J fo
        hfo1 hfo2) (fun g hg => hl g (List.mem_cons_of_mem fo hg))


/-- `inv_node` of the IP pass preserves the structural loop invariant,
never shrinks the pool, keeps primary outputs in range, and preserves the
observable primary-output values under every assignment. -/
theorem invNodeIP_val_pack (mig : MIG) (asg : Nat → Bool) (n : Nat) (hinv : InvIP mig)
    (hout : ∀ po ∈ mig.outputs, po.index < mig.entries.length)
    (hn1 : mig.numPis < n) (hn2 : n < mig.entries.length) :
    InvIP (invNodeIP mig n).1 ∧
    mig.entries.length ≤ (invNodeIP mig n).1.entries.length ∧
    (invNodeIP mig n).1.numPis = mig.numPis ∧
    (∀ po ∈ (invNodeIP mig n).1.outputs,
      po.index < (invNodeIP mig n).1.entries.length) ∧
    poVals (invNodeIP mig n).1 asg = poVals mig asg := by
  have hpi : isPi mig n = false := by
    unfold isPi
    rw [Bool.eq_false_iff]
    intro h
    simp only [Bool.and_eq_true, decide_eq_true_eq] at h
    omega
  have hcst : isConstant n = false := by
    unfold isConstant
    rw [Bool.eq_false_iff]
    intro h
    simp only [beq_iff_eq] at h
    omega
  have hS : ∀ fi ∈ childList (sortNode3 (mapNode notSignal (childrenOf mig n))),
      hgt mig fi.index < hgt mig n := by
    intro fi hfi
    have hp := (childList_sortNode3_perm (mapNode notSignal (childrenOf mig n))).mem_iff.mp hfi
    rw [childList_mapNode, List.mem_map] at hp
    obtain ⟨fi0, hfi0, rfl⟩ := hp
    exact hgt_cert mig hinv.acyc n hn1 hn2 fi0 hfi0
  have hSr : ∀ fi ∈ childList (sortNode3 (mapNode notSignal (childrenOf mig n))),
      fi.index < mig.entries.length := by
    intro fi hfi
    have hp := (childList_sortNode3_perm (mapNode notSignal (childrenOf mig n))).mem_iff.mp hfi
    rw [childList_mapNode, List.mem_map] at hp
    obtain ⟨fi0, hfi0, rfl⟩ := hp
    exact hinv.range n hn1 hn2 fi0 hfi0
  have hSidx : ∀ fi ∈ childList (sortNode3 (mapNode notSignal (childrenOf mig n))),
      ∃ fi0 ∈ childList (childrenOf mig n), fi.index = fi0.index := by
    intro fi hfi
    have hp := (childList_sortNode3_perm (mapNode notSignal (childrenOf mig n))).mem_iff.mp hfi
    rw [childList_mapNode, List.mem_map] at hp
    obtain ⟨fi0, hfi0, rfl⟩ := hp
    exact ⟨fi0, hfi0, rfl⟩
  have hflip : evalNodeWith (evalC mig asg)
      (sortNode3 (mapNode notSignal (childrenOf mig n))) = !(evalC mig asg n) := by
    rw [evalNodeWith_perm (evalC mig asg) (childList_sortNode3_perm
        (mapNode notSignal (childrenOf mig n))), evalNodeWith_mapNot,
      ← evalC_exact mig asg hinv.acyc hn1 hn2]
  unfold invNodeIP
  rw [if_neg (by rw [hpi, hcst]; simp)]
  dsimp only
  rcases createMaj_cases4 mig (notSignal (childrenOf mig n).c0)
      (notSignal (childrenOf mig n).c1) (notSignal (childrenOf mig n).c2)
    with ⟨t, hcm, ht⟩ | ⟨hcm, hnone⟩
  · rw [hcm]
    dsimp only
    have hvalT : sigVal (evalC mig asg) t = !(evalC mig asg n) := by
      rcases ht with ⟨hmem, hvalp⟩ | ⟨hlive, hcomp, hch⟩
      · rw [hvalp (evalC mig asg)]
        exact hflip
      · have hl1 : mig.numPis < t.index ∧ t.index < mig.entries.length := by
          unfold isLiveGate at hlive
          simp only [Bool.and_eq_true, decide_eq_true_eq] at hlive
          exact ⟨hlive.1.1, hlive.1.2⟩
        have hex := evalC_exact mig asg hinv.acyc hl1.1 hl1.2
        rw [hch] at hex
        unfold sigVal
        rw [hcomp, Bool.xor_false, hex]
        exact hflip
    have hvalNew : sigVal (evalC mig asg) (notSignal t) = evalC mig asg n := by
      rw [sigVal_not, hvalT, Bool.not_not]
    have hm_le : hgt mig t.index ≤ hgt mig n := by
      rcases ht with ⟨hmem, -⟩ | ⟨hlive, -, hch⟩
      · exact le_of_lt (hS t hmem)
      · have hl1 : mig.numPis < t.index ∧ t.index < mig.entries.length := by
          unfold isLiveGate at hlive
          simp only [Bool.and_eq_true, decide_eq_true_eq] at hlive
          exact ⟨hlive.1.1, hlive.1.2⟩
        have hch' : childrenOf mig t.index
            = sortNode3 (mapNode notSignal (childrenOf mig n)) := hch
        have hex := hgt_exact mig hinv.acyc hl1.1 hl1.2
        rw [hch'] at hex
        have b0 := hS _ (c0_mem_childList (sortNode3 (mapNode notSignal
          (childrenOf mig n))))
        have b1 := hS _ (c1_mem_childList (sortNode3 (mapNode notSignal
          (childrenOf mig n))))
        have b2 := hS _ (c2_mem_childList (sortNode3 (mapNode notSignal
          (childrenOf mig n))))
        have hlt : max (hgt mig (sortNode3 (mapNode notSignal
              (childrenOf mig n))).c0.index)
            (max (hgt mig (sortNode3 (mapNode notSignal (childrenOf mig n))).c1.index)
              (hgt mig (sortNode3 (mapNode notSignal (childrenOf mig n))).c2.index))
            < hgt mig n :=
          Nat.max_lt.mpr ⟨b0, Nat.max_lt.mpr ⟨b1, b2⟩⟩
        omega
    have hm_lt : t.index < mig.entries.length := by
      rcases ht with ⟨hmem, -⟩ | ⟨hlive, -, -⟩
      · exact hSr t hmem
      · unfold isLiveGate at hlive
        simp only [Bool.and_eq_true, decide_eq_true_eq] at hlive
        exact hlive.1.2
    set B := replaceInOutputsCondComp mig n (notSignal t) false with hB
    have hBlen : B.entries.length = mig.entries.length := by
      rw [hB, roccc_entries]
    have hBpis : B.numPis = mig.numPis := by rw [hB, roccc_numPis]
    have hBch : ∀ x, childrenOf B x = childrenOf mig x := by
      intro x
      rw [hB]
      exact roccc_childrenOf mig n (notSignal t) false x
    have hBhgt := hgt_congr mig B hBch hBlen hBpis
    have hBacyc := acyc_congr mig B hBch hBlen hBpis hinv.acyc
    have hBrange : ChildRange B := by
      intro x hx1 hx2 fi hfi
      rw [hBch] at hfi
      rw [hBlen] at hx2 ⊢
      rw [hBpis] at hx1
      exact hinv.range x hx1 hx2 fi hfi
    have hBevals : ∀ x, evalC B asg x = evalC mig asg x := by
      intro x
      rw [hB]
      exact roccc_evalC mig asg n (notSignal t) false x
    have hBvals : poVals B asg = poVals mig asg := by
      rw [hB]
      exact roccc_poVals mig asg n (notSignal t) false hvalNew
    have hBout : ∀ po ∈ B.outputs, po.index < B.entries.length := by
      rw [hB]
      exact roccc_out_lt mig n (notSignal t) false hout hm_lt
    have hvalB : sigVal (evalC B asg) (notSignal t) = evalC B asg n := by
      have h0 := hvalNew
      unfold sigVal at h0 ⊢
      rw [hBevals, hBevals]
      exact h0
    have J0 : IpValFold B asg n (notSignal t).index B :=
      ⟨⟨rfl, rfl, hBrange, hBacyc, fun x => le_rfl, rfl, by
          rw [hBhgt, hBhgt]
          exact hm_le⟩, hBout, fun x => rfl, rfl⟩
    have hgs : ∀ fo ∈ gateIndices B, B.numPis < fo ∧ fo < B.entries.length := by
      intro fo hfo
      unfold gateIndices at hfo
      simp only [List.mem_filter, List.mem_range, decide_eq_true_eq] at hfo
      exact ⟨hfo.2, hfo.1⟩
    have Jf := ipFold_val_run B asg n (notSignal t).index (notSignal t) rfl
      (by rw [hBpis]; exact hn1) (by rw [hBlen]; exact hn2)
      (by rw [hBlen]; exact hm_lt) hvalB (gateIndices B) B J0 hgs
    obtain ⟨hfin_inv, hfin_len, hfin_pis, hfin_mono, hfin_chn⟩ :=
      ip_final_wrap mig B n (notSignal t).index hBpis (le_of_eq hBlen.symm)
        (by rw [hBpis, hBlen]; exact hinv.pis_lt)
        (fun x hx => le_of_eq (hBhgt x)) (hBch n) _ Jf.toIpFoldInv
    refine ⟨hfin_inv, hfin_len, hfin_pis, ?_, ?_⟩
    · split
      · intro po hpo
        rw [takeOutNode_outputs] at hpo
        rw [takeOutNode_length]
        exact Jf.out_lt po hpo
      · intro po hpo
        exact Jf.out_lt po hpo
    · split
      · rw [takeOutNode_poVals, Jf.vals, hBvals]
      · rw [Jf.vals, hBvals]
  · rw [hcm]
    dsimp only
    obtain ⟨hArange, hAacyc, hAmono, hAhm, hAchn⟩ := append_invIP mig hinv n hn1 hn2
      ⟨⟨(sort3 (notSignal (childrenOf mig n).c0) (notSignal (childrenOf mig n).c1)
          (notSignal (childrenOf mig n).c2)).1,
        (sort3 (notSignal (childrenOf mig n).c0) (notSignal (childrenOf mig n).c1)
          (notSignal (childrenOf mig n).c2)).2.1,
        (sort3 (notSignal (childrenOf mig n).c0) (notSignal (childrenOf mig n).c1)
          (notSignal (childrenOf mig n).c2)).2.2⟩, false⟩
      (fun fi hfi => hS fi hfi) (fun fi hfi => hSr fi hfi) (fun fi hfi => hSidx fi hfi)
    set A := ({ mig with entries := mig.entries ++
      [(⟨⟨(sort3 (notSignal (childrenOf mig n).c0) (notSignal (childrenOf mig n).c1)
          (notSignal (childrenOf mig n).c2)).1,
        (sort3 (notSignal (childrenOf mig n).c0) (notSignal (childrenOf mig n).c1)
          (notSignal (childrenOf mig n).c2)).2.1,
        (sort3 (notSignal (childrenOf mig n).c0) (notSignal (childrenOf mig n).c1)
          (notSignal (childrenOf mig n).c2)).2.2⟩, false⟩ : Entry)] } : MIG) with hA
    have hApis : A.numPis = mig.numPis := by rw [hA]
    have hAlen : A.entries.length = mig.entries.length + 1 := by
      rw [hA]
      dsimp only
      rw [List.length_append, List.length_singleton]
    have hAold : ∀ {x : Nat}, x < mig.entries.length →
        evalC A asg x = evalC mig asg x := by
      intro x hx
      rw [hA]
      exact append_evalC_old mig asg _ hinv.acyc hinv.range hx
    have hAnew : evalC A asg mig.entries.length = !(evalC mig asg n) := by
      rw [hA, append_evalC_new mig asg _ hinv.acyc hinv.range hinv.pis_lt
        (fun fi hfi => hSr fi hfi)]
      exact hflip
    have hvalA : sigVal (evalC A asg)
        (notSignal (⟨mig.entries.length, false⟩ : Signal)) = evalC A asg n := by
      unfold sigVal notSignal
      dsimp only
      rw [Bool.not_false, hAnew, hAold hn2]
      cases evalC mig asg n <;> rfl
    have hAvals : poVals A asg = poVals mig asg := by
      apply poVals_congr_mem mig A asg (by rw [hA])
      intro po hpo
      exact hAold (hout po hpo)
    have hAout : ∀ po ∈ A.outputs, po.index < A.entries.length := by
      intro po hpo
      have hpo' : po ∈ mig.outputs := by rw [hA] at hpo; exact hpo
      rw [hAlen]
      have := hout po hpo'
      omega
    set B := replaceInOutputsCondComp A n
      (notSignal (⟨mig.entries.length, false⟩ : Signal)) false with hB
    have hBlenA : B.entries.length = A.entries.length := by
      rw [hB, roccc_entries]
    have hBpisA : B.numPis = A.numPis := by rw [hB, roccc_numPis]
    have hBchA : ∀ x, childrenOf B x = childrenOf A x := by
      intro x
      rw [hB]
      exact roccc_childrenOf A n _ false x
    have hBhgt := hgt_congr A B hBchA hBlenA hBpisA
    have hBacyc := acyc_congr A B hBchA hBlenA hBpisA hAacyc
    have hBrange : ChildRange B := by
      intro x hx1 hx2 fi hfi
      rw [hBchA] at hfi
      rw [hBlenA] at hx2 ⊢
      rw [hBpisA] at hx1
      exact hArange x hx1 hx2 fi hfi
    have hBevals : ∀ x, evalC B asg x = evalC A asg x := by
      intro x
      rw [hB]
      exact roccc_evalC A asg n _ false x
    have hBvals : poVals B asg = poVals A asg := by
      rw [hB]
      exact roccc_poVals A asg n _ false hvalA
    have hBout : ∀ po ∈ B.outputs, po.index < B.entries.length := by
      rw [hB]
      exact roccc_out_lt A n _ false hAout
        (by rw [hAlen]
            show mig.entries.length < mig.entries.length + 1
            omega)
    have hvalB : sigVal (evalC B asg)
        (notSignal (⟨mig.entries.length, false⟩ : Signal)) = evalC B asg n := by
      have h0 := hvalA
      unfold sigVal at h0 ⊢
      rw [hBevals, hBevals]
      exact h0
    have J0 : IpValFold B asg n mig.entries.length B :=
      ⟨⟨rfl, rfl, hBrange, hBacyc, fun x => le_rfl, rfl, by
          rw [hBhgt, hBhgt]
          exact hAhm⟩, hBout, fun x => rfl, rfl⟩
    have hgs : ∀ fo ∈ gateIndices B, B.numPis < fo ∧ fo < B.entries.length := by
      intro fo hfo
      unfold gateIndices at hfo
      simp only [List.mem_filter, List.mem_range, decide_eq_true_eq] at hfo
      exact ⟨hfo.2, hfo.1⟩
    have Jf := ipFold_val_run B asg n mig.entries.length
      (notSignal (⟨mig.entries.length, false⟩ : Signal)) rfl
      (by rw [hBpisA, hApis]; exact hn1)
      (by rw [hBlenA, hAlen]; omega)
      (by rw [hBlenA, hAlen]; omega)
      hvalB (gateIndices B) B J0 hgs
    obtain ⟨hfin_inv, hfin_len, hfin_pis, hfin_mono, hfin_chn⟩ :=
      ip_final_wrap mig B n mig.entries.length (hBpisA.trans hApis)
        (by rw [hBlenA, hAlen]; omega)
        (by rw [hBpisA, hApis, hBlenA, hAlen]; have := hinv.pis_lt; omega)
        (fun x hx => by rw [hBhgt x]; exact hAmono x hx)
        ((hBchA n).trans hAchn) _ Jf.toIpFoldInv
    refine ⟨hfin_inv, hfin_len, hfin_pis, ?_, ?_⟩
    · split
      · intro po hpo
        rw [takeOutNode_outputs] at hpo
        rw [takeOutNode_length]
        exact Jf.out_lt po hpo
      · intro po hpo
        exact Jf.out_lt po hpo
    · split
      · rw [takeOutNode_poVals, Jf.vals, hBvals, hAvals]
      · rw [Jf.vals, hBvals, hAvals]


/-- One iteration of the IP work-queue loop keeps primary outputs in range
and preserves the observable primary-output values. -/
theorem ipStep_val (mig : MIG) (asg : Nat → Bool) (n : Nat) (q : List Nat)
    (hinv : InvIP mig) (hq : ∀ x ∈ n :: q, x < mig.entries.length)
    (hout : ∀ po ∈ mig.outputs, po.index < mig.entries.length) :
    (∀ po ∈ (ipStep (mig, n :: q)).1.outputs,
      po.index < (ipStep (mig, n :: q)).1.entries.length) ∧
    poVals (ipStep (mig, n :: q)).1 asg = poVals mig asg := by
  unfold ipStep
  dsimp only
  by_cases hskip : (isConstant n || isPi mig n || isDead mig n) = true
  · rw [if_pos hskip]
    dsimp only
    exact ⟨hout, rfl⟩
  · rw [if_neg hskip]
    have hn2 : n < mig.entries.length := hq n (List.mem_cons_self n q)
    have hc1 : isConstant n = false := by
      by_contra hc
      rw [Bool.not_eq_false] at hc
      rw [hc] at hskip
      simp at hskip
    have hpi2 : isPi mig n = false := by
      by_contra hc
      rw [Bool.not_eq_false] at hc
      rw [hc] at hskip
      simp at hskip
    have hn1 : mig.numPis < n := by
      unfold isConstant at hc1
      rw [Bool.eq_false_iff] at hpi2
      simp only [beq_eq_false_iff_ne] at hc1
      by_contra hcon
      apply hpi2
      unfold isPi
      simp only [Bool.and_eq_true, decide_eq_true_eq]
      omega
    by_cases hcf : hasCompFanout mig n = true
    · rw [if_pos hcf]
      dsimp only
      obtain ⟨hinv', hlen', hpis', hout', hvals'⟩ :=
        invNodeIP_val_pack mig asg n hinv hout hn1 hn2
      exact ⟨hout', hvals'⟩
    · rw [if_neg hcf]
      dsimp only
      exact ⟨hout, rfl⟩

/-- The IP work-queue loop preserves the observable primary-output values
whenever it returns a final network. -/
theorem ipLoop_vals (asg : Nat → Bool) :
    ∀ (fuel : Nat) (mg : MIG) (q : List Nat) (mig' : MIG),
      InvIP mg → (∀ x ∈ q, x < mg.entries.length) →
      (∀ po ∈ mg.outputs, po.index < mg.entries.length) →
      ipLoop fuel (mg, q) = some mig' → poVals mig' asg = poVals mg asg := by
  intro fuel
  induction fuel with
  | zero =>
      intro mg q mig' hinv hq hout h
      cases q with
      | nil =>
          have h' : mg = mig' := Option.some.inj h
          rw [← h']
      | cons n q' => exact Option.noConfusion (h : (none : Option MIG) = some mig')
  | succ f ih =>
      intro mg q mig' hinv hq hout h
      cases q with
      | nil =>
          have h' : mg = mig' := Option.some.inj h
          rw [← h']
      | cons n q' =>
          have hstep : ipLoop (f + 1) (mg, n :: q') = ipLoop f (ipStep (mg, n :: q')) :=
            rfl
          rw [hstep] at h
          obtain ⟨hinv2, hq2, -⟩ := ipStep_pack mg n q' hinv hq
          obtain ⟨hout2, hvals2⟩ := ipStep_val mg asg n q' hinv hq hout
          exact ((ih (ipStep (mg, n :: q')).1 (ipStep (mg, n :: q')).2 mig' hinv2 hq2
            hout2 h).trans hvals2)

/-- Claim C1: on every network satisfying the invariants (decidable form
`wellFormedIdx`, with acyclicity I3 read index-wise) and under every
assignment of Boolean values to the primary inputs, the value computed at
every primary output is preserved: the IM pass's result has the same
primary-output value list as the input network, and whenever the IP
work-queue loop returns a final network within its fuel, that network has
the same primary-output value list as the input network. -/
theorem c1_semantics_preserved (mig : MIG) (h : wellFormedIdx mig = true)
    (asg : Nat → Bool) :
    poVals (migInvMinimization mig).1 asg = poVals mig asg ∧
    ∀ (fuel : Nat) (mig' : MIG), (migInvPropogation fuel mig).1 = some mig' →
      poVals mig' asg = poVals mig asg := by
  obtain ⟨hinv, ho⟩ := wellFormedIdx_facts mig h
  refine ⟨imRun_val mig asg hinv ho, ?_⟩
  intro fuel mig' hip
  have hseeds : ∀ x ∈ ipSeeds mig, x < mig.entries.length := by
    intro x hx
    unfold ipSeeds at hx
    rw [List.mem_map] at hx
    obtain ⟨po, hpo, rfl⟩ := hx
    exact ho po hpo
  exact ipLoop_vals asg fuel mig (ipSeeds mig) mig' hinv hseeds ho hip

/-- The preservation theorem instantiated on the concrete network netD
under the all-true input assignment. -/
theorem c1_semantics_preserved_witness :
    wellFormedIdx netD = true ∧
    (poVals (migInvMinimization netD).1 (fun _ => true)
        = poVals netD (fun _ => true) ∧
     ∀ (fuel : Nat) (mig' : MIG), (migInvPropogation fuel netD).1 = some mig' →
       poVals mig' (fun _ => true) = poVals netD (fun _ => true)) :=
  ⟨by decide, c1_semantics_preserved netD (by decide) (fun _ => true)⟩

end Mockturtle
